import Mathlib

/-!
Anchor generation and non-maximum suppression of `gl2blazepose/glue_mediapipe.cpp`.

A shallow embedding of the three functions of the file, `CalculateScale`,
`GenerateAnchors` and `non_max_suppression` (with its helpers
`calc_intersection_over_union` and `compare`), and theorems about them.

Conventions of the embedding.

* A finite C `float` value is the rational (`ℚ`) it denotes, and the arithmetic
  comes in two layers.  The exact layer (`CalculateScale`,
  `calc_intersection_over_union`, `non_max_suppression`) computes without
  rounding; it carries the statements on the structure of the loops.  The
  machine layer (`CalculateScale_f32`, `calc_intersection_over_union_f32`,
  `non_max_suppression_f32`, and the grid size `ceil_float_quotient` of
  `GenerateAnchors`) computes every operation as the binary32 or binary64
  operation of the C types, rounded to nearest with ties to even, with
  overflow to infinity and with NaN; it carries the statements on the values.
* C `int` loop counters and container sizes are natural numbers; `int` data
  that may be negative (strides, feature-map sizes, input sizes) are integers.
* `std::vector` and `std::list` are `List`; `push_back` appends at the end.
* Reading a vector outside its bounds, and converting a non-finite float to
  `int`, are undefined behaviour in C++; the embedding returns `none` there.
* Every machine operation is rounded once, to the type the C expression has
  (no excess precision, no fused multiply-add), and small results underflow
  gradually.  The two zeros are not told apart.
* The header `glue_mediapipe.h` is not part of the sources.  The record types it
  declares are reconstructed from the fields the code reads, and the constant
  `MAX_POSE_NUM`, a positive count fixed at compile time, is a parameter.
-/

namespace GlueMediapipe

/-! ## Data model -/

/-- Modelled from the spec: a 2-D point with `float` coordinates, the type of the
corner fields `topleft` and `btmright` read by `calc_intersection_over_union`
(the declaration is in the absent header). -/
structure fvec2 where
  x : ℚ
  y : ℚ
  deriving DecidableEq

/-- Modelled from the spec: the scored region handled by the suppression (declared
in the absent header).  The code reads `score`, `topleft` and `btmright`; every
other field (key points and so on) is carried along as the opaque `payload`. -/
structure detect_region_t (aux : Type) where
  score : ℚ
  topleft : fvec2
  btmright : fvec2
  payload : aux
  deriving DecidableEq

/-- Modelled from the spec: the anchor record filled by `GenerateAnchors` (declared
in the absent header). -/
structure Anchor where
  x_center : ℚ
  y_center : ℚ
  w : ℚ
  h : ℚ
  deriving DecidableEq

/-- Modelled from the spec: the option record read by `GenerateAnchors` (declared in
the absent header); one field per member the code accesses. -/
structure SsdAnchorsCalculatorOptions where
  strides : List Int
  min_scale : ℚ
  max_scale : ℚ
  reduce_boxes_in_lowest_layer : Bool
  aspect_ratios : List ℚ
  interpolated_scale_aspect_ratio : ℚ
  feature_map_height : List Int
  feature_map_width : List Int
  input_size_height : Int
  input_size_width : Int
  anchor_offset_x : ℚ
  anchor_offset_y : ℚ
  fixed_anchor_size : Bool

/-! ## Binary floating point

The machine arithmetic of the C types `float` (binary32) and `double` (binary64),
for the statements that depend on rounding, overflow or NaN.  A finite value is
the rational it denotes; the two zeros are not told apart, which no comparison in
the code can observe.  Every operation computes the exact result and rounds it to
the nearest value of the format, ties to even. -/

/-- Rounding of a rational to the nearest integer, ties to the even integer. -/
def rne (x : ℚ) : Int :=
  if x - (Int.floor x : ℚ) < 1 / 2 then Int.floor x
  else if 1 / 2 < x - (Int.floor x : ℚ) then Int.floor x + 1
  else if Int.floor x % 2 = 0 then Int.floor x else Int.floor x + 1

/-- The number of halvings that bring `n` below 2, with `fuel` steps at most. -/
def nat_log2 : Nat → Nat → Nat
  | 0, _ => 0
  | fuel + 1, n => if n < 2 then 0 else nat_log2 fuel (n / 2) + 1

/-- The binary exponent of a non-zero rational: the `e` with `2 ^ e ≤ |x| < 2 ^ (e + 1)`. -/
def floor_log2 (x : ℚ) : Int :=
  if (2 : ℚ) ^ ((nat_log2 x.num.natAbs x.num.natAbs : Int) - (nat_log2 x.den x.den : Int)) ≤ |x| then
    (nat_log2 x.num.natAbs x.num.natAbs : Int) - (nat_log2 x.den x.den : Int)
  else
    (nat_log2 x.num.natAbs x.num.natAbs : Int) - (nat_log2 x.den x.den : Int) - 1

/-- A binary format: the number of significant bits and the least and greatest
exponents of its normal values. -/
structure float_format where
  prec : Nat
  emin : Int
  emax : Int

/-- The format of `float`. -/
def binary32 : float_format := ⟨24, -126, 127⟩

/-- The format of `double`. -/
def binary64 : float_format := ⟨53, -1022, 1023⟩

/-- The spacing of the values of the format around `x`: `2 ^ (e - prec + 1)` for the
exponent `e` of `x`, and the spacing of the subnormal values below `2 ^ emin`. -/
def quantum (fmt : float_format) (x : ℚ) : ℚ :=
  (2 : ℚ) ^ (max (floor_log2 x) fmt.emin - ((fmt.prec : Int) - 1))

/-- The value of the format nearest to `x`, ties to even, the exponent unbounded
above. -/
def round_fin (fmt : float_format) (x : ℚ) : ℚ :=
  (rne (x / quantum fmt x) : ℚ) * quantum fmt x

/-- A rational is a value of the format (exponent unbounded above) when it is
`m * 2 ^ e` for an integer `m` of fewer than `prec` bits and an exponent `e` not
below that of the subnormal values. -/
def is_float (fmt : float_format) (x : ℚ) : Prop :=
  ∃ (m e : Int), |m| < 2 ^ fmt.prec ∧ fmt.emin - ((fmt.prec : Int) - 1) ≤ e ∧
    x = (m : ℚ) * (2 : ℚ) ^ e

/-- A value of a floating-point type: not-a-number, an infinity, or a finite value. -/
inductive fval where
  | nan : fval
  | pinf : fval
  | ninf : fval
  | fin : ℚ → fval
  deriving DecidableEq

/-- The rounding of an exact result into the format: results whose rounding reaches
`2 ^ (emax + 1)` in magnitude overflow to an infinity. -/
def fround (fmt : float_format) (x : ℚ) : fval :=
  if (2 : ℚ) ^ (fmt.emax + 1) ≤ round_fin fmt x then fval.pinf
  else if round_fin fmt x ≤ -(2 : ℚ) ^ (fmt.emax + 1) then fval.ninf
  else fval.fin (round_fin fmt x)

/-- Floating-point addition. -/
def fadd (fmt : float_format) : fval → fval → fval
  | fval.fin a, fval.fin b => fround fmt (a + b)
  | fval.nan, _ => fval.nan
  | _, fval.nan => fval.nan
  | fval.pinf, fval.ninf => fval.nan
  | fval.ninf, fval.pinf => fval.nan
  | fval.pinf, _ => fval.pinf
  | _, fval.pinf => fval.pinf
  | fval.ninf, _ => fval.ninf
  | _, fval.ninf => fval.ninf

/-- Floating-point negation. -/
def fneg : fval → fval
  | fval.nan => fval.nan
  | fval.pinf => fval.ninf
  | fval.ninf => fval.pinf
  | fval.fin a => fval.fin (-a)

/-- Floating-point subtraction. -/
def fsub (fmt : float_format) (a b : fval) : fval :=
  fadd fmt a (fneg b)

/-- Floating-point multiplication; an infinity times zero is not a number. -/
def fmul (fmt : float_format) : fval → fval → fval
  | fval.fin a, fval.fin b => fround fmt (a * b)
  | fval.nan, _ => fval.nan
  | _, fval.nan => fval.nan
  | fval.pinf, fval.pinf => fval.pinf
  | fval.ninf, fval.ninf => fval.pinf
  | fval.pinf, fval.ninf => fval.ninf
  | fval.ninf, fval.pinf => fval.ninf
  | fval.pinf, fval.fin b => if b = 0 then fval.nan else if 0 < b then fval.pinf else fval.ninf
  | fval.ninf, fval.fin b => if b = 0 then fval.nan else if 0 < b then fval.ninf else fval.pinf
  | fval.fin a, fval.pinf => if a = 0 then fval.nan else if 0 < a then fval.pinf else fval.ninf
  | fval.fin a, fval.ninf => if a = 0 then fval.nan else if 0 < a then fval.ninf else fval.pinf

/-- Floating-point division.  A finite non-zero value divided by zero is given the
sign of the numerator, as for the positive zero. -/
def fdiv (fmt : float_format) : fval → fval → fval
  | fval.fin a, fval.fin b =>
      if b = 0 then (if a = 0 then fval.nan else if 0 < a then fval.pinf else fval.ninf)
      else fround fmt (a / b)
  | fval.nan, _ => fval.nan
  | _, fval.nan => fval.nan
  | fval.fin _, fval.pinf => fval.fin 0
  | fval.fin _, fval.ninf => fval.fin 0
  | fval.pinf, fval.fin b => if 0 ≤ b then fval.pinf else fval.ninf
  | fval.ninf, fval.fin b => if 0 ≤ b then fval.ninf else fval.pinf
  | fval.pinf, fval.pinf => fval.nan
  | fval.pinf, fval.ninf => fval.nan
  | fval.ninf, fval.pinf => fval.nan
  | fval.ninf, fval.ninf => fval.nan

/-- The comparison `a < b` of two floating-point values; false when either is not a
number. -/
def flt : fval → fval → Bool
  | fval.fin a, fval.fin b => decide (a < b)
  | fval.nan, _ => false
  | _, fval.nan => false
  | fval.ninf, fval.ninf => false
  | fval.ninf, _ => true
  | _, fval.ninf => false
  | fval.pinf, _ => false
  | _, fval.pinf => true

/-- The comparison `a <= b` of two floating-point values; false when either is not a
number. -/
def fle : fval → fval → Bool
  | fval.fin a, fval.fin b => decide (a ≤ b)
  | fval.nan, _ => false
  | _, fval.nan => false
  | fval.ninf, _ => true
  | _, fval.pinf => true
  | fval.pinf, _ => false
  | _, fval.ninf => false

/-- The library function `std::max (a, b)`, which is `(a < b) ? b : a`. -/
def std_max (a b : fval) : fval :=
  if flt a b then b else a

/-! ## `CalculateScale` (lines 22-29) -/

/-- The scale of the sub-layer `stride_index` among `num_strides` sub-layers, computed
without rounding.  The machine computation is `CalculateScale_f32`. -/
def CalculateScale (min_scale max_scale : ℚ) (stride_index num_strides : Int) : ℚ :=
  if num_strides = 1 then
    (min_scale + max_scale) * (1 / 2)
  else
    min_scale + (max_scale - min_scale) * 1 * (stride_index : ℚ) / ((num_strides : ℚ) - 1)

/-! ## `calc_intersection_over_union` (lines 128-163) -/

/-- Intersection over union of two regions whose corners may come in any order,
computed without rounding.  The machine computation is
`calc_intersection_over_union_f32`. -/
def calc_intersection_over_union {aux : Type} (region0 region1 : detect_region_t aux) : ℚ :=
  let sx0 := region0.topleft.x
  let sy0 := region0.topleft.y
  let ex0 := region0.btmright.x
  let ey0 := region0.btmright.y
  let sx1 := region1.topleft.x
  let sy1 := region1.topleft.y
  let ex1 := region1.btmright.x
  let ey1 := region1.btmright.y
  let xmin0 := min sx0 ex0
  let ymin0 := min sy0 ey0
  let xmax0 := max sx0 ex0
  let ymax0 := max sy0 ey0
  let xmin1 := min sx1 ex1
  let ymin1 := min sy1 ey1
  let xmax1 := max sx1 ex1
  let ymax1 := max sy1 ey1
  let area0 := (ymax0 - ymin0) * (xmax0 - xmin0)
  let area1 := (ymax1 - ymin1) * (xmax1 - xmin1)
  if area0 ≤ 0 ∨ area1 ≤ 0 then
    0
  else
    let intersect_xmin := max xmin0 xmin1
    let intersect_ymin := max ymin0 ymin1
    let intersect_xmax := min xmax0 xmax1
    let intersect_ymax := min ymax0 ymax1
    let intersect_area :=
      max (intersect_ymax - intersect_ymin) 0 * max (intersect_xmax - intersect_xmin) 0
    intersect_area / (area0 + area1 - intersect_area)

/-! ## `compare` and `non_max_suppression` (lines 165-205) -/

/-- The comparator handed to `std::list::sort`: strictly greater score first. -/
def compare {aux : Type} (v1 v2 : detect_region_t aux) : Bool :=
  if v1.score > v2.score then true else false

/-- The call `region_list.sort (compare)` of line 177.  `std::list::sort` is a stable
sort: the result is ordered by the comparator and elements that the comparator
does not separate keep their relative order.  A stable sort is determined by
that contract, so the library merge sort stands for it; it takes the left
element first unless the right one has to come strictly before it. -/
def list_sort {aux : Type} (region_list : List (detect_region_t aux)) :
    List (detect_region_t aux) :=
  region_list.mergeSort (fun v1 v2 => !compare v2 v1)

/-- The inner loop of lines 184-194 over the regions still to be visited, in the
order of the iteration: the first region whose overlap with the candidate reaches
the threshold sets `ignore_candidate` and leaves the loop. -/
def ignore_scan {aux : Type} (region_candidate : detect_region_t aux) (iou_thresh : ℚ) :
    List (detect_region_t aux) → Bool
  | [] => false
  | region_nms :: rest =>
      if calc_intersection_over_union region_candidate region_nms ≥ iou_thresh then
        true
      else
        ignore_scan region_candidate iou_thresh rest

/-- The value of `ignore_candidate` after the inner loop: the accepted list is walked
from its back to its front (`rbegin` to `rend`). -/
def ignore_candidate {aux : Type} (region_candidate : detect_region_t aux)
    (region_nms_list : List (detect_region_t aux)) (iou_thresh : ℚ) : Bool :=
  ignore_scan region_candidate iou_thresh region_nms_list.reverse

/-- The outer loop of lines 179-202 over the candidates still to be visited; the
second list is the accepted list `region_nms_list` as it stands. -/
def nms_loop {aux : Type} (MAX_POSE_NUM : Nat) (iou_thresh : ℚ) :
    List (detect_region_t aux) → List (detect_region_t aux) → List (detect_region_t aux)
  | [], region_nms_list => region_nms_list
  | region_candidate :: rest, region_nms_list =>
      if ignore_candidate region_candidate region_nms_list iou_thresh then
        nms_loop MAX_POSE_NUM iou_thresh rest region_nms_list
      else
        if (region_nms_list ++ [region_candidate]).length ≥ MAX_POSE_NUM then
          region_nms_list ++ [region_candidate]
        else
          nms_loop MAX_POSE_NUM iou_thresh rest (region_nms_list ++ [region_candidate])

/-- What a call of `non_max_suppression` leaves behind: the returned code and the two
lists it received by reference. -/
structure nms_state (aux : Type) where
  ret : Int
  region_list : List (detect_region_t aux)
  region_nms_list : List (detect_region_t aux)

/-- The function `non_max_suppression`: sort the candidates in place, run the greedy
loop, return 0.  The overlap measure is computed without rounding; the machine
computation is `non_max_suppression_f32`. -/
def non_max_suppression {aux : Type} (MAX_POSE_NUM : Nat)
    (region_list region_nms_list : List (detect_region_t aux)) (iou_thresh : ℚ) :
    nms_state aux :=
  { ret := 0
    region_list := list_sort region_list
    region_nms_list := nms_loop MAX_POSE_NUM iou_thresh (list_sort region_list) region_nms_list }

/-! ## `GenerateAnchors` (lines 31-120) -/

/-- The pairs that one pass of the merge loop (lines 46-74) pushes for the sub-layer
`last_same_stride_layer`: the aspect ratios and, at the same positions, the
scales.  The loop of lines 58-63 pushes every configured aspect ratio together
with `scale`.  `sqrt` stands for `std::sqrt`. -/
def sub_layer_pairs (sqrt : ℚ → ℚ) (options : SsdAnchorsCalculatorOptions)
    (last_same_stride_layer : Nat) : List ℚ × List ℚ :=
  let scale := CalculateScale options.min_scale options.max_scale
    last_same_stride_layer options.strides.length
  if last_same_stride_layer = 0 ∧ options.reduce_boxes_in_lowest_layer = true then
    ([1, 2, 1 / 2], [1 / 10, scale, scale])
  else
    let aspect_ratios := options.aspect_ratios
    let scales := List.replicate options.aspect_ratios.length scale
    if options.interpolated_scale_aspect_ratio > 0 then
      let scale_next :=
        if (last_same_stride_layer : Int) = (options.strides.length : Int) - 1 then 1
        else CalculateScale options.min_scale options.max_scale
          (last_same_stride_layer + 1) options.strides.length
      (aspect_ratios ++ [options.interpolated_scale_aspect_ratio],
        scales ++ [sqrt (scale * scale_next)])
    else
      (aspect_ratios, scales)

/-- The merge loop of lines 42-76, entered with the current value of
`last_same_stride_layer` and of the vectors `aspect_ratios` and `scales`; it
returns their values when the loop is left.  Both reads of `strides` are in
range: the first is guarded by the left conjunct, and `layer_id` is below the
size in every call made by the outer loop. -/
def merge_loop (sqrt : ℚ → ℚ) (options : SsdAnchorsCalculatorOptions) (layer_id : Nat)
    (last_same_stride_layer : Nat) (aspect_ratios scales : List ℚ) : Nat × List ℚ × List ℚ :=
  if last_same_stride_layer < options.strides.length ∧
      options.strides.getD last_same_stride_layer 0 = options.strides.getD layer_id 0 then
    merge_loop sqrt options layer_id (last_same_stride_layer + 1)
      (aspect_ratios ++ (sub_layer_pairs sqrt options last_same_stride_layer).1)
      (scales ++ (sub_layer_pairs sqrt options last_same_stride_layer).2)
  else
    (last_same_stride_layer, aspect_ratios, scales)
termination_by options.strides.length - last_same_stride_layer

/-- The vector `anchor_height` after the loop of lines 78-82 (`scales` is as long as
`aspect_ratios`, see `sub_layer_pairs_length`, so `scales[i]` is in range). -/
def anchor_heights (sqrt : ℚ → ℚ) (aspect_ratios scales : List ℚ) : List ℚ :=
  (List.range aspect_ratios.length).map fun i =>
    scales.getD i 0 / sqrt (aspect_ratios.getD i 0)

/-- The vector `anchor_width` after the loop of lines 78-82. -/
def anchor_widths (sqrt : ℚ → ℚ) (aspect_ratios scales : List ℚ) : List ℚ :=
  (List.range aspect_ratios.length).map fun i =>
    scales.getD i 0 * sqrt (aspect_ratios.getD i 0)

/-- The value of `std::ceil (1.0f * size / stride)` stored in an `int` (lines 91-92):
both `int` operands are converted to `float`, the product and the quotient are
`float` operations, and the ceiling of a `float` is exact, as is its conversion to
the unbounded integers of the embedding.  An `int` is far below the overflow
threshold of `float`, so no infinity arises and the roundings are those of
`round_fin`. -/
def ceil_float_quotient (size stride : Int) : Int :=
  Int.ceil (round_fin binary32
    (round_fin binary32 (1 * round_fin binary32 (size : ℚ)) / round_fin binary32 (stride : ℚ)))

/-- The grid of lines 84-93 as `(feature_map_height, feature_map_width)`.  Reading an
explicit array past its end, and converting the quotient by a zero stride to
`int`, have no defined result. -/
def feature_map_size (options : SsdAnchorsCalculatorOptions) (layer_id : Nat) :
    Option (Int × Int) :=
  if options.feature_map_height.length ≠ 0 then
    match options.feature_map_height[layer_id]?, options.feature_map_width[layer_id]? with
    | some feature_map_height, some feature_map_width =>
        some (feature_map_height, feature_map_width)
    | _, _ => none
  else
    let stride := options.strides.getD layer_id 0
    if stride = 0 then none
    else
      some (ceil_float_quotient options.input_size_height stride,
            ceil_float_quotient options.input_size_width stride)

/-- The anchors pushed by the three nested loops of lines 95-116, in the order they
are pushed. -/
def emit_anchors (options : SsdAnchorsCalculatorOptions)
    (feature_map_height feature_map_width : Int) (anchor_height anchor_width : List ℚ) :
    List Anchor :=
  (List.range feature_map_height.toNat).flatMap fun y =>
    (List.range feature_map_width.toNat).flatMap fun x =>
      (List.range anchor_height.length).map fun anchor_id =>
        { x_center := ((x : ℚ) + options.anchor_offset_x) * 1 / (feature_map_width : ℚ)
          y_center := ((y : ℚ) + options.anchor_offset_y) * 1 / (feature_map_height : ℚ)
          w := if options.fixed_anchor_size = true then 1 else anchor_width.getD anchor_id 0
          h := if options.fixed_anchor_size = true then 1 else anchor_height.getD anchor_id 0 }

/-- One pass of the outer loop body (lines 36-117) for the layer that starts at
`layer_id`: the next value of `layer_id` and the anchors pushed. -/
def layer_pass (sqrt : ℚ → ℚ) (options : SsdAnchorsCalculatorOptions) (layer_id : Nat) :
    Option (Nat × List Anchor) :=
  let merged := merge_loop sqrt options layer_id layer_id [] []
  let anchor_height := anchor_heights sqrt merged.2.1 merged.2.2
  let anchor_width := anchor_widths sqrt merged.2.1 merged.2.2
  match feature_map_size options layer_id with
  | none => none
  | some (feature_map_height, feature_map_width) =>
      some (merged.1,
        emit_anchors options feature_map_height feature_map_width anchor_height anchor_width)

/-- The outer loop of lines 35-118, entered with the current value of `layer_id` and
of the output vector. -/
def anchors_loop (sqrt : ℚ → ℚ) (options : SsdAnchorsCalculatorOptions) (layer_id : Nat)
    (anchors : List Anchor) : Option (List Anchor) :=
  if hlt : layer_id < options.strides.length then
    match hp : layer_pass sqrt options layer_id with
    | none => none
    | some (next, pushed) => anchors_loop sqrt options next (anchors ++ pushed)
  else some anchors
termination_by options.strides.length - layer_id
decreasing_by
  have mono : ∀ (n last : Nat) (ar sc : List ℚ), options.strides.length - last = n →
      last ≤ (merge_loop sqrt options layer_id last ar sc).1 := by
    intro n
    induction n with
    | zero =>
        intro last ar sc hn
        rw [merge_loop]
        split
        · omega
        · exact Nat.le_refl _
    | succ n ih =>
        intro last ar sc hn
        rw [merge_loop]
        split
        · exact Nat.le_of_succ_le (ih (last + 1) _ _ (by omega))
        · exact Nat.le_refl _
  have hnext : next = (merge_loop sqrt options layer_id layer_id [] []).1 := by
    unfold layer_pass at hp
    simp only [] at hp
    split at hp
    · exact absurd hp (by simp)
    · simp only [Option.some.injEq, Prod.mk.injEq] at hp
      exact hp.1.symm
  have hstep : layer_id + 1 ≤ (merge_loop sqrt options layer_id layer_id [] []).1 := by
    rw [merge_loop, if_pos ⟨hlt, rfl⟩]
    exact mono _ _ _ _ rfl
  omega

/-- The function `GenerateAnchors`: the returned code and the vector behind the
pointer `anchors` after the call. -/
def GenerateAnchors (sqrt : ℚ → ℚ) (anchors : List Anchor)
    (options : SsdAnchorsCalculatorOptions) : Option (Int × List Anchor) :=
  (anchors_loop sqrt options 0 anchors).map fun result => (0, result)

/-! ## Merged layers as the text describes them -/

/-- The positions of the stride sequence at which a merged layer begins: position 0,
and every position whose stride differs from the stride just before it.  These are
the starts of the maximal runs of consecutive equal strides, in sequence order. -/
def spec_layer_starts (strides : List Int) : List Nat :=
  (List.range strides.length).filter fun i =>
    decide (i = 0 ∨ strides.getD i 0 ≠ strides.getD (i - 1) 0)

/-- The position just after the maximal run of consecutive equal strides that begins
at position `s`. -/
def spec_layer_end (strides : List Int) (s : Nat) : Nat :=
  s + ((strides.drop s).takeWhile fun v => decide (v = strides.getD s 0)).length

/-- The aspect ratios accumulated for the merged layer that begins at `s`: those of its
sub-layers `s`, ..., `spec_layer_end - 1`, in that order. -/
def spec_layer_aspect_ratios (sqrt : ℚ → ℚ) (options : SsdAnchorsCalculatorOptions) (s : Nat) :
    List ℚ :=
  (List.range' s (spec_layer_end options.strides s - s)).flatMap fun i =>
    (sub_layer_pairs sqrt options i).1

/-- The scales accumulated for the merged layer that begins at `s`, position by
position alongside `spec_layer_aspect_ratios`. -/
def spec_layer_scales (sqrt : ℚ → ℚ) (options : SsdAnchorsCalculatorOptions) (s : Nat) :
    List ℚ :=
  (List.range' s (spec_layer_end options.strides s - s)).flatMap fun i =>
    (sub_layer_pairs sqrt options i).2

/-- The block of anchors of the merged layer that begins at `s`: the anchors of its
grid for its accumulated pairs (empty where the grid is not defined). -/
def spec_layer_block (sqrt : ℚ → ℚ) (options : SsdAnchorsCalculatorOptions) (s : Nat) :
    List Anchor :=
  match feature_map_size options s with
  | none => []
  | some (feature_map_height, feature_map_width) =>
      emit_anchors options feature_map_height feature_map_width
        (anchor_heights sqrt (spec_layer_aspect_ratios sqrt options s) (spec_layer_scales sqrt options s))
        (anchor_widths sqrt (spec_layer_aspect_ratios sqrt options s) (spec_layer_scales sqrt options s))

/-! ## Quantities named inside `calc_intersection_over_union` -/

/-- The value of `area0` (lines 140-149) for the region passed as `region0`, and of
`area1` for the one passed as `region1`: the area of the box after its corners
have been put in min/max order. -/
def normalized_area {aux : Type} (region : detect_region_t aux) : ℚ :=
  (max region.topleft.y region.btmright.y - min region.topleft.y region.btmright.y) *
    (max region.topleft.x region.btmright.x - min region.topleft.x region.btmright.x)

/-- The value of `intersect_area` (lines 154-160) for two regions. -/
def intersect_area {aux : Type} (region0 region1 : detect_region_t aux) : ℚ :=
  max (min (max region0.topleft.y region0.btmright.y) (max region1.topleft.y region1.btmright.y) -
      max (min region0.topleft.y region0.btmright.y) (min region1.topleft.y region1.btmright.y)) 0 *
    max (min (max region0.topleft.x region0.btmright.x) (max region1.topleft.x region1.btmright.x) -
      max (min region0.topleft.x region0.btmright.x) (min region1.topleft.x region1.btmright.x)) 0

/-! ## The greedy filter without a cap -/

/-- The comparison `a >= b`. -/
def fge (a b : fval) : Bool :=
  fle b a

/-- The conversion of an `int` to `float`. -/
def int_to_float (i : Int) : fval :=
  fround binary32 (i : ℚ)

/-- The conversion of an `int` to `double`. -/
def int_to_double (i : Int) : fval :=
  fround binary64 (i : ℚ)

/-- The conversion of a `double` to `float`. -/
def double_to_float : fval → fval
  | fval.fin a => fround binary32 a
  | v => v

/-- `CalculateScale` (lines 22-29) in machine arithmetic.  The sum and the product of
line 26 are `float` operations.  In line 28 the difference is a `float`
operation; the factor `1.0` makes the products, the quotient and the sum `double`
operations; `num_strides - 1.0f` is a `float` operation; the `double` result is
converted to the `float` return type. -/
def CalculateScale_f32 (min_scale max_scale : ℚ) (stride_index num_strides : Int) : fval :=
  if num_strides = 1 then
    fmul binary32 (fadd binary32 (fval.fin min_scale) (fval.fin max_scale)) (fval.fin (1 / 2))
  else
    double_to_float
      (fadd binary64 (fval.fin min_scale)
        (fdiv binary64
          (fmul binary64
            (fmul binary64 (fsub binary32 (fval.fin max_scale) (fval.fin min_scale)) (fval.fin 1))
            (int_to_double stride_index))
          (fsub binary32 (int_to_float num_strides) (fval.fin 1))))

/-- `calc_intersection_over_union` (lines 128-163) in `float` arithmetic.  The corners
are finite `float` values, on which `std::min` and `std::max` are exact; every
difference, product, sum and the quotient is a `float` operation, and `area0 <= 0`
is the `float` comparison, false for a NaN. -/
def calc_intersection_over_union_f32 {aux : Type} (region0 region1 : detect_region_t aux) :
    fval :=
  let sx0 := region0.topleft.x
  let sy0 := region0.topleft.y
  let ex0 := region0.btmright.x
  let ey0 := region0.btmright.y
  let sx1 := region1.topleft.x
  let sy1 := region1.topleft.y
  let ex1 := region1.btmright.x
  let ey1 := region1.btmright.y
  let xmin0 := min sx0 ex0
  let ymin0 := min sy0 ey0
  let xmax0 := max sx0 ex0
  let ymax0 := max sy0 ey0
  let xmin1 := min sx1 ex1
  let ymin1 := min sy1 ey1
  let xmax1 := max sx1 ex1
  let ymax1 := max sy1 ey1
  let area0 := fmul binary32 (fsub binary32 (fval.fin ymax0) (fval.fin ymin0))
    (fsub binary32 (fval.fin xmax0) (fval.fin xmin0))
  let area1 := fmul binary32 (fsub binary32 (fval.fin ymax1) (fval.fin ymin1))
    (fsub binary32 (fval.fin xmax1) (fval.fin xmin1))
  if (fle area0 (fval.fin 0) || fle area1 (fval.fin 0)) = true then
    fval.fin 0
  else
    let intersect_xmin := max xmin0 xmin1
    let intersect_ymin := max ymin0 ymin1
    let intersect_xmax := min xmax0 xmax1
    let intersect_ymax := min ymax0 ymax1
    let intersect_area :=
      fmul binary32
        (std_max (fsub binary32 (fval.fin intersect_ymax) (fval.fin intersect_ymin)) (fval.fin 0))
        (std_max (fsub binary32 (fval.fin intersect_xmax) (fval.fin intersect_xmin)) (fval.fin 0))
    fdiv binary32 intersect_area (fsub binary32 (fadd binary32 area0 area1) intersect_area)

/-- The value of `area0` (lines 140-149) in `float` arithmetic for the region passed as
`region0`, and of `area1` for the one passed as `region1`. -/
def normalized_area_f32 {aux : Type} (region : detect_region_t aux) : fval :=
  fmul binary32
    (fsub binary32 (fval.fin (max region.topleft.y region.btmright.y))
      (fval.fin (min region.topleft.y region.btmright.y)))
    (fsub binary32 (fval.fin (max region.topleft.x region.btmright.x))
      (fval.fin (min region.topleft.x region.btmright.x)))

/-- The value of `intersect_area` (lines 154-160) in `float` arithmetic. -/
def intersect_area_f32 {aux : Type} (region0 region1 : detect_region_t aux) : fval :=
  fmul binary32
    (std_max
      (fsub binary32
        (fval.fin (min (max region0.topleft.y region0.btmright.y)
          (max region1.topleft.y region1.btmright.y)))
        (fval.fin (max (min region0.topleft.y region0.btmright.y)
          (min region1.topleft.y region1.btmright.y))))
      (fval.fin 0))
    (std_max
      (fsub binary32
        (fval.fin (min (max region0.topleft.x region0.btmright.x)
          (max region1.topleft.x region1.btmright.x)))
        (fval.fin (max (min region0.topleft.x region0.btmright.x)
          (min region1.topleft.x region1.btmright.x))))
      (fval.fin 0))

/-- The inner loop of lines 184-194 with the `float` comparison `iou >= iou_thresh`. -/
def ignore_scan_f32 {aux : Type} (region_candidate : detect_region_t aux) (iou_thresh : ℚ) :
    List (detect_region_t aux) → Bool
  | [] => false
  | region_nms :: rest =>
      if fge (calc_intersection_over_union_f32 region_candidate region_nms)
          (fval.fin iou_thresh) = true then
        true
      else
        ignore_scan_f32 region_candidate iou_thresh rest

/-- The value of `ignore_candidate` after the inner loop, in `float` arithmetic. -/
def ignore_candidate_f32 {aux : Type} (region_candidate : detect_region_t aux)
    (region_nms_list : List (detect_region_t aux)) (iou_thresh : ℚ) : Bool :=
  ignore_scan_f32 region_candidate iou_thresh region_nms_list.reverse

/-- The outer loop of lines 179-202 in `float` arithmetic. -/
def nms_loop_f32 {aux : Type} (MAX_POSE_NUM : Nat) (iou_thresh : ℚ) :
    List (detect_region_t aux) → List (detect_region_t aux) → List (detect_region_t aux)
  | [], region_nms_list => region_nms_list
  | region_candidate :: rest, region_nms_list =>
      if ignore_candidate_f32 region_candidate region_nms_list iou_thresh then
        nms_loop_f32 MAX_POSE_NUM iou_thresh rest region_nms_list
      else
        if (region_nms_list ++ [region_candidate]).length ≥ MAX_POSE_NUM then
          region_nms_list ++ [region_candidate]
        else
          nms_loop_f32 MAX_POSE_NUM iou_thresh rest (region_nms_list ++ [region_candidate])

/-- The function `non_max_suppression` in `float` arithmetic: the scores are finite and
compared exactly, the overlap is computed and compared as a `float`. -/
def non_max_suppression_f32 {aux : Type} (MAX_POSE_NUM : Nat)
    (region_list region_nms_list : List (detect_region_t aux)) (iou_thresh : ℚ) :
    nms_state aux :=
  { ret := 0
    region_list := list_sort region_list
    region_nms_list :=
      nms_loop_f32 MAX_POSE_NUM iou_thresh (list_sort region_list) region_nms_list }

/-! ## Sample inputs -/

/-- The square with corners (0,0) and (10,10), score 0.9. -/
def sample_region_a : detect_region_t Unit :=
  { score := 9 / 10, topleft := ⟨0, 0⟩, btmright := ⟨10, 10⟩, payload := () }

/-- The square with corners (5,5) and (15,15), score 0.8. -/
def sample_region_b : detect_region_t Unit :=
  { score := 8 / 10, topleft := ⟨5, 5⟩, btmright := ⟨15, 15⟩, payload := () }

/-- A configuration without explicit feature-map arrays: strides 8, 8, 16 on a 16 x 16
input, one configured aspect ratio and an interpolated one. -/
def sample_options : SsdAnchorsCalculatorOptions :=
  { strides := [8, 8, 16]
    min_scale := 1 / 10
    max_scale := 3 / 4
    reduce_boxes_in_lowest_layer := false
    aspect_ratios := [1]
    interpolated_scale_aspect_ratio := 1
    feature_map_height := []
    feature_map_width := []
    input_size_height := 16
    input_size_width := 16
    anchor_offset_x := 1 / 2
    anchor_offset_y := 1 / 2
    fixed_anchor_size := true }

/-- A configuration with explicit feature-map arrays, one entry per stride: strides
8, 8, 16 with grids 2 x 2, 3 x 3 and 1 x 1, one aspect ratio, no interpolated one. -/
def sample_options_explicit : SsdAnchorsCalculatorOptions :=
  { strides := [8, 8, 16]
    min_scale := 1 / 10
    max_scale := 3 / 4
    reduce_boxes_in_lowest_layer := false
    aspect_ratios := [1]
    interpolated_scale_aspect_ratio := 0
    feature_map_height := [2, 3, 1]
    feature_map_width := [2, 3, 1]
    input_size_height := 16
    input_size_width := 16
    anchor_offset_x := 1 / 2
    anchor_offset_y := 1 / 2
    fixed_anchor_size := true }

/-- The square with corners (20,20) and (30,30), score 0.7; it meets neither
`sample_region_a` nor `sample_region_d`. -/
def sample_region_c : detect_region_t Unit :=
  { score := 7 / 10, topleft := ⟨20, 20⟩, btmright := ⟨30, 30⟩, payload := () }

/-- The square with corners (40,40) and (50,50), score 0.6. -/
def sample_region_d : detect_region_t Unit :=
  { score := 6 / 10, topleft := ⟨40, 40⟩, btmright := ⟨50, 50⟩, payload := () }

/-- The configuration `sample_options` with `reduce_boxes_in_lowest_layer` set: the
first two strides are equal, so the first merged layer has two sub-layers. -/
def sample_options_reduced : SsdAnchorsCalculatorOptions :=
  { strides := [8, 8, 16]
    min_scale := 1 / 10
    max_scale := 3 / 4
    reduce_boxes_in_lowest_layer := true
    aspect_ratios := [1]
    interpolated_scale_aspect_ratio := 1
    feature_map_height := []
    feature_map_width := []
    input_size_height := 16
    input_size_width := 16
    anchor_offset_x := 1 / 2
    anchor_offset_y := 1 / 2
    fixed_anchor_size := true }

/-- A configuration with `reduce_boxes_in_lowest_layer` set whose first stride stands
alone: strides 8, 16, 16 on a 16 x 16 input. -/
def sample_options_reduced_single : SsdAnchorsCalculatorOptions :=
  { strides := [8, 16, 16]
    min_scale := 1 / 10
    max_scale := 3 / 4
    reduce_boxes_in_lowest_layer := true
    aspect_ratios := [1, 2]
    interpolated_scale_aspect_ratio := 1
    feature_map_height := []
    feature_map_width := []
    input_size_height := 16
    input_size_width := 16
    anchor_offset_x := 1 / 2
    anchor_offset_y := 1 / 2
    fixed_anchor_size := true }

/-- The square with corners (0,0) and (10,10), score 0.75. -/
def sample_box_high : detect_region_t Unit :=
  { score := 3 / 4, topleft := ⟨0, 0⟩, btmright := ⟨10, 10⟩, payload := () }

/-- The box of `sample_box_high` with the lower score 0.5. -/
def sample_box_low : detect_region_t Unit :=
  { score := 1 / 2, topleft := ⟨0, 0⟩, btmright := ⟨10, 10⟩, payload := () }

/-- The square with corners (5,5) and (15,15), score 0.5. -/
def sample_box_shifted : detect_region_t Unit :=
  { score := 1 / 2, topleft := ⟨5, 5⟩, btmright := ⟨15, 15⟩, payload := () }

/-- A vertical segment from (3,0) to (3,8), score 0.75: its area is zero. -/
def sample_segment_high : detect_region_t Unit :=
  { score := 3 / 4, topleft := ⟨3, 0⟩, btmright := ⟨3, 8⟩, payload := () }

/-- The segment of `sample_segment_high` with the lower score 0.5. -/
def sample_segment_low : detect_region_t Unit :=
  { score := 1 / 2, topleft := ⟨3, 0⟩, btmright := ⟨3, 8⟩, payload := () }

/-- A square of side 2^70 with score 0.75: its area 2^140 is above the `float` range. -/
def sample_region_huge : detect_region_t Unit :=
  { score := 3 / 4, topleft := ⟨0, 0⟩, btmright := ⟨2 ^ 70, 2 ^ 70⟩, payload := () }

/-- The box of `sample_region_huge` with the lower score 0.5. -/
def sample_region_huge_low : detect_region_t Unit :=
  { score := 1 / 2, topleft := ⟨0, 0⟩, btmright := ⟨2 ^ 70, 2 ^ 70⟩, payload := () }

/-- A square of side 2^-80 with score 0.75: its area 2^-160 is below the smallest
positive `float`. -/
def sample_region_tiny : detect_region_t Unit :=
  { score := 3 / 4, topleft := ⟨0, 0⟩, btmright := ⟨1 / 2 ^ 80, 1 / 2 ^ 80⟩, payload := () }

/-- The box of `sample_region_tiny` with the lower score 0.5. -/
def sample_region_tiny_low : detect_region_t Unit :=
  { score := 1 / 2, topleft := ⟨0, 0⟩, btmright := ⟨1 / 2 ^ 80, 1 / 2 ^ 80⟩, payload := () }

/-- A vertical segment from (0, -2^127) to (0, 2^127), score 0.5: its width is zero
and its height 2^128 is above the `float` range. -/
def sample_region_tall_flat : detect_region_t Unit :=
  { score := 1 / 2, topleft := ⟨0, -(2 ^ 127)⟩, btmright := ⟨0, 2 ^ 127⟩, payload := () }

/-- A configuration whose input size 16777217 = 2^24 + 1 is not a `float` value: one
stride 16777216 = 2^24, one configured aspect ratio, no explicit arrays. -/
def sample_options_large : SsdAnchorsCalculatorOptions :=
  { strides := [16777216]
    min_scale := 1 / 4
    max_scale := 3 / 4
    reduce_boxes_in_lowest_layer := false
    aspect_ratios := [1]
    interpolated_scale_aspect_ratio := 0
    feature_map_height := []
    feature_map_width := []
    input_size_height := 16777217
    input_size_width := 16777217
    anchor_offset_x := 1 / 2
    anchor_offset_y := 1 / 2
    fixed_anchor_size := true }

/-- A configuration with the negative input size -8 x -8: one stride 8, one configured
aspect ratio, no explicit arrays. -/
def sample_options_negative : SsdAnchorsCalculatorOptions :=
  { strides := [8]
    min_scale := 1 / 4
    max_scale := 3 / 4
    reduce_boxes_in_lowest_layer := false
    aspect_ratios := [1]
    interpolated_scale_aspect_ratio := 0
    feature_map_height := []
    feature_map_width := []
    input_size_height := -8
    input_size_width := -8
    anchor_offset_x := 1 / 2
    anchor_offset_y := 1 / 2
    fixed_anchor_size := true }

/-! ## Lemmas on the overlap measure -/

theorem iou_comm {aux : Type} (a b : detect_region_t aux) :
    calc_intersection_over_union a b = calc_intersection_over_union b a := by
  simp only [calc_intersection_over_union]
  rw [max_comm (min b.topleft.x b.btmright.x), max_comm (min b.topleft.y b.btmright.y),
    min_comm (max b.topleft.x b.btmright.x), min_comm (max b.topleft.y b.btmright.y),
    add_comm ((max b.topleft.y b.btmright.y - min b.topleft.y b.btmright.y) * _)]
  split_ifs with h1 h2 h2
  · rfl
  · exact absurd h1.symm h2
  · exact absurd h2.symm h1
  · rfl

/-! ## Lemmas on the greedy loop -/

theorem ignore_scan_eq_false_iff {aux : Type} (c : detect_region_t aux) (t : ℚ)
    (l : List (detect_region_t aux)) :
    ignore_scan c t l = false ↔ ∀ r ∈ l, calc_intersection_over_union c r < t := by
  induction l with
  | nil => simp [ignore_scan]
  | cons r rest ih =>
      by_cases h : calc_intersection_over_union c r ≥ t
      · simp only [ignore_scan, if_pos h, List.mem_cons, forall_eq_or_imp]
        constructor
        · intro hf
          exact absurd hf (by simp)
        · intro hall
          exact absurd hall.1 (not_lt.mpr h)
      · simp only [ignore_scan, if_neg h, List.mem_cons, forall_eq_or_imp, ih]
        exact ⟨fun hall => ⟨not_le.mp h, hall⟩, fun hall => hall.2⟩

theorem ignore_candidate_eq_false_iff {aux : Type} (c : detect_region_t aux) (t : ℚ)
    (acc : List (detect_region_t aux)) :
    ignore_candidate c acc t = false ↔ ∀ r ∈ acc, calc_intersection_over_union c r < t := by
  simp [ignore_candidate, ignore_scan_eq_false_iff]

theorem nms_loop_eq_append {aux : Type} (cap : Nat) (t : ℚ) (cs : List (detect_region_t aux)) :
    ∀ acc : List (detect_region_t aux),
      ∃ s, s.Sublist cs ∧ nms_loop cap t cs acc = acc ++ s := by
  induction cs with
  | nil => intro acc; exact ⟨[], List.Sublist.refl _, by simp [nms_loop]⟩
  | cons c rest ih =>
      intro acc
      by_cases hig : ignore_candidate c acc t = true
      · obtain ⟨s, hs, he⟩ := ih acc
        exact ⟨s, hs.cons c, by simp only [nms_loop, if_pos hig, he]⟩
      · by_cases hfull : (acc ++ [c]).length ≥ cap
        · refine ⟨[c], ?_, by simp only [nms_loop, if_neg hig, if_pos hfull]⟩
          exact (List.singleton_sublist.mpr (List.mem_cons_self c rest))
        · obtain ⟨s, hs, he⟩ := ih (acc ++ [c])
          refine ⟨c :: s, hs.cons₂ c, ?_⟩
          simp only [nms_loop, if_neg hig, if_neg hfull, he, List.append_assoc,
            List.singleton_append]

theorem nms_loop_length_le {aux : Type} (cap : Nat) (t : ℚ) (cs : List (detect_region_t aux)) :
    ∀ acc : List (detect_region_t aux), acc.length < cap →
      (nms_loop cap t cs acc).length ≤ cap := by
  induction cs with
  | nil => intro acc h; simpa [nms_loop] using h.le
  | cons c rest ih =>
      intro acc h
      by_cases hig : ignore_candidate c acc t = true
      · simpa only [nms_loop, if_pos hig] using ih acc h
      · by_cases hfull : (acc ++ [c]).length ≥ cap
        · simp only [nms_loop, if_neg hig, if_pos hfull]
          simpa using h
        · simp only [nms_loop, if_neg hig, if_neg hfull]
          exact ih _ (not_le.mp hfull)

theorem list_sort_pairwise {aux : Type} (l : List (detect_region_t aux)) :
    (list_sort l).Pairwise (fun a b => a.score ≥ b.score) := by
  have h := @List.sorted_mergeSort (detect_region_t aux) (fun v1 v2 => !compare v2 v1)
    (by
      intro a b c hab hbc
      simp only [compare, gt_iff_lt, Bool.not_eq_true', ite_eq_right_iff, imp_false,
        Bool.not_eq_eq_eq_not, Bool.not_true, not_lt, Bool.if_false_right, Bool.and_true,
        decide_eq_false_iff_not] at *
      exact le_trans hbc hab)
    (by
      intro a b
      simp only [compare, gt_iff_lt, Bool.or_eq_true, Bool.not_eq_true',
        Bool.if_false_right, Bool.and_true, decide_eq_false_iff_not, not_lt]
      exact le_total _ _) l
  refine List.Pairwise.imp ?_ h
  intro a b hab
  simpa [compare] using hab

/-! ## Lemmas on the merge loop -/

theorem takeWhile_length_spec {α : Type} (p : α → Bool) (l : List α) :
    (l.takeWhile p).length ≤ l.length ∧
      (∀ i : Nat, i < (l.takeWhile p).length → ∀ x, l[i]? = some x → p x = true) ∧
      (∀ x, l[(l.takeWhile p).length]? = some x → p x = false) := by
  induction l with
  | nil => simp
  | cons a rest ih =>
      by_cases ha : p a = true
      · rw [List.takeWhile_cons, if_pos ha]
        refine ⟨by simpa using ih.1, ?_, ?_⟩
        · intro i hi x hx
          cases i with
          | zero =>
              simp only [List.getElem?_cons_zero, Option.some.injEq] at hx
              exact hx ▸ ha
          | succ i =>
              simp only [List.getElem?_cons_succ] at hx
              exact ih.2.1 i (by simpa using hi) x hx
        · intro x hx
          simp only [List.length_cons, List.getElem?_cons_succ] at hx
          exact ih.2.2 x hx
      · rw [List.takeWhile_cons, if_neg ha]
        refine ⟨by simp, ?_, ?_⟩
        · intro i hi
          simp at hi
        · intro x hx
          simp only [List.length_nil, List.getElem?_cons_zero, Option.some.injEq] at hx
          subst hx
          simpa using ha

theorem merge_loop_eq (sqrt : ℚ → ℚ) (o : SsdAnchorsCalculatorOptions) (layer_id : Nat) :
    ∀ (k last : Nat) (ars scs : List ℚ), o.strides.length - last = k →
      merge_loop sqrt o layer_id last ars scs =
        (last + ((o.strides.drop last).takeWhile
            fun v => decide (v = o.strides.getD layer_id 0)).length,
          ars ++ (List.range' last ((o.strides.drop last).takeWhile
            fun v => decide (v = o.strides.getD layer_id 0)).length).flatMap
              (fun i => (sub_layer_pairs sqrt o i).1),
          scs ++ (List.range' last ((o.strides.drop last).takeWhile
            fun v => decide (v = o.strides.getD layer_id 0)).length).flatMap
              (fun i => (sub_layer_pairs sqrt o i).2)) := by
  intro k
  induction k with
  | zero =>
      intro last ars scs hk
      have hge : o.strides.length ≤ last := by omega
      rw [merge_loop, if_neg (by omega), List.drop_eq_nil_of_le hge]
      simp
  | succ k ih =>
      intro last ars scs hk
      have hlt : last < o.strides.length := by omega
      rw [merge_loop, List.drop_eq_getElem_cons hlt, List.takeWhile_cons]
      by_cases heq : o.strides.getD last 0 = o.strides.getD layer_id 0
      · have hd : decide (o.strides[last] = o.strides.getD layer_id 0) = true := by
          rw [← List.getD_eq_getElem o.strides 0 hlt]
          simpa using heq
        rw [if_pos ⟨hlt, heq⟩, if_pos hd, ih (last + 1) _ _ (by omega)]
        simp only [List.length_cons, List.range'_succ, List.flatMap_cons, List.append_assoc]
        refine Prod.ext ?_ rfl
        show last + 1 + _ = last + (_ + 1)
        omega
      · have hd : ¬ decide (o.strides[last] = o.strides.getD layer_id 0) = true := by
          rw [← List.getD_eq_getElem o.strides 0 hlt]
          simpa using heq
        rw [if_neg (fun h => heq h.2), if_neg hd]
        simp

theorem merge_loop_from_start (sqrt : ℚ → ℚ) (o : SsdAnchorsCalculatorOptions) (s : Nat) :
    merge_loop sqrt o s s [] [] =
      (spec_layer_end o.strides s, spec_layer_aspect_ratios sqrt o s, spec_layer_scales sqrt o s) := by
  rw [merge_loop_eq sqrt o s _ s [] [] rfl]
  simp [spec_layer_end, spec_layer_aspect_ratios, spec_layer_scales]

theorem spec_layer_end_spec (strides : List Int) (s : Nat) (hs : s < strides.length) :
    s < spec_layer_end strides s ∧ spec_layer_end strides s ≤ strides.length ∧
      (∀ i, s ≤ i → i < spec_layer_end strides s → strides.getD i 0 = strides.getD s 0) ∧
      (spec_layer_end strides s < strides.length →
        strides.getD (spec_layer_end strides s) 0 ≠ strides.getD s 0) := by
  obtain ⟨h1, h2, h3⟩ := takeWhile_length_spec
    (fun v => decide (v = strides.getD s 0)) (strides.drop s)
  have hpos : 0 < ((strides.drop s).takeWhile fun v => decide (v = strides.getD s 0)).length := by
    rw [List.drop_eq_getElem_cons hs, List.takeWhile_cons,
      if_pos (decide_eq_true (List.getD_eq_getElem strides 0 hs).symm)]
    simp
  rw [List.length_drop] at h1
  refine ⟨by unfold spec_layer_end; omega, by unfold spec_layer_end; omega, ?_, ?_⟩
  · intro i hsi hie
    unfold spec_layer_end at hie
    have hi : i < strides.length := by omega
    have := h2 (i - s) (by omega) strides[i] (by
      rw [List.getElem?_drop, show s + (i - s) = i by omega, List.getElem?_eq_getElem hi])
    rw [List.getD_eq_getElem strides 0 hi]
    simpa using this
  · intro he
    have := h3 (strides[spec_layer_end strides s]) (by
      rw [List.getElem?_drop, List.getElem?_eq_getElem]
      rfl)
    rw [List.getD_eq_getElem strides 0 he]
    simpa using this

/-! ## Lemmas on the outer loop -/

theorem layer_pass_eq (sqrt : ℚ → ℚ) (o : SsdAnchorsCalculatorOptions) (s : Nat)
    (gh gw : Int) (hg : feature_map_size o s = some (gh, gw)) :
    layer_pass sqrt o s = some (spec_layer_end o.strides s, spec_layer_block sqrt o s) := by
  simp only [layer_pass, spec_layer_block, merge_loop_from_start, hg]

theorem layer_pass_eq_none (sqrt : ℚ → ℚ) (o : SsdAnchorsCalculatorOptions) (s : Nat)
    (hg : feature_map_size o s = none) : layer_pass sqrt o s = none := by
  simp only [layer_pass, hg]

theorem spec_layer_starts_filter_split (strides : List Int) (s : Nat) (hs : s < strides.length)
    (hP : s = 0 ∨ strides.getD s 0 ≠ strides.getD (s - 1) 0) :
    (List.range' s (strides.length - s)).filter
        (fun i => decide (i = 0 ∨ strides.getD i 0 ≠ strides.getD (i - 1) 0)) =
      s :: (List.range' (spec_layer_end strides s) (strides.length - spec_layer_end strides s)).filter
        (fun i => decide (i = 0 ∨ strides.getD i 0 ≠ strides.getD (i - 1) 0)) := by
  obtain ⟨h1, h2, h3, _⟩ := spec_layer_end_spec strides s hs
  have hsplit : strides.length - s =
      (strides.length - spec_layer_end strides s) + ((spec_layer_end strides s - s - 1) + 1) := by omega
  have hadd : s + ((spec_layer_end strides s - s - 1) + 1) = spec_layer_end strides s := by omega
  rw [hsplit, ← List.range'_append_1, hadd, List.filter_append, List.range'_succ,
    List.filter_cons, if_pos (decide_eq_true hP)]
  have hnil : (List.range' (s + 1) (spec_layer_end strides s - s - 1)).filter
      (fun i => decide (i = 0 ∨ strides.getD i 0 ≠ strides.getD (i - 1) 0)) = [] := by
    rw [List.filter_eq_nil_iff]
    intro i hi
    rw [List.mem_range'_1] at hi
    have e1 := h3 i (by omega) (by omega)
    have e2 := h3 (i - 1) (by omega) (by omega)
    simp only [decide_eq_true_eq, not_or, ne_eq, not_not]
    exact ⟨by omega, e1.trans e2.symm⟩
  rw [hnil]
  rfl

theorem anchors_loop_eq (sqrt : ℚ → ℚ) (o : SsdAnchorsCalculatorOptions) :
    ∀ (k s : Nat) (anchors : List Anchor), o.strides.length - s ≤ k →
      (s < o.strides.length → s = 0 ∨ o.strides.getD s 0 ≠ o.strides.getD (s - 1) 0) →
      (∀ r ∈ (List.range' s (o.strides.length - s)).filter
          (fun i => decide (i = 0 ∨ o.strides.getD i 0 ≠ o.strides.getD (i - 1) 0)),
        (feature_map_size o r).isSome = true) →
      anchors_loop sqrt o s anchors =
        some (anchors ++ ((List.range' s (o.strides.length - s)).filter
          (fun i => decide (i = 0 ∨ o.strides.getD i 0 ≠ o.strides.getD (i - 1) 0))).flatMap
            (spec_layer_block sqrt o)) := by
  intro k
  induction k with
  | zero =>
      intro s anchors hk _ _
      have hge : ¬ s < o.strides.length := by omega
      rw [anchors_loop, dif_neg hge, show o.strides.length - s = 0 by omega]
      simp
  | succ k ih =>
      intro s anchors hk hP hgrid
      by_cases hlt : s < o.strides.length
      · obtain ⟨h1, h2, h3, h4⟩ := spec_layer_end_spec o.strides s hlt
        have hfs := spec_layer_starts_filter_split o.strides s hlt (hP hlt)
        rw [hfs] at hgrid ⊢
        have hsome := hgrid s (List.mem_cons_self _ _)
        obtain ⟨⟨gh, gw⟩, hg⟩ := Option.isSome_iff_exists.mp hsome
        have hpass := layer_pass_eq sqrt o s gh gw hg
        rw [anchors_loop, dif_pos hlt]
        split
        · next hnone => rw [hpass] at hnone; exact absurd hnone (by simp)
        · next next pushed hsm =>
            rw [hpass] at hsm
            simp only [Option.some.injEq, Prod.mk.injEq] at hsm
            obtain ⟨hn, hpu⟩ := hsm
            subst hn
            subst hpu
            rw [ih (spec_layer_end o.strides s) _ (by omega) ?_ ?_]
            · simp only [List.flatMap_cons, List.append_assoc]
            · intro he
              right
              have := h3 (spec_layer_end o.strides s - 1) (by omega) (by omega)
              rw [this]
              exact h4 he
            · intro r hr
              exact hgrid r (List.mem_cons_of_mem _ hr)
      · rw [anchors_loop, dif_neg hlt, show o.strides.length - s = 0 by omega]
        simp

theorem GenerateAnchors_eq (sqrt : ℚ → ℚ) (o : SsdAnchorsCalculatorOptions)
    (anchors : List Anchor)
    (hgrid : ∀ s ∈ spec_layer_starts o.strides, (feature_map_size o s).isSome = true) :
    GenerateAnchors sqrt anchors o =
      some (0, anchors ++ (spec_layer_starts o.strides).flatMap (spec_layer_block sqrt o)) := by
  have h := anchors_loop_eq sqrt o o.strides.length 0 anchors (by omega)
    (fun _ => Or.inl rfl) (by
      simpa only [Nat.sub_zero, ← List.range_eq_range'] using hgrid)
  simp only [Nat.sub_zero, ← List.range_eq_range'] at h
  simp only [GenerateAnchors, h, Option.map_some', spec_layer_starts]

/-! ## Lemmas on the emission loops -/

theorem flatMap_range_uniform {β : Type} (f : Nat → List β) (m : Nat) :
    ∀ n : Nat, (∀ i, i < n → (f i).length = m) →
      ((List.range n).flatMap f).length = n * m ∧
        ∀ i j, i < n → j < m → ((List.range n).flatMap f)[i * m + j]? = (f i)[j]? := by
  intro n
  induction n with
  | zero => intro _; simp
  | succ n ih =>
      intro hlen
      obtain ⟨hl, hget⟩ := ih (fun i hi => hlen i (Nat.lt_succ_of_lt hi))
      have hn : (f n).length = m := hlen n (Nat.lt_succ_self n)
      rw [List.range_succ, List.flatMap_append, List.flatMap_singleton]
      refine ⟨by rw [List.length_append, hl, hn, Nat.succ_mul], ?_⟩
      intro i j hi hj
      by_cases hin : i < n
      · have hlt : i * m + j < ((List.range n).flatMap f).length := by
          rw [hl]
          calc i * m + j < i * m + m := by omega
            _ = (i + 1) * m := by rw [Nat.succ_mul]
            _ ≤ n * m := Nat.mul_le_mul_right m hin
        rw [List.getElem?_append_left hlt]
        exact hget i j hin hj
      · have hieq : i = n := by omega
        subst hieq
        rw [List.getElem?_append_right (by rw [hl]; omega), hl, Nat.add_sub_cancel_left]

theorem emit_anchors_spec (o : SsdAnchorsCalculatorOptions) (gh gw : Int)
    (heights widths : List ℚ) :
    (emit_anchors o gh gw heights widths).length = gh.toNat * gw.toNat * heights.length ∧
      ∀ y x a : Nat, y < gh.toNat → x < gw.toNat → a < heights.length →
        (emit_anchors o gh gw heights widths)[(y * gw.toNat + x) * heights.length + a]? =
          some { x_center := ((x : ℚ) + o.anchor_offset_x) / (gw : ℚ)
                 y_center := ((y : ℚ) + o.anchor_offset_y) / (gh : ℚ)
                 w := if o.fixed_anchor_size = true then 1 else widths.getD a 0
                 h := if o.fixed_anchor_size = true then 1 else heights.getD a 0 } := by
  have hrow : ∀ y : Nat,
      ((List.range gw.toNat).flatMap fun x =>
        (List.range heights.length).map fun anchor_id =>
          ({ x_center := ((x : ℚ) + o.anchor_offset_x) * 1 / (gw : ℚ)
             y_center := ((y : ℚ) + o.anchor_offset_y) * 1 / (gh : ℚ)
             w := if o.fixed_anchor_size = true then 1 else widths.getD anchor_id 0
             h := if o.fixed_anchor_size = true then 1 else heights.getD anchor_id 0 } :
            Anchor)).length = gw.toNat * heights.length ∧ _ :=
    fun y => flatMap_range_uniform _ heights.length gw.toNat (fun i _ => by simp)
  obtain ⟨hl, hget⟩ := flatMap_range_uniform
    (fun y => (List.range gw.toNat).flatMap fun x =>
        (List.range heights.length).map fun anchor_id =>
          ({ x_center := ((x : ℚ) + o.anchor_offset_x) * 1 / (gw : ℚ)
             y_center := ((y : ℚ) + o.anchor_offset_y) * 1 / (gh : ℚ)
             w := if o.fixed_anchor_size = true then 1 else widths.getD anchor_id 0
             h := if o.fixed_anchor_size = true then 1 else heights.getD anchor_id 0 } :
            Anchor))
    (gw.toNat * heights.length) gh.toNat (fun y _ => (hrow y).1)
  refine ⟨by rw [Nat.mul_assoc]; exact hl, ?_⟩
  intro y x a hy hx ha
  have hidx : (y * gw.toNat + x) * heights.length + a =
      y * (gw.toNat * heights.length) + (x * heights.length + a) := by ring
  have hinner : x * heights.length + a < gw.toNat * heights.length := by
    calc x * heights.length + a < x * heights.length + heights.length := by omega
      _ = (x + 1) * heights.length := by rw [Nat.succ_mul]
      _ ≤ gw.toNat * heights.length := Nat.mul_le_mul_right _ hx
  show ((List.range gh.toNat).flatMap _)[_]? = _
  rw [hidx, hget y _ hy hinner, (hrow y).2 x a hx ha, List.getElem?_map,
    List.getElem?_range ha]
  simp only [Option.map_some', mul_one]

theorem anchor_heights_spec (sqrt : ℚ → ℚ) (ars scs : List ℚ) :
    (anchor_heights sqrt ars scs).length = ars.length ∧
      ∀ a, a < ars.length →
        (anchor_heights sqrt ars scs).getD a 0 = scs.getD a 0 / sqrt (ars.getD a 0) := by
  refine ⟨by simp [anchor_heights], ?_⟩
  intro a ha
  simp [anchor_heights, List.getElem?_range ha]

theorem anchor_widths_spec (sqrt : ℚ → ℚ) (ars scs : List ℚ) :
    (anchor_widths sqrt ars scs).length = ars.length ∧
      ∀ a, a < ars.length →
        (anchor_widths sqrt ars scs).getD a 0 = scs.getD a 0 * sqrt (ars.getD a 0) := by
  refine ⟨by simp [anchor_widths], ?_⟩
  intro a ha
  simp [anchor_widths, List.getElem?_range ha]

theorem sub_layer_pairs_length (sqrt : ℚ → ℚ) (o : SsdAnchorsCalculatorOptions) (i : Nat) :
    (sub_layer_pairs sqrt o i).2.length = (sub_layer_pairs sqrt o i).1.length ∧
      (sub_layer_pairs sqrt o i).1.length =
        if i = 0 ∧ o.reduce_boxes_in_lowest_layer = true then 3
        else o.aspect_ratios.length + if o.interpolated_scale_aspect_ratio > 0 then 1 else 0 := by
  unfold sub_layer_pairs
  simp only []
  split_ifs <;> simp

theorem layer_pairs_length (sqrt : ℚ → ℚ) (o : SsdAnchorsCalculatorOptions) (s : Nat) :
    (spec_layer_scales sqrt o s).length = (spec_layer_aspect_ratios sqrt o s).length ∧
      (spec_layer_aspect_ratios sqrt o s).length =
        ((List.range' s (spec_layer_end o.strides s - s)).map fun i =>
          (sub_layer_pairs sqrt o i).1.length).sum := by
  have hfun : (List.length ∘ fun i => (sub_layer_pairs sqrt o i).2) =
      (List.length ∘ fun i => (sub_layer_pairs sqrt o i).1) :=
    funext fun i => (sub_layer_pairs_length sqrt o i).1
  simp only [spec_layer_scales, spec_layer_aspect_ratios, List.length_flatMap, hfun, true_and]
  rfl

/-! ## Lemmas on the grid and on counting -/

theorem cast_sum_map_eq {α : Type} (l : List α) (f : α → Nat) (g : α → Int)
    (h : ∀ s ∈ l, ((f s : Nat) : Int) = g s) :
    (((l.map f).sum : Nat) : Int) = (l.map g).sum := by
  induction l with
  | nil => simp
  | cons a rest ih =>
      simp only [List.map_cons, List.sum_cons, Nat.cast_add]
      rw [h a (List.mem_cons_self _ _), ih (fun s hs => h s (List.mem_cons_of_mem _ hs))]

theorem mem_spec_layer_starts (strides : List Int) (s : Nat) (hs : s ∈ spec_layer_starts strides) :
    s < strides.length := by
  unfold spec_layer_starts at hs
  exact List.mem_range.mp (List.mem_filter.mp hs).1

theorem feature_map_size_of_no_arrays (o : SsdAnchorsCalculatorOptions) (s : Nat)
    (hnz : o.strides.getD s 0 ≠ 0)
    (harr : o.feature_map_height = []) :
    feature_map_size o s =
      some (ceil_float_quotient o.input_size_height (o.strides.getD s 0),
        ceil_float_quotient o.input_size_width (o.strides.getD s 0)) := by
  simp only [feature_map_size, harr, List.length_nil, ne_eq, not_true_eq_false, if_false,
    if_neg hnz]

theorem feature_map_size_of_arrays (o : SsdAnchorsCalculatorOptions) (s : Nat)
    (hne : o.feature_map_height ≠ [])
    (hh : s < o.feature_map_height.length) (hw : s < o.feature_map_width.length) :
    feature_map_size o s =
      some (o.feature_map_height.getD s 0, o.feature_map_width.getD s 0) := by
  have hlen : o.feature_map_height.length ≠ 0 := by
    intro h0
    exact hne (List.length_eq_zero.mp h0)
  simp only [feature_map_size, if_pos hlen, List.getElem?_eq_getElem hh,
    List.getElem?_eq_getElem hw, List.getD_eq_getElem _ 0 hh, List.getD_eq_getElem _ 0 hw]

/-! ## Further lemmas on the greedy loop -/

theorem list_sort_pair {aux : Type} (x y : detect_region_t aux) :
    list_sort [x, y] = if compare y x = true then [y, x] else [x, y] := by
  by_cases h : compare y x = true
  · simp [list_sort, List.mergeSort, List.splitInTwo, List.merge, h]
  · simp [list_sort, List.mergeSort, List.splitInTwo, List.merge, h]

theorem nms_loop_disjoint {aux : Type} (cap : Nat) (t : ℚ) (cs : List (detect_region_t aux)) :
    ∀ acc : List (detect_region_t aux),
      (∀ c ∈ cs, ∀ r ∈ acc, calc_intersection_over_union c r < t) →
      cs.Pairwise (fun a b => calc_intersection_over_union b a < t) →
      acc.length < cap →
      nms_loop cap t cs acc = acc ++ cs.take (cap - acc.length) := by
  induction cs with
  | nil => intro acc _ _ _; simp [nms_loop]
  | cons c rest ih =>
      intro acc hacc hpw hlt
      have hig : ¬ ignore_candidate c acc t = true := by
        rw [Bool.not_eq_true, ignore_candidate_eq_false_iff]
        exact hacc c (List.mem_cons_self _ _)
      rw [List.pairwise_cons] at hpw
      by_cases hfull : (acc ++ [c]).length ≥ cap
      · simp only [nms_loop, if_neg hig, if_pos hfull]
        simp only [List.length_append, List.length_singleton] at hfull
        rw [show cap - acc.length = 1 by omega]
        simp
      · simp only [nms_loop, if_neg hig, if_neg hfull]
        rw [ih (acc ++ [c]) ?_ hpw.2 (not_le.mp hfull)]
        · simp only [List.length_append, List.length_singleton] at hfull ⊢
          rw [show cap - acc.length = (cap - (acc.length + 1)) + 1 by omega, List.take_succ_cons,
            List.append_assoc, List.singleton_append]
        · intro d hd r hr
          rcases List.mem_append.mp hr with hr | hr
          · exact hacc d (List.mem_cons_of_mem _ hd) r hr
          · rw [List.mem_singleton] at hr
            subst hr
            exact hpw.1 d hd

theorem nms_loop_head {aux : Type} (cap : Nat) (t : ℚ) (c : detect_region_t aux)
    (rest : List (detect_region_t aux)) :
    ∃ s, nms_loop cap t (c :: rest) [] = c :: s := by
  have hig : ¬ ignore_candidate c [] t = true := by
    simp [ignore_candidate, ignore_scan]
  by_cases hfull : [c].length ≥ cap
  · exact ⟨[], by simp only [nms_loop, if_neg hig, List.nil_append, if_pos hfull]⟩
  · obtain ⟨s, _, hs⟩ := nms_loop_eq_append cap t rest [c]
    exact ⟨s, by simp only [nms_loop, if_neg hig, List.nil_append, if_neg hfull, hs,
      List.singleton_append]⟩

/-! ## Further lemmas on the overlap measure -/

theorem calc_iou_unfold {aux : Type} (a b : detect_region_t aux) :
    calc_intersection_over_union a b =
      if normalized_area a ≤ 0 ∨ normalized_area b ≤ 0 then 0
      else intersect_area a b / (normalized_area a + normalized_area b - intersect_area a b) :=
  rfl

theorem calc_iou_of_intersect_zero {aux : Type} (a b : detect_region_t aux)
    (h : intersect_area a b = 0) :
    calc_intersection_over_union a b = 0 ∧ calc_intersection_over_union b a = 0 := by
  have h0 : calc_intersection_over_union a b = 0 := by
    rw [calc_iou_unfold, h]
    split_ifs
    · rfl
    · exact zero_div _
  exact ⟨h0, (iou_comm b a).trans h0⟩

/-! ## Further lemmas on the first merged layer -/

theorem sum_map_eq_length_mul {α : Type} (l : List α) (f : α → Nat) (c : Nat)
    (h : ∀ i ∈ l, f i = c) : (l.map f).sum = l.length * c := by
  induction l with
  | nil => simp
  | cons a rest ih =>
      rw [List.map_cons, List.sum_cons, h a (List.mem_cons_self _ _),
        ih (fun i hi => h i (List.mem_cons_of_mem _ hi)), List.length_cons, Nat.succ_mul,
        Nat.add_comm]

theorem first_layer_types_length (sqrt : ℚ → ℚ) (o : SsdAnchorsCalculatorOptions)
    (hred : o.reduce_boxes_in_lowest_layer = true) (hlen : 0 < o.strides.length) :
    (spec_layer_aspect_ratios sqrt o 0).length =
      3 + (spec_layer_end o.strides 0 - 1) *
        (o.aspect_ratios.length + if o.interpolated_scale_aspect_ratio > 0 then 1 else 0) := by
  obtain ⟨hpos, _, _, _⟩ := spec_layer_end_spec o.strides 0 hlen
  rw [(layer_pairs_length sqrt o 0).2, Nat.sub_zero,
    show spec_layer_end o.strides 0 = (spec_layer_end o.strides 0 - 1) + 1 by omega,
    List.range'_succ, List.map_cons, List.sum_cons, (sub_layer_pairs_length sqrt o 0).2,
    if_pos ⟨rfl, hred⟩, Nat.add_sub_cancel]
  congr 1
  rw [sum_map_eq_length_mul _ _ (o.aspect_ratios.length +
    if o.interpolated_scale_aspect_ratio > 0 then 1 else 0), List.length_range']
  intro i hi
  rw [List.mem_range'_1] at hi
  rw [(sub_layer_pairs_length sqrt o i).2, if_neg (fun h => by omega)]

theorem first_run_single (strides : List Int) (hlen : 0 < strides.length)
    (hdiff : strides[1]? ≠ strides[0]?) : spec_layer_end strides 0 = 1 := by
  obtain ⟨hpos, hle, heq, _⟩ := spec_layer_end_spec strides 0 hlen
  by_contra hne
  have h1 : 1 < spec_layer_end strides 0 := by omega
  have h1len : 1 < strides.length := by omega
  have := heq 1 (by omega) h1
  rw [List.getD_eq_getElem strides 0 h1len, List.getD_eq_getElem strides 0 hlen] at this
  apply hdiff
  rw [List.getElem?_eq_getElem h1len, List.getElem?_eq_getElem hlen, this]

/-! ## Lemmas on rounding -/

theorem nat_log2_spec : ∀ (fuel n : Nat), n ≤ fuel → n ≠ 0 →
    2 ^ nat_log2 fuel n ≤ n ∧ n < 2 ^ (nat_log2 fuel n + 1) := by
  intro fuel
  induction fuel with
  | zero => intro n h0 hn; omega
  | succ fuel ih =>
      intro n hle hn
      by_cases h2 : n < 2
      · have h1 : n = 1 := by omega
        subst h1
        simp [nat_log2]
      · have hdiv : n / 2 ≤ fuel := by omega
        have hne : n / 2 ≠ 0 := by omega
        obtain ⟨hlo, hhi⟩ := ih (n / 2) hdiv hne
        simp only [nat_log2, if_neg h2]
        constructor
        · rw [pow_succ]
          omega
        · rw [pow_succ]
          omega

theorem floor_log2_spec (x : ℚ) (hx : x ≠ 0) :
    (2 : ℚ) ^ floor_log2 x ≤ |x| ∧ |x| < (2 : ℚ) ^ (floor_log2 x + 1) := by
  have hnum : x.num.natAbs ≠ 0 := by
    rw [Ne, Int.natAbs_eq_zero, Rat.num_eq_zero]
    exact hx
  have hden : x.den ≠ 0 := x.den_nz
  obtain ⟨ha1, ha2⟩ := nat_log2_spec x.num.natAbs x.num.natAbs (le_refl _) hnum
  obtain ⟨hd1, hd2⟩ := nat_log2_spec x.den x.den (le_refl _) hden
  have habs : |x| = (x.num.natAbs : ℚ) / (x.den : ℚ) := by
    conv_lhs => rw [← Rat.num_div_den x]
    rw [abs_div, Nat.cast_natAbs, Int.cast_abs, abs_of_pos (by exact_mod_cast x.den_pos : (0 : ℚ) < x.den)]
  have hdpos : (0 : ℚ) < (x.den : ℚ) := by exact_mod_cast x.den_pos
  have ha1q : (2 : ℚ) ^ (nat_log2 x.num.natAbs x.num.natAbs) ≤ (x.num.natAbs : ℚ) := by
    exact_mod_cast ha1
  have ha2q : (x.num.natAbs : ℚ) < (2 : ℚ) ^ (nat_log2 x.num.natAbs x.num.natAbs + 1) := by
    exact_mod_cast ha2
  have hd1q : (2 : ℚ) ^ (nat_log2 x.den x.den) ≤ (x.den : ℚ) := by exact_mod_cast hd1
  have hd2q : (x.den : ℚ) < (2 : ℚ) ^ (nat_log2 x.den x.den + 1) := by exact_mod_cast hd2
  have h2 : (0 : ℚ) < 2 := by norm_num
  have hup : |x| < (2 : ℚ) ^ ((nat_log2 x.num.natAbs x.num.natAbs : Int) -
      (nat_log2 x.den x.den : Int) + 1) := by
    rw [habs, div_lt_iff₀ hdpos]
    calc (x.num.natAbs : ℚ) < (2 : ℚ) ^ (nat_log2 x.num.natAbs x.num.natAbs + 1) := ha2q
      _ = (2 : ℚ) ^ ((nat_log2 x.num.natAbs x.num.natAbs : Int) -
            (nat_log2 x.den x.den : Int) + 1) * (2 : ℚ) ^ (nat_log2 x.den x.den) := by
          rw [← zpow_natCast, ← zpow_natCast, ← zpow_add₀ h2.ne']
          congr 1
          push_cast
          ring
      _ ≤ _ := by
          apply mul_le_mul_of_nonneg_left hd1q
          exact (zpow_pos h2 _).le
  have hlow : (2 : ℚ) ^ ((nat_log2 x.num.natAbs x.num.natAbs : Int) -
      (nat_log2 x.den x.den : Int) - 1) ≤ |x| := by
    rw [habs, le_div_iff₀ hdpos]
    calc (2 : ℚ) ^ ((nat_log2 x.num.natAbs x.num.natAbs : Int) -
            (nat_log2 x.den x.den : Int) - 1) * (x.den : ℚ)
        ≤ (2 : ℚ) ^ ((nat_log2 x.num.natAbs x.num.natAbs : Int) -
            (nat_log2 x.den x.den : Int) - 1) * (2 : ℚ) ^ (nat_log2 x.den x.den + 1) := by
          apply mul_le_mul_of_nonneg_left hd2q.le
          exact (zpow_pos h2 _).le
      _ = (2 : ℚ) ^ (nat_log2 x.num.natAbs x.num.natAbs) := by
          rw [← zpow_natCast, ← zpow_natCast, ← zpow_add₀ h2.ne']
          congr 1
          push_cast
          ring
      _ ≤ _ := ha1q
  unfold floor_log2
  split_ifs with htest
  · exact ⟨htest, hup⟩
  · refine ⟨hlow, ?_⟩
    rw [sub_add_cancel]
    exact not_le.mp htest

theorem floor_log2_neg (x : ℚ) : floor_log2 (-x) = floor_log2 x := by
  simp only [floor_log2, Rat.neg_num, Rat.neg_den, Int.natAbs_neg, abs_neg]

theorem rne_cases (x : ℚ) :
    (rne x = Int.floor x ∧ x - (Int.floor x : ℚ) ≤ 1 / 2 ∧
        (x - (Int.floor x : ℚ) = 1 / 2 → Int.floor x % 2 = 0)) ∨
      (rne x = Int.floor x + 1 ∧ 1 / 2 ≤ x - (Int.floor x : ℚ) ∧
        (x - (Int.floor x : ℚ) = 1 / 2 → ¬ Int.floor x % 2 = 0)) := by
  unfold rne
  split_ifs with h1 h2 h3
  · exact Or.inl ⟨rfl, h1.le, fun h => absurd h (ne_of_lt h1)⟩
  · exact Or.inr ⟨rfl, h2.le, fun h => absurd h.symm (ne_of_lt h2)⟩
  · exact Or.inl ⟨rfl, not_lt.mp h2, fun _ => h3⟩
  · exact Or.inr ⟨rfl, not_lt.mp h1, fun _ => h3⟩

theorem rne_int (n : Int) : rne (n : ℚ) = n := by
  unfold rne
  rw [Int.floor_intCast, sub_self, if_pos (by norm_num)]

theorem rne_err (x : ℚ) : |x - (rne x : ℚ)| ≤ 1 / 2 := by
  have hfl := Int.floor_le x
  have hfl2 := Int.lt_floor_add_one x
  rcases rne_cases x with ⟨h, hf, _⟩ | ⟨h, hf, _⟩
  · rw [h, abs_le]
    constructor <;> linarith
  · rw [h, abs_le]
    push_cast
    constructor <;> linarith

theorem rne_mono (x y : ℚ) (hxy : x ≤ y) : rne x ≤ rne y := by
  have hfx := Int.floor_le x
  have hfx2 := Int.lt_floor_add_one x
  have hfy := Int.floor_le y
  have hfy2 := Int.lt_floor_add_one y
  have hfloor : Int.floor x ≤ Int.floor y := Int.floor_mono hxy
  rcases rne_cases x with ⟨hx, hx1, hx2⟩ | ⟨hx, hx1, hx2⟩ <;>
    rcases rne_cases y with ⟨hy, hy1, hy2⟩ | ⟨hy, hy1, hy2⟩
  · rw [hx, hy]; exact hfloor
  · rw [hx, hy]; omega
  · rw [hx, hy]
    rcases lt_or_eq_of_le hfloor with hlt | heq
    · omega
    · exfalso
      rw [heq] at hx1 hx2
      have hxe : x - (Int.floor y : ℚ) = 1 / 2 := by linarith
      have hye : y - (Int.floor y : ℚ) = 1 / 2 := by linarith
      exact hx2 hxe (hy2 hye)
  · rw [hx, hy]; omega

theorem rne_neg (x : ℚ) : rne (-x) = -rne x := by
  have hfx := Int.floor_le x
  have hfx2 := Int.lt_floor_add_one x
  have hfn := Int.floor_le (-x)
  have hfn2 := Int.lt_floor_add_one (-x)
  by_cases hint : (Int.floor x : ℚ) = x
  · rw [← hint, ← Int.cast_neg, rne_int, rne_int]
  · have hlt : (Int.floor x : ℚ) < x := lt_of_le_of_ne hfx hint
    have hfloor : Int.floor (-x) = -Int.floor x - 1 := by
      rw [Int.floor_eq_iff]
      push_cast
      constructor <;> linarith
    rcases rne_cases x with ⟨hx, hx1, hx2⟩ | ⟨hx, hx1, hx2⟩ <;>
      rcases rne_cases (-x) with ⟨hy, hy1, hy2⟩ | ⟨hy, hy1, hy2⟩
    · rw [hfloor] at hy1 hy2
      push_cast at hy1 hy2
      have hxe : x - (Int.floor x : ℚ) = 1 / 2 := by linarith
      have h1 := hx2 hxe
      have h2 := hy2 (by linarith)
      omega
    · rw [hx, hy, hfloor]; omega
    · rw [hx, hy, hfloor]; omega
    · rw [hfloor] at hy1 hy2
      push_cast at hy1 hy2
      have hxe : x - (Int.floor x : ℚ) = 1 / 2 := by linarith
      have h1 := hx2 hxe
      have h2 := hy2 (by linarith)
      omega

theorem quantum_pos (fmt : float_format) (x : ℚ) : 0 < quantum fmt x :=
  zpow_pos (by norm_num) _

theorem quantum_neg (fmt : float_format) (x : ℚ) : quantum fmt (-x) = quantum fmt x := by
  simp only [quantum, floor_log2_neg]

theorem round_fin_neg (fmt : float_format) (x : ℚ) :
    round_fin fmt (-x) = -round_fin fmt x := by
  simp only [round_fin, quantum_neg, neg_div, rne_neg, Int.cast_neg, neg_mul]

theorem round_fin_zero (fmt : float_format) : round_fin fmt 0 = 0 := by
  simp only [round_fin, zero_div]
  rw [show (0 : ℚ) = ((0 : Int) : ℚ) by norm_num, rne_int]
  simp

theorem round_fin_nonneg (fmt : float_format) (x : ℚ) (hx : 0 ≤ x) :
    0 ≤ round_fin fmt x := by
  have hq := quantum_pos fmt x
  have h0 : (0 : Int) ≤ rne (x / quantum fmt x) := by
    have := rne_mono 0 (x / quantum fmt x) (div_nonneg hx hq.le)
    rwa [show (0 : ℚ) = ((0 : Int) : ℚ) by norm_num, rne_int] at this
  exact mul_nonneg (by exact_mod_cast h0) hq.le

theorem round_fin_of_is_float (fmt : float_format) (x : ℚ) (hx : is_float fmt x) :
    round_fin fmt x = x := by
  obtain ⟨m, e, hm, he, hxe⟩ := hx
  by_cases h0 : x = 0
  · rw [h0, round_fin_zero]
  · have h2 : (0 : ℚ) < 2 := by norm_num
    have h12 : (1 : ℚ) < 2 := by norm_num
    obtain ⟨hlo, _⟩ := floor_log2_spec x h0
    have hmq : |(m : ℚ)| < (2 : ℚ) ^ (fmt.prec : Int) := by
      rw [zpow_natCast]
      exact_mod_cast hm
    have habs : |x| < (2 : ℚ) ^ (e + fmt.prec) := by
      rw [hxe, abs_mul, abs_of_pos (zpow_pos h2 e), zpow_add₀ h2.ne', mul_comm]
      exact mul_lt_mul_of_pos_left hmq (zpow_pos h2 e)
    have hE : floor_log2 x < e + fmt.prec :=
      (zpow_lt_zpow_iff_right₀ h12).mp (lt_of_le_of_lt hlo habs)
    have hc : max (floor_log2 x) fmt.emin - ((fmt.prec : Int) - 1) ≤ e := by
      rcases max_cases (floor_log2 x) fmt.emin with ⟨h, _⟩ | ⟨h, _⟩ <;> rw [h] <;> omega
    obtain ⟨c, hcdef⟩ : ∃ c : Int, c = max (floor_log2 x) fmt.emin - ((fmt.prec : Int) - 1) :=
      ⟨_, rfl⟩
    have hq : quantum fmt x = (2 : ℚ) ^ c := by rw [quantum, hcdef]
    rw [← hcdef] at hc
    obtain ⟨k, hk⟩ : ∃ k : Nat, e = c + k := ⟨(e - c).toNat, by omega⟩
    have hquot : x / (2 : ℚ) ^ c = ((m * 2 ^ k : Int) : ℚ) := by
      rw [hxe, div_eq_iff (zpow_pos h2 _).ne', hk, zpow_add₀ h2.ne', zpow_natCast]
      push_cast
      ring
    rw [round_fin, hq, hquot, rne_int, ← hquot, div_mul_cancel₀ _ (zpow_pos h2 c).ne']

theorem round_fin_abs_quot_lt (fmt : float_format) (x : ℚ) (hx : x ≠ 0) :
    |x / quantum fmt x| < (2 : ℚ) ^ (fmt.prec : Int) := by
  have h2 : (0 : ℚ) < 2 := by norm_num
  have h12 : (1 : ℚ) ≤ 2 := by norm_num
  obtain ⟨_, hhi⟩ := floor_log2_spec x hx
  rw [abs_div, abs_of_pos (quantum_pos fmt x), div_lt_iff₀ (quantum_pos fmt x), quantum,
    ← zpow_add₀ h2.ne']
  refine lt_of_lt_of_le hhi (zpow_le_zpow_right₀ h12 ?_)
  have := le_max_left (floor_log2 x) fmt.emin
  omega

theorem rne_quot_bounds (fmt : float_format) (x : ℚ) :
    -(2 : Int) ^ fmt.prec ≤ rne (x / quantum fmt x) ∧
      rne (x / quantum fmt x) ≤ (2 : Int) ^ fmt.prec := by
  by_cases hx : x = 0
  · rw [hx, zero_div, show (0 : ℚ) = ((0 : Int) : ℚ) by norm_num, rne_int]
    have : (0 : Int) ≤ 2 ^ fmt.prec := by positivity
    omega
  · have h := round_fin_abs_quot_lt fmt x hx
    rw [abs_lt, zpow_natCast] at h
    have hlo := rne_mono _ _ h.1.le
    have hhi := rne_mono _ _ h.2.le
    rw [show -(2 : ℚ) ^ fmt.prec = ((-(2 : Int) ^ fmt.prec : Int) : ℚ) by push_cast; ring,
      rne_int] at hlo
    rw [show (2 : ℚ) ^ fmt.prec = (((2 : Int) ^ fmt.prec : Int) : ℚ) by push_cast; ring,
      rne_int] at hhi
    exact ⟨hlo, hhi⟩

theorem is_float_round_fin (fmt : float_format) (hp : 1 ≤ fmt.prec) (x : ℚ) :
    is_float fmt (round_fin fmt x) := by
  have h2 : (0 : ℚ) < 2 := by norm_num
  obtain ⟨hlo, hhi⟩ := rne_quot_bounds fmt x
  have hcmin : fmt.emin ≤ max (floor_log2 x) fmt.emin := le_max_right _ _
  by_cases hM : |rne (x / quantum fmt x)| < 2 ^ fmt.prec
  · exact ⟨rne (x / quantum fmt x), max (floor_log2 x) fmt.emin - ((fmt.prec : Int) - 1),
      hM, by omega, rfl⟩
  · have hpow : (2 : Int) ^ fmt.prec = 2 * 2 ^ (fmt.prec - 1) := by
      conv_lhs => rw [show fmt.prec = (fmt.prec - 1) + 1 by omega]
      rw [pow_succ]
      ring
    have hpos : (0 : Int) < 2 ^ (fmt.prec - 1) := by positivity
    have hMeq : rne (x / quantum fmt x) = 2 ^ fmt.prec ∨
        rne (x / quantum fmt x) = -(2 ^ fmt.prec) := by
      rw [not_lt] at hM
      rcases abs_cases (rne (x / quantum fmt x)) with ⟨h, _⟩ | ⟨h, _⟩
      · left; rw [h] at hM; omega
      · right; rw [h] at hM; omega
    have hval : ∀ s : Int, rne (x / quantum fmt x) = s * 2 ^ fmt.prec →
        round_fin fmt x = ((s * 2 ^ (fmt.prec - 1) : Int) : ℚ) *
          (2 : ℚ) ^ (max (floor_log2 x) fmt.emin - ((fmt.prec : Int) - 1) + 1) := by
      intro s hs
      rw [round_fin, hs, hpow]
      rw [quantum, zpow_add₀ h2.ne']
      push_cast
      ring
    rcases hMeq with h | h
    · refine ⟨1 * 2 ^ (fmt.prec - 1), _, ?_, ?_, hval 1 (by rw [h]; ring)⟩
      · rw [one_mul, abs_of_pos hpos, hpow]; omega
      · omega
    · refine ⟨-1 * 2 ^ (fmt.prec - 1), _, ?_, ?_, hval (-1) (by rw [h]; ring)⟩
      · rw [neg_one_mul, abs_neg, abs_of_pos hpos, hpow]; omega
      · omega

theorem round_fin_idem (fmt : float_format) (hp : 1 ≤ fmt.prec) (x : ℚ) :
    round_fin fmt (round_fin fmt x) = round_fin fmt x :=
  round_fin_of_is_float fmt _ (is_float_round_fin fmt hp x)

theorem is_float_double (fmt : float_format) (x : ℚ) (hx : is_float fmt x) :
    is_float fmt (2 * x) := by
  obtain ⟨m, e, hm, he, hxe⟩ := hx
  refine ⟨m, e + 1, hm, by omega, ?_⟩
  rw [hxe, zpow_add₀ (by norm_num : (2 : ℚ) ≠ 0)]
  ring

theorem round_fin_err (fmt : float_format) (x : ℚ) :
    |x - round_fin fmt x| ≤ quantum fmt x / 2 := by
  have hq := quantum_pos fmt x
  have h := rne_err (x / quantum fmt x)
  have hx : x - round_fin fmt x =
      (x / quantum fmt x - (rne (x / quantum fmt x) : ℚ)) * quantum fmt x := by
    rw [round_fin, sub_mul, div_mul_cancel₀ _ hq.ne']
  rw [hx, abs_mul, abs_of_pos hq]
  calc |x / quantum fmt x - (rne (x / quantum fmt x) : ℚ)| * quantum fmt x
      ≤ 1 / 2 * quantum fmt x := mul_le_mul_of_nonneg_right h hq.le
    _ = quantum fmt x / 2 := by ring

theorem floor_log2_mono (x y : ℚ) (hx : 0 < x) (hxy : x ≤ y) :
    floor_log2 x ≤ floor_log2 y := by
  obtain ⟨hlo, _⟩ := floor_log2_spec x hx.ne'
  obtain ⟨_, hhi⟩ := floor_log2_spec y (lt_of_lt_of_le hx hxy).ne'
  rw [abs_of_pos hx] at hlo
  rw [abs_of_pos (lt_of_lt_of_le hx hxy)] at hhi
  have := (zpow_lt_zpow_iff_right₀ (by norm_num : (1 : ℚ) < 2)).mp
    (lt_of_le_of_lt (hlo.trans hxy) hhi)
  omega

theorem round_fin_le_pow (fmt : float_format) (x : ℚ) :
    round_fin fmt x ≤ (2 : ℚ) ^ (max (floor_log2 x) fmt.emin + 1) := by
  have h2 : (0 : ℚ) < 2 := by norm_num
  have hM : (rne (x / quantum fmt x) : ℚ) ≤ (2 : ℚ) ^ (fmt.prec : Int) := by
    rw [zpow_natCast]
    exact_mod_cast (rne_quot_bounds fmt x).2
  calc round_fin fmt x = (rne (x / quantum fmt x) : ℚ) * quantum fmt x := rfl
    _ ≤ (2 : ℚ) ^ (fmt.prec : Int) * quantum fmt x :=
        mul_le_mul_of_nonneg_right hM (quantum_pos fmt x).le
    _ = (2 : ℚ) ^ (max (floor_log2 x) fmt.emin + 1) := by
        rw [quantum, ← zpow_add₀ h2.ne']
        congr 1
        ring

theorem pow_le_round_fin (fmt : float_format) (hp : 1 ≤ fmt.prec) (y : ℚ) (hy : 0 < y)
    (hE : fmt.emin ≤ floor_log2 y) : (2 : ℚ) ^ floor_log2 y ≤ round_fin fmt y := by
  have h2 : (0 : ℚ) < 2 := by norm_num
  obtain ⟨hlo, _⟩ := floor_log2_spec y hy.ne'
  rw [abs_of_pos hy] at hlo
  have hq : quantum fmt y = (2 : ℚ) ^ (floor_log2 y - ((fmt.prec : Int) - 1)) := by
    rw [quantum, max_eq_left hE]
  have hquot : (((2 : Int) ^ (fmt.prec - 1) : Int) : ℚ) ≤ y / quantum fmt y := by
    rw [le_div_iff₀ (quantum_pos fmt y), hq]
    push_cast
    rw [← zpow_natCast, ← zpow_add₀ h2.ne']
    refine le_trans (le_of_eq ?_) hlo
    congr 1
    have : ((fmt.prec - 1 : Nat) : Int) = (fmt.prec : Int) - 1 := by omega
    rw [this]
    ring
  have hM := rne_mono _ _ hquot
  rw [rne_int] at hM
  have hMq : ((2 : ℚ) ^ (fmt.prec - 1)) ≤ (rne (y / quantum fmt y) : ℚ) := by
    exact_mod_cast hM
  calc (2 : ℚ) ^ floor_log2 y = (2 : ℚ) ^ (fmt.prec - 1) * quantum fmt y := by
        rw [hq, ← zpow_natCast, ← zpow_add₀ h2.ne']
        congr 1
        have : ((fmt.prec - 1 : Nat) : Int) = (fmt.prec : Int) - 1 := by omega
        rw [this]
        ring
    _ ≤ (rne (y / quantum fmt y) : ℚ) * quantum fmt y :=
        mul_le_mul_of_nonneg_right hMq (quantum_pos fmt y).le

theorem round_fin_mono_pos (fmt : float_format) (hp : 1 ≤ fmt.prec) (x y : ℚ) (hx : 0 < x)
    (hxy : x ≤ y) : round_fin fmt x ≤ round_fin fmt y := by
  have hy : 0 < y := lt_of_lt_of_le hx hxy
  have hE := floor_log2_mono x y hx hxy
  by_cases hc : max (floor_log2 x) fmt.emin = max (floor_log2 y) fmt.emin
  · have hq : quantum fmt x = quantum fmt y := by rw [quantum, quantum, hc]
    rw [round_fin, round_fin, hq]
    apply mul_le_mul_of_nonneg_right _ (quantum_pos fmt y).le
    exact_mod_cast rne_mono _ _ (div_le_div_of_nonneg_right hxy (quantum_pos fmt y).le)
  · have hlt : max (floor_log2 x) fmt.emin < floor_log2 y ∧ fmt.emin ≤ floor_log2 y := by
      rcases max_cases (floor_log2 x) fmt.emin with ⟨h1, h1'⟩ | ⟨h1, h1'⟩ <;>
        rcases max_cases (floor_log2 y) fmt.emin with ⟨h2, h2'⟩ | ⟨h2, h2'⟩ <;>
        rw [h1, h2] at hc <;> rw [h1] <;> constructor <;> omega
    calc round_fin fmt x ≤ (2 : ℚ) ^ (max (floor_log2 x) fmt.emin + 1) := round_fin_le_pow fmt x
      _ ≤ (2 : ℚ) ^ floor_log2 y :=
          zpow_le_zpow_right₀ (by norm_num) (by omega)
      _ ≤ round_fin fmt y := pow_le_round_fin fmt hp y hy hlt.2

theorem round_fin_mono (fmt : float_format) (hp : 1 ≤ fmt.prec) (x y : ℚ) (hxy : x ≤ y) :
    round_fin fmt x ≤ round_fin fmt y := by
  rcases lt_trichotomy 0 x with hx | hx | hx
  · exact round_fin_mono_pos fmt hp x y hx hxy
  · rw [← hx, round_fin_zero]
    exact round_fin_nonneg fmt y (hx ▸ hxy)
  · rcases le_or_lt 0 y with hy | hy
    · have h1 : round_fin fmt x ≤ 0 := by
        have := round_fin_nonneg fmt (-x) (by linarith)
        rw [round_fin_neg] at this
        linarith
      exact h1.trans (round_fin_nonneg fmt y hy)
    · have := round_fin_mono_pos fmt hp (-y) (-x) (by linarith) (by linarith)
      rw [round_fin_neg, round_fin_neg] at this
      linarith

theorem binary32_prec_pos : 1 ≤ binary32.prec := by decide

theorem is_float32_int (n : Int) (hn : |n| ≤ 2 ^ 24) : is_float binary32 (n : ℚ) := by
  rcases lt_or_eq_of_le hn with hlt | heq
  · exact ⟨n, 0, hlt, by decide, by simp⟩
  · rcases abs_cases n with ⟨h, _⟩ | ⟨h, _⟩
    · refine ⟨2 ^ 23, 1, by decide, by decide, ?_⟩
      rw [h] at heq
      rw [heq]
      norm_num
    · refine ⟨-2 ^ 23, 1, by decide, by decide, ?_⟩
      rw [h] at heq
      have : n = -2 ^ 24 := by omega
      rw [this]
      norm_num

theorem round32_int (n : Int) (hn : |n| ≤ 2 ^ 24) : round_fin binary32 (n : ℚ) = n :=
  round_fin_of_is_float binary32 _ (is_float32_int n hn)

theorem floor_log2_nonneg_of_one_le (x : ℚ) (hx : 1 ≤ x) : 0 ≤ floor_log2 x := by
  have hx0 : x ≠ 0 := by linarith
  obtain ⟨_, hhi⟩ := floor_log2_spec x hx0
  rw [abs_of_pos (by linarith)] at hhi
  have h : (2 : ℚ) ^ (0 : Int) < (2 : ℚ) ^ (floor_log2 x + 1) := by
    rw [zpow_zero]
    exact lt_of_le_of_lt hx hhi
  have := (zpow_lt_zpow_iff_right₀ (by norm_num : (1 : ℚ) < 2)).mp h
  omega

theorem round32_gt_of_gap (x : ℚ) (N : Int) (s : Int) (size : Int) (hs : 0 < s)
    (hx : x = (size : ℚ) / (s : ℚ)) (hx1 : 1 ≤ x) (hsize : size < 2 ^ 24)
    (hgap : (N : ℚ) + 1 / (s : ℚ) ≤ x) : (N : ℚ) < round_fin binary32 x := by
  have h2 : (0 : ℚ) < 2 := by norm_num
  have hsq : (0 : ℚ) < (s : ℚ) := by exact_mod_cast hs
  have hE := floor_log2_nonneg_of_one_le x hx1
  obtain ⟨hlo, _⟩ := floor_log2_spec x (by linarith)
  rw [abs_of_pos (by linarith)] at hlo
  have herr := round_fin_err binary32 x
  have hq : quantum binary32 x = (2 : ℚ) ^ floor_log2 x * (2 : ℚ) ^ (-23 : Int) := by
    rw [quantum, max_eq_left (by
      show (-126 : Int) ≤ floor_log2 x
      omega), ← zpow_add₀ h2.ne']
    rfl
  have hqle : quantum binary32 x / 2 < 1 / (s : ℚ) := by
    have hsz : (size : ℚ) < 2 ^ 24 := by exact_mod_cast hsize
    calc quantum binary32 x / 2 = (2 : ℚ) ^ floor_log2 x * ((2 : ℚ) ^ (-23 : Int) / 2) := by
          rw [hq]; ring
      _ ≤ x * ((2 : ℚ) ^ (-23 : Int) / 2) :=
          mul_le_mul_of_nonneg_right hlo (by positivity)
      _ = (size : ℚ) / 2 ^ 24 * (1 / (s : ℚ)) := by
          rw [hx]
          norm_num
          ring
      _ < 1 * (1 / (s : ℚ)) := by
          apply mul_lt_mul_of_pos_right _ (by positivity)
          rw [div_lt_one (by positivity)]
          exact hsz
      _ = 1 / (s : ℚ) := one_mul _
  have := (abs_le.mp herr).2
  linarith

theorem ceil_float_quotient_eq (size stride : Int) (h0 : 0 ≤ size) (hsize : size < 2 ^ 24)
    (hpos : 0 < stride) (hstride : stride < 2 ^ 31) :
    ceil_float_quotient size stride = Int.ceil ((size : ℚ) / (stride : ℚ)) := by
  have hp := binary32_prec_pos
  have hsq : (0 : ℚ) < (stride : ℚ) := by exact_mod_cast hpos
  have hH : round_fin binary32 (size : ℚ) = size :=
    round32_int size (by rw [abs_of_nonneg h0]; omega)
  unfold ceil_float_quotient
  rw [one_mul, hH, hH]
  rcases eq_or_lt_of_le h0 with hz | hgt
  · rw [← hz]
    simp [round_fin_zero]
  · have hgq : (0 : ℚ) < (size : ℚ) := by exact_mod_cast hgt
    rcases le_or_lt stride size with hle | hlt
    · have hS : round_fin binary32 (stride : ℚ) = stride :=
        round32_int stride (by rw [abs_of_pos hpos]; omega)
      rw [hS]
      have hx1 : (1 : ℚ) ≤ (size : ℚ) / (stride : ℚ) := by
        rw [le_div_iff₀ hsq, one_mul]
        exact_mod_cast hle
      have hk_le : Int.ceil ((size : ℚ) / (stride : ℚ)) ≤ size := by
        rw [Int.ceil_le, div_le_iff₀ hsq]
        have : (1 : ℚ) ≤ (stride : ℚ) := by exact_mod_cast hpos
        nlinarith
      have hk_pos : 0 < Int.ceil ((size : ℚ) / (stride : ℚ)) := by
        rw [Int.ceil_pos]
        positivity
      rw [Int.ceil_eq_iff]
      constructor
      · have hN : ((Int.ceil ((size : ℚ) / (stride : ℚ)) - 1 : Int) : ℚ) <
            (size : ℚ) / (stride : ℚ) := by
          rw [← Int.lt_ceil]
          omega
        have hgap : ((Int.ceil ((size : ℚ) / (stride : ℚ)) - 1 : Int) : ℚ) + 1 / (stride : ℚ) ≤
            (size : ℚ) / (stride : ℚ) := by
          rw [lt_div_iff₀ hsq] at hN
          rw [le_div_iff₀ hsq, add_mul, one_div, inv_mul_cancel₀ hsq.ne']
          have hint : (Int.ceil ((size : ℚ) / (stride : ℚ)) - 1) * stride < size := by
            exact_mod_cast hN
          have hint2 : (Int.ceil ((size : ℚ) / (stride : ℚ)) - 1) * stride + 1 ≤ size := by
            omega
          exact_mod_cast hint2
        have := round32_gt_of_gap _ _ stride size hpos rfl hx1 hsize hgap
        push_cast at this ⊢
        exact this
      · have hk := round_fin_mono binary32 hp _ _ (Int.le_ceil ((size : ℚ) / (stride : ℚ)))
        rw [round32_int _ (by rw [abs_of_pos hk_pos]; omega)] at hk
        exact hk
    · have hlt_q : (size : ℚ) < (stride : ℚ) := by exact_mod_cast hlt
      have hexact : Int.ceil ((size : ℚ) / (stride : ℚ)) = 1 := by
        rw [Int.ceil_eq_iff]
        constructor
        · simp only [Int.cast_one, sub_self]
          positivity
        · rw [Int.cast_one, div_le_one hsq]
          exact hlt_q.le
      rw [hexact]
      have hS_lo : ((size : ℚ) + 1) ≤ round_fin binary32 (stride : ℚ) := by
        have h1 : (((size + 1 : Int)) : ℚ) ≤ (stride : ℚ) := by exact_mod_cast hlt
        have := round_fin_mono binary32 hp _ _ h1
        rw [round32_int _ (by rw [abs_of_pos (by omega)]; omega)] at this
        push_cast at this
        exact this
      have hS_hi : round_fin binary32 (stride : ℚ) ≤ 2 ^ 31 := by
        have h1 : (stride : ℚ) ≤ (((2 : Int) ^ 31 : Int) : ℚ) := by exact_mod_cast hstride.le
        have := round_fin_mono binary32 hp _ _ h1
        have h31 : round_fin binary32 (((2 : Int) ^ 31 : Int) : ℚ) = (((2 : Int) ^ 31 : Int) : ℚ) :=
          round_fin_of_is_float binary32 _ ⟨1, 31, by decide, by decide, by norm_num⟩
        rw [h31] at this
        push_cast at this
        exact this
      have hSpos : (0 : ℚ) < round_fin binary32 (stride : ℚ) := by linarith
      have hy_pos : 0 < (size : ℚ) / round_fin binary32 (stride : ℚ) := div_pos hgq hSpos
      have hy_lt : (size : ℚ) / round_fin binary32 (stride : ℚ) < 1 := by
        rw [div_lt_one hSpos]
        linarith
      have hy_lo : (2 : ℚ) ^ (-31 : Int) ≤ (size : ℚ) / round_fin binary32 (stride : ℚ) := by
        rw [le_div_iff₀ hSpos]
        have h1 : (1 : ℚ) ≤ (size : ℚ) := by exact_mod_cast hgt
        calc (2 : ℚ) ^ (-31 : Int) * round_fin binary32 (stride : ℚ)
            ≤ (2 : ℚ) ^ (-31 : Int) * 2 ^ 31 := mul_le_mul_of_nonneg_left hS_hi (by positivity)
          _ = 1 := by norm_num
          _ ≤ (size : ℚ) := h1
      have hE : (-126 : Int) ≤ floor_log2 ((size : ℚ) / round_fin binary32 (stride : ℚ)) := by
        obtain ⟨_, hhi⟩ := floor_log2_spec _ hy_pos.ne'
        rw [abs_of_pos hy_pos] at hhi
        have := (zpow_lt_zpow_iff_right₀ (by norm_num : (1 : ℚ) < 2)).mp
          (lt_of_le_of_lt hy_lo hhi)
        omega
      have hr_pos : 0 < round_fin binary32 ((size : ℚ) / round_fin binary32 (stride : ℚ)) :=
        lt_of_lt_of_le (zpow_pos (by norm_num) _)
          (pow_le_round_fin binary32 hp _ hy_pos hE)
      have hr_le : round_fin binary32 ((size : ℚ) / round_fin binary32 (stride : ℚ)) ≤ 1 := by
        have := round_fin_mono binary32 hp _ _ hy_lt.le
        rwa [show (1 : ℚ) = ((1 : Int) : ℚ) by norm_num, round32_int 1 (by decide)] at this
      rw [Int.ceil_eq_iff]
      constructor
      · simp only [Int.cast_one, sub_self]
        exact hr_pos
      · rw [Int.cast_one]
        exact hr_le

/-! ## Lemmas on the floating-point operations -/

theorem fround_of_lt (fmt : float_format) (x : ℚ)
    (hlo : -(2 : ℚ) ^ (fmt.emax + 1) < round_fin fmt x)
    (hhi : round_fin fmt x < (2 : ℚ) ^ (fmt.emax + 1)) :
    fround fmt x = fval.fin (round_fin fmt x) := by
  unfold fround
  rw [if_neg (not_le.mpr hhi), if_neg (not_le.mpr hlo)]

theorem fround_exact (fmt : float_format) (x : ℚ) (hx : is_float fmt x)
    (hb : |x| < (2 : ℚ) ^ (fmt.emax + 1)) : fround fmt x = fval.fin x := by
  have h := round_fin_of_is_float fmt x hx
  rw [abs_lt] at hb
  rw [fround_of_lt fmt x (by rw [h]; exact hb.1) (by rw [h]; exact hb.2), h]

theorem fround_cases (fmt : float_format) (x : ℚ) :
    (fround fmt x = fval.pinf ∧ 0 < x ∧ (2 : ℚ) ^ (fmt.emax + 1) ≤ round_fin fmt x) ∨
      (fround fmt x = fval.ninf ∧ x < 0 ∧ round_fin fmt x ≤ -(2 : ℚ) ^ (fmt.emax + 1)) ∨
      (fround fmt x = fval.fin (round_fin fmt x) ∧
        -(2 : ℚ) ^ (fmt.emax + 1) < round_fin fmt x ∧
        round_fin fmt x < (2 : ℚ) ^ (fmt.emax + 1)) := by
  have hpow : (0 : ℚ) < (2 : ℚ) ^ (fmt.emax + 1) := zpow_pos (by norm_num) _
  unfold fround
  split_ifs with h1 h2
  · refine Or.inl ⟨rfl, ?_, h1⟩
    by_contra hx
    have := round_fin_nonneg fmt (-x) (by linarith)
    rw [round_fin_neg] at this
    linarith
  · refine Or.inr (Or.inl ⟨rfl, ?_, h2⟩)
    by_contra hx
    have := round_fin_nonneg fmt x (not_lt.mp hx)
    linarith
  · exact Or.inr (Or.inr ⟨rfl, not_le.mp h2, not_le.mp h1⟩)

theorem fround_nonneg_cases (fmt : float_format) (x : ℚ) (hx : 0 ≤ x) :
    fround fmt x = fval.pinf ∨
      (fround fmt x = fval.fin (round_fin fmt x) ∧ 0 ≤ round_fin fmt x ∧
        round_fin fmt x < (2 : ℚ) ^ (fmt.emax + 1)) := by
  rcases fround_cases fmt x with h | h | h
  · exact Or.inl h.1
  · exact absurd h.2.1 (not_lt.mpr hx)
  · exact Or.inr ⟨h.1, round_fin_nonneg fmt x hx, h.2.2⟩

theorem fadd_comm (fmt : float_format) (a b : fval) : fadd fmt a b = fadd fmt b a := by
  cases a <;> cases b <;> simp [fadd, add_comm]

theorem intersect_area_f32_comm {aux : Type} (a b : detect_region_t aux) :
    intersect_area_f32 a b = intersect_area_f32 b a := by
  simp only [intersect_area_f32]
  rw [min_comm (max b.topleft.y b.btmright.y), max_comm (min b.topleft.y b.btmright.y),
    min_comm (max b.topleft.x b.btmright.x), max_comm (min b.topleft.x b.btmright.x)]

theorem calc_iou_f32_unfold {aux : Type} (a b : detect_region_t aux) :
    calc_intersection_over_union_f32 a b =
      if (fle (normalized_area_f32 a) (fval.fin 0) ||
          fle (normalized_area_f32 b) (fval.fin 0)) = true then fval.fin 0
      else fdiv binary32 (intersect_area_f32 a b)
        (fsub binary32 (fadd binary32 (normalized_area_f32 a) (normalized_area_f32 b))
          (intersect_area_f32 a b)) :=
  rfl

theorem iou_f32_comm {aux : Type} (a b : detect_region_t aux) :
    calc_intersection_over_union_f32 a b = calc_intersection_over_union_f32 b a := by
  simp only [calc_iou_f32_unfold]
  rw [intersect_area_f32_comm b a, fadd_comm binary32 (normalized_area_f32 b),
    Bool.or_comm (fle (normalized_area_f32 b) (fval.fin 0))]

/-! ## Lemmas on the greedy loop in machine arithmetic -/

theorem ignore_scan_f32_eq_false_iff {aux : Type} (c : detect_region_t aux) (t : ℚ)
    (l : List (detect_region_t aux)) :
    ignore_scan_f32 c t l = false ↔
      ∀ r ∈ l, fge (calc_intersection_over_union_f32 c r) (fval.fin t) = false := by
  induction l with
  | nil => simp [ignore_scan_f32]
  | cons r rest ih =>
      by_cases h : fge (calc_intersection_over_union_f32 c r) (fval.fin t) = true
      · simp only [ignore_scan_f32, if_pos h, List.mem_cons, forall_eq_or_imp]
        constructor
        · intro hf
          exact absurd hf (by simp)
        · intro hall
          rw [h] at hall
          exact absurd hall.1 (by simp)
      · simp only [ignore_scan_f32, if_neg h, List.mem_cons, forall_eq_or_imp, ih]
        exact ⟨fun hall => ⟨by simpa using h, hall⟩, fun hall => hall.2⟩

theorem ignore_candidate_f32_eq_false_iff {aux : Type} (c : detect_region_t aux) (t : ℚ)
    (acc : List (detect_region_t aux)) :
    ignore_candidate_f32 c acc t = false ↔
      ∀ r ∈ acc, fge (calc_intersection_over_union_f32 c r) (fval.fin t) = false := by
  simp [ignore_candidate_f32, ignore_scan_f32_eq_false_iff]

theorem nms_loop_f32_pairwise {aux : Type} (cap : Nat) (t : ℚ)
    (cs : List (detect_region_t aux)) :
    ∀ acc : List (detect_region_t aux),
      acc.Pairwise (fun a b =>
        fge (calc_intersection_over_union_f32 b a) (fval.fin t) = false) →
      (nms_loop_f32 cap t cs acc).Pairwise (fun a b =>
        fge (calc_intersection_over_union_f32 b a) (fval.fin t) = false) := by
  induction cs with
  | nil => intro acc h; simpa [nms_loop_f32] using h
  | cons c rest ih =>
      intro acc h
      by_cases hig : ignore_candidate_f32 c acc t = true
      · simpa only [nms_loop_f32, if_pos hig] using ih acc h
      · have hc := (ignore_candidate_f32_eq_false_iff c t acc).mp (by simpa using hig)
        have hacc : (acc ++ [c]).Pairwise (fun a b =>
            fge (calc_intersection_over_union_f32 b a) (fval.fin t) = false) := by
          rw [List.pairwise_append]
          refine ⟨h, List.pairwise_singleton _ _, ?_⟩
          intro a ha b hb
          rw [List.mem_singleton] at hb
          subst hb
          exact hc a ha
        by_cases hfull : (acc ++ [c]).length ≥ cap
        · simpa only [nms_loop_f32, if_neg hig, if_pos hfull] using hacc
        · simpa only [nms_loop_f32, if_neg hig, if_neg hfull] using ih _ hacc

theorem fround_zero (fmt : float_format) : fround fmt 0 = fval.fin 0 := by
  have hpow : (0 : ℚ) < (2 : ℚ) ^ (fmt.emax + 1) := zpow_pos (by norm_num) _
  have h := fround_of_lt fmt 0 (by rw [round_fin_zero]; linarith)
    (by rw [round_fin_zero]; exact hpow)
  rw [h, round_fin_zero]

theorem extent_f32_cases (hi lo : ℚ) (h : lo ≤ hi) :
    fsub binary32 (fval.fin hi) (fval.fin lo) = fval.pinf ∨
      ∃ d : ℚ, fsub binary32 (fval.fin hi) (fval.fin lo) = fval.fin d ∧ 0 ≤ d ∧
        d = round_fin binary32 (hi - lo) := by
  have hsub : fsub binary32 (fval.fin hi) (fval.fin lo) = fround binary32 (hi - lo) := by
    simp only [fsub, fneg, fadd, sub_eq_add_neg]
  rw [hsub]
  rcases fround_nonneg_cases binary32 (hi - lo) (by linarith) with h1 | ⟨h1, h2, _⟩
  · exact Or.inl h1
  · exact Or.inr ⟨_, h1, h2, rfl⟩

theorem min_max_le (a b : ℚ) : min a b ≤ max a b :=
  le_trans (min_le_left a b) (le_max_left a b)

theorem area_f32_fin_extents {aux : Type} (r : detect_region_t aux) (v : ℚ)
    (harea : normalized_area_f32 r = fval.fin v) :
    ∃ h w : ℚ,
      fsub binary32 (fval.fin (max r.topleft.y r.btmright.y))
        (fval.fin (min r.topleft.y r.btmright.y)) = fval.fin h ∧
      fsub binary32 (fval.fin (max r.topleft.x r.btmright.x))
        (fval.fin (min r.topleft.x r.btmright.x)) = fval.fin w ∧
      0 ≤ h ∧ 0 ≤ w ∧ fround binary32 (h * w) = fval.fin v := by
  unfold normalized_area_f32 at harea
  rcases extent_f32_cases _ _ (min_max_le r.topleft.y r.btmright.y) with hy | ⟨h, hy, hh, _⟩ <;>
    rcases extent_f32_cases _ _ (min_max_le r.topleft.x r.btmright.x) with hx | ⟨w, hx, hw, _⟩
  · rw [hy, hx] at harea
    simp [fmul] at harea
  · rw [hy, hx] at harea
    simp only [fmul] at harea
    split_ifs at harea
  · rw [hy, hx] at harea
    simp only [fmul] at harea
    split_ifs at harea
  · rw [hy, hx] at harea
    exact ⟨h, w, hy, hx, hh, hw, harea⟩

theorem std_max_zero_of_nonneg (h : ℚ) (hh : 0 ≤ h) :
    std_max (fval.fin h) (fval.fin 0) = fval.fin h := by
  simp only [std_max, flt, decide_eq_true_eq, if_neg (not_lt.mpr hh)]

theorem fround_fin_is_float (fmt : float_format) (hp : 1 ≤ fmt.prec) (x v : ℚ)
    (h : fround fmt x = fval.fin v) :
    is_float fmt v ∧ |v| < (2 : ℚ) ^ (fmt.emax + 1) ∧ v = round_fin fmt x := by
  rcases fround_cases fmt x with h1 | h1 | h1
  · rw [h1.1] at h; exact absurd h (by simp)
  · rw [h1.1] at h; exact absurd h (by simp)
  · rw [h1.1] at h
    have hv : round_fin fmt x = v := by simpa using h
    rw [← hv]
    exact ⟨is_float_round_fin fmt hp x, abs_lt.mpr h1.2, rfl⟩

theorem is_float32_one : is_float binary32 1 :=
  ⟨1, 0, by decide, by decide, by norm_num⟩

theorem iou_f32_same_box {aux : Type} (a b : detect_region_t aux) (v : ℚ)
    (hxmin : min a.topleft.x a.btmright.x = min b.topleft.x b.btmright.x)
    (hymin : min a.topleft.y a.btmright.y = min b.topleft.y b.btmright.y)
    (hxmax : max a.topleft.x a.btmright.x = max b.topleft.x b.btmright.x)
    (hymax : max a.topleft.y a.btmright.y = max b.topleft.y b.btmright.y)
    (harea : normalized_area_f32 a = fval.fin v) (hpos : 0 < v)
    (hdouble : 2 * v < (2 : ℚ) ^ (128 : Int)) :
    calc_intersection_over_union_f32 a b = fval.fin 1 ∧
      calc_intersection_over_union_f32 b a = fval.fin 1 := by
  have hp := binary32_prec_pos
  have hab : normalized_area_f32 b = fval.fin v := by
    rw [← harea]
    simp only [normalized_area_f32, hxmin, hymin, hxmax, hymax]
  obtain ⟨h, w, hy, hx, hh, hw, hprod⟩ := area_f32_fin_extents a v harea
  obtain ⟨hfl, hvb, _⟩ := fround_fin_is_float binary32 hp _ v hprod
  have hI : intersect_area_f32 a b = fval.fin v := by
    simp only [intersect_area_f32, ← hxmin, ← hymin, ← hxmax, ← hymax, min_self, max_self,
      hy, hx, std_max_zero_of_nonneg h hh, std_max_zero_of_nonneg w hw, fmul]
    exact hprod
  have hsum : fadd binary32 (fval.fin v) (fval.fin v) = fval.fin (2 * v) := by
    simp only [fadd]
    rw [← two_mul]
    exact fround_exact binary32 _ (is_float_double binary32 v hfl)
      (by rw [abs_of_pos (by linarith)]; exact hdouble)
  have hden : fsub binary32 (fval.fin (2 * v)) (fval.fin v) = fval.fin v := by
    simp only [fsub, fneg, fadd]
    rw [show 2 * v + -v = v by ring]
    exact fround_exact binary32 v hfl hvb
  have hquot : fdiv binary32 (fval.fin v) (fval.fin v) = fval.fin 1 := by
    simp only [fdiv, if_neg hpos.ne', div_self hpos.ne']
    exact fround_exact binary32 1 is_float32_one (by
      rw [abs_one]
      show (1 : ℚ) < (2 : ℚ) ^ (128 : Int)
      norm_num)
  have hguard : fle (fval.fin v) (fval.fin 0) = false := by
    simp only [fle, decide_eq_false_iff_not, not_le]
    exact hpos
  have h1 : calc_intersection_over_union_f32 a b = fval.fin 1 := by
    simp only [calc_iou_f32_unfold, harea, hab, hguard, Bool.or_self,
      Bool.false_eq_true, if_false, hI, hsum, hden, hquot]
  exact ⟨h1, (iou_f32_comm b a).trans h1⟩

/-! ## Lemmas on the range of the overlap measure in machine arithmetic -/

theorem clamp_f32_cases (top bot : ℚ) :
    std_max (fsub binary32 (fval.fin top) (fval.fin bot)) (fval.fin 0) = fval.pinf ∨
      ∃ c : ℚ, std_max (fsub binary32 (fval.fin top) (fval.fin bot)) (fval.fin 0) = fval.fin c ∧
        0 ≤ c ∧ c ≤ max (round_fin binary32 (top - bot)) 0 := by
  have hsub : fsub binary32 (fval.fin top) (fval.fin bot) = fround binary32 (top - bot) := by
    simp only [fsub, fneg, fadd, sub_eq_add_neg]
  rw [hsub]
  rcases fround_cases binary32 (top - bot) with h | h | h
  · left
    rw [h.1]
    simp [std_max, flt]
  · right
    refine ⟨0, ?_, le_refl 0, le_max_right _ _⟩
    rw [h.1]
    simp [std_max, flt]
  · right
    rw [h.1]
    by_cases hneg : round_fin binary32 (top - bot) < 0
    · exact ⟨0, by simp [std_max, flt, hneg], le_refl 0, le_max_right _ _⟩
    · exact ⟨round_fin binary32 (top - bot), by simp [std_max, flt, hneg], not_lt.mp hneg,
        le_max_left _ _⟩

theorem clamp_f32_le_extent (top bot hi lo h : ℚ) (hle : top - bot ≤ hi - lo)
    (hlohi : lo ≤ hi)
    (hext : fsub binary32 (fval.fin hi) (fval.fin lo) = fval.fin h) :
    ∃ c : ℚ, std_max (fsub binary32 (fval.fin top) (fval.fin bot)) (fval.fin 0) = fval.fin c ∧
      0 ≤ c ∧ c ≤ h := by
  have hp := binary32_prec_pos
  have hsub : fsub binary32 (fval.fin hi) (fval.fin lo) = fround binary32 (hi - lo) := by
    simp only [fsub, fneg, fadd, sub_eq_add_neg]
  rw [hsub] at hext
  obtain ⟨_, hb, hv⟩ := fround_fin_is_float binary32 hp _ h hext
  have hh : 0 ≤ h := by
    rw [hv]
    exact round_fin_nonneg binary32 _ (by linarith)
  have hmono : round_fin binary32 (top - bot) ≤ h := by
    rw [hv]
    exact round_fin_mono binary32 hp _ _ hle
  have hsub2 : fsub binary32 (fval.fin top) (fval.fin bot) = fround binary32 (top - bot) := by
    simp only [fsub, fneg, fadd, sub_eq_add_neg]
  rcases clamp_f32_cases top bot with hc | ⟨c, hc, hc0, hcle⟩
  · exfalso
    rw [hsub2] at hc
    rcases fround_cases binary32 (top - bot) with h1 | h1 | h1
    · have := (abs_lt.mp hb).2
      linarith [h1.2.2]
    · rw [h1.1] at hc
      simp [std_max, flt] at hc
    · rw [h1.1] at hc
      simp only [std_max, flt] at hc
      split_ifs at hc
  · exact ⟨c, hc, hc0, hcle.trans (max_le hmono hh)⟩

theorem area_f32_cases {aux : Type} (r : detect_region_t aux) :
    normalized_area_f32 r = fval.nan ∨ normalized_area_f32 r = fval.pinf ∨
      ∃ v : ℚ, normalized_area_f32 r = fval.fin v ∧ 0 ≤ v := by
  unfold normalized_area_f32
  rcases extent_f32_cases _ _ (min_max_le r.topleft.y r.btmright.y) with hy | ⟨h, hy, hh, _⟩ <;>
    rcases extent_f32_cases _ _ (min_max_le r.topleft.x r.btmright.x) with hx | ⟨w, hx, hw, _⟩
  · rw [hy, hx]
    simp [fmul]
  · rw [hy, hx]
    simp only [fmul]
    split_ifs <;> simp
    rename_i hne hnp
    exact hnp (lt_of_le_of_ne hw (Ne.symm hne))
  · rw [hy, hx]
    simp only [fmul]
    split_ifs <;> simp
    rename_i hne hnp
    exact hnp (lt_of_le_of_ne hh (Ne.symm hne))
  · rw [hy, hx]
    simp only [fmul]
    rcases fround_nonneg_cases binary32 (h * w) (mul_nonneg hh hw) with h1 | ⟨h1, h2, _⟩
    · exact Or.inr (Or.inl h1)
    · exact Or.inr (Or.inr ⟨_, h1, h2⟩)

theorem intersect_f32_cases {aux : Type} (a b : detect_region_t aux) :
    intersect_area_f32 a b = fval.nan ∨ intersect_area_f32 a b = fval.pinf ∨
      ∃ i : ℚ, intersect_area_f32 a b = fval.fin i ∧ 0 ≤ i := by
  unfold intersect_area_f32
  rcases clamp_f32_cases
      (min (max a.topleft.y a.btmright.y) (max b.topleft.y b.btmright.y))
      (max (min a.topleft.y a.btmright.y) (min b.topleft.y b.btmright.y)) with
    hy | ⟨h, hy, hh, _⟩ <;>
  rcases clamp_f32_cases
      (min (max a.topleft.x a.btmright.x) (max b.topleft.x b.btmright.x))
      (max (min a.topleft.x a.btmright.x) (min b.topleft.x b.btmright.x)) with
    hx | ⟨w, hx, hw, _⟩
  · rw [hy, hx]
    simp [fmul]
  · rw [hy, hx]
    simp only [fmul]
    split_ifs <;> simp
    rename_i hne hnp
    exact hnp (lt_of_le_of_ne hw (Ne.symm hne))
  · rw [hy, hx]
    simp only [fmul]
    split_ifs <;> simp
    rename_i hne hnp
    exact hnp (lt_of_le_of_ne hh (Ne.symm hne))
  · rw [hy, hx]
    simp only [fmul]
    rcases fround_nonneg_cases binary32 (h * w) (mul_nonneg hh hw) with h1 | ⟨h1, h2, _⟩
    · exact Or.inr (Or.inl h1)
    · exact Or.inr (Or.inr ⟨_, h1, h2⟩)

theorem intersect_f32_le_area_left {aux : Type} (a b : detect_region_t aux) (v : ℚ)
    (harea : normalized_area_f32 a = fval.fin v) :
    ∃ i : ℚ, intersect_area_f32 a b = fval.fin i ∧ 0 ≤ i ∧ i ≤ v ∧ is_float binary32 i := by
  have hp := binary32_prec_pos
  obtain ⟨h, w, hy, hx, hh, hw, hprod⟩ := area_f32_fin_extents a v harea
  obtain ⟨_, hvb, hv⟩ := fround_fin_is_float binary32 hp _ v hprod
  have hley : min (max a.topleft.y a.btmright.y) (max b.topleft.y b.btmright.y) -
      max (min a.topleft.y a.btmright.y) (min b.topleft.y b.btmright.y) ≤
      max a.topleft.y a.btmright.y - min a.topleft.y a.btmright.y := by
    linarith [min_le_left (max a.topleft.y a.btmright.y) (max b.topleft.y b.btmright.y),
      le_max_left (min a.topleft.y a.btmright.y) (min b.topleft.y b.btmright.y)]
  have hlex : min (max a.topleft.x a.btmright.x) (max b.topleft.x b.btmright.x) -
      max (min a.topleft.x a.btmright.x) (min b.topleft.x b.btmright.x) ≤
      max a.topleft.x a.btmright.x - min a.topleft.x a.btmright.x := by
    linarith [min_le_left (max a.topleft.x a.btmright.x) (max b.topleft.x b.btmright.x),
      le_max_left (min a.topleft.x a.btmright.x) (min b.topleft.x b.btmright.x)]
  obtain ⟨cy, hcy, hcy0, hcyle⟩ := clamp_f32_le_extent _ _ _ _ h hley
    (min_max_le a.topleft.y a.btmright.y) hy
  obtain ⟨cx, hcx, hcx0, hcxle⟩ := clamp_f32_le_extent _ _ _ _ w hlex
    (min_max_le a.topleft.x a.btmright.x) hx
  have hI : intersect_area_f32 a b = fround binary32 (cy * cx) := by
    simp only [intersect_area_f32, hcy, hcx, fmul]
  have hmono : round_fin binary32 (cy * cx) ≤ v := by
    rw [hv]
    exact round_fin_mono binary32 hp _ _ (mul_le_mul hcyle hcxle hcx0 hh)
  have hnn : 0 ≤ round_fin binary32 (cy * cx) :=
    round_fin_nonneg binary32 _ (mul_nonneg hcy0 hcx0)
  have hvlt := (abs_lt.mp hvb).2
  have hpow : (0 : ℚ) < (2 : ℚ) ^ (binary32.emax + 1) := zpow_pos (by norm_num) _
  refine ⟨round_fin binary32 (cy * cx), ?_, hnn, hmono, is_float_round_fin binary32 hp _⟩
  rw [hI]
  exact fround_of_lt binary32 _ (by linarith) (by linarith)

theorem iou_f32_finite_areas {aux : Type} (a b : detect_region_t aux) (v0 v1 : ℚ)
    (ha : normalized_area_f32 a = fval.fin v0) (hb : normalized_area_f32 b = fval.fin v1)
    (h0 : 0 < v0) (h1 : 0 < v1) :
    ∃ i : ℚ, intersect_area_f32 a b = fval.fin i ∧ 0 ≤ i ∧ i ≤ v0 ∧ i ≤ v1 ∧
      (fsub binary32 (fadd binary32 (fval.fin v0) (fval.fin v1)) (fval.fin i) = fval.pinf ∧
          calc_intersection_over_union_f32 a b = fval.fin 0 ∨
        ∃ d r : ℚ,
          fsub binary32 (fadd binary32 (fval.fin v0) (fval.fin v1)) (fval.fin i) = fval.fin d ∧
          0 < d ∧ i ≤ d ∧
          calc_intersection_over_union_f32 a b = fval.fin r ∧ 0 ≤ r ∧ r ≤ 1) := by
  have hp := binary32_prec_pos
  obtain ⟨i, hI, hi0, hile0, hifl⟩ := intersect_f32_le_area_left a b v0 ha
  obtain ⟨i', hI', _, hile1, _⟩ := intersect_f32_le_area_left b a v1 hb
  rw [intersect_area_f32_comm b a, hI] at hI'
  have hii : i = i' := by simpa using hI'
  rw [← hii] at hile1
  have hguard0 : fle (fval.fin v0) (fval.fin 0) = false := by
    simp only [fle, decide_eq_false_iff_not, not_le]; exact h0
  have hguard1 : fle (fval.fin v1) (fval.fin 0) = false := by
    simp only [fle, decide_eq_false_iff_not, not_le]; exact h1
  have hiou : calc_intersection_over_union_f32 a b =
      fdiv binary32 (fval.fin i)
        (fsub binary32 (fadd binary32 (fval.fin v0) (fval.fin v1)) (fval.fin i)) := by
    simp only [calc_iou_f32_unfold, ha, hb, hguard0, hguard1, Bool.or_self,
      Bool.false_eq_true, if_false, hI]
  have hv0fl : is_float binary32 v0 := by
    obtain ⟨h, w, _, _, _, _, hprod⟩ := area_f32_fin_extents a v0 ha
    exact (fround_fin_is_float binary32 hp _ v0 hprod).1
  refine ⟨i, hI, hi0, hile0, hile1, ?_⟩
  have hsum : fadd binary32 (fval.fin v0) (fval.fin v1) = fround binary32 (v0 + v1) := rfl
  rcases fround_nonneg_cases binary32 (v0 + v1) (by linarith) with hs | ⟨hs, hs0, hslt⟩
  · left
    rw [hiou, hsum, hs]
    simp [fsub, fneg, fadd, fdiv]
  · right
    have hs2i : 2 * i ≤ round_fin binary32 (v0 + v1) := by
      have := round_fin_mono binary32 hp (2 * i) (v0 + v1) (by linarith)
      rwa [round_fin_of_is_float binary32 _ (is_float_double binary32 i hifl)] at this
    have hsv0 : v0 ≤ round_fin binary32 (v0 + v1) := by
      have := round_fin_mono binary32 hp v0 (v0 + v1) (by linarith)
      rwa [round_fin_of_is_float binary32 _ hv0fl] at this
    have hden : fsub binary32 (fval.fin (round_fin binary32 (v0 + v1))) (fval.fin i) =
        fround binary32 (round_fin binary32 (v0 + v1) - i) := by
      simp only [fsub, fneg, fadd, sub_eq_add_neg]
    have hd_ge : i ≤ round_fin binary32 (round_fin binary32 (v0 + v1) - i) := by
      have := round_fin_mono binary32 hp i (round_fin binary32 (v0 + v1) - i) (by linarith)
      rwa [round_fin_of_is_float binary32 _ hifl] at this
    have hd_le : round_fin binary32 (round_fin binary32 (v0 + v1) - i) ≤
        round_fin binary32 (v0 + v1) := by
      have := round_fin_mono binary32 hp (round_fin binary32 (v0 + v1) - i)
        (round_fin binary32 (v0 + v1)) (by linarith)
      rwa [round_fin_idem binary32 hp] at this
    have hd_pos : 0 < round_fin binary32 (round_fin binary32 (v0 + v1) - i) := by
      rcases eq_or_lt_of_le hi0 with hz | hpos
      · rw [← hz, sub_zero, round_fin_idem binary32 hp]
        linarith
      · linarith
    have hpow : (0 : ℚ) < (2 : ℚ) ^ (binary32.emax + 1) := zpow_pos (by norm_num) _
    have hdfin : fround binary32 (round_fin binary32 (v0 + v1) - i) =
        fval.fin (round_fin binary32 (round_fin binary32 (v0 + v1) - i)) :=
      fround_of_lt binary32 _ (by linarith) (by linarith)
    have hq0 : 0 ≤ i / round_fin binary32 (round_fin binary32 (v0 + v1) - i) :=
      div_nonneg hi0 hd_pos.le
    have hq1 : i / round_fin binary32 (round_fin binary32 (v0 + v1) - i) ≤ 1 :=
      (div_le_one hd_pos).mpr hd_ge
    have hr0 := round_fin_nonneg binary32 _ hq0
    have hr1 : round_fin binary32
        (i / round_fin binary32 (round_fin binary32 (v0 + v1) - i)) ≤ 1 := by
      have := round_fin_mono binary32 hp _ _ hq1
      rwa [round_fin_of_is_float binary32 1 is_float32_one] at this
    have hone : (1 : ℚ) < (2 : ℚ) ^ (binary32.emax + 1) := by
      show (1 : ℚ) < (2 : ℚ) ^ (128 : Int)
      norm_num
    refine ⟨_, _, by rw [hsum, hs, hden, hdfin], hd_pos, hd_ge, ?_, hr0, hr1⟩
    rw [hiou, hsum, hs, hden, hdfin]
    simp only [fdiv, if_neg hd_pos.ne']
    exact fround_of_lt binary32 _ (by linarith) (by linarith)

theorem fdiv_nan_right (fmt : float_format) (x : fval) : fdiv fmt x fval.nan = fval.nan := by
  cases x <;> rfl

theorem fsub_nan_left (fmt : float_format) (x : fval) : fsub fmt fval.nan x = fval.nan := by
  cases x <;> rfl

theorem fadd_nan_left (fmt : float_format) (x : fval) : fadd fmt fval.nan x = fval.nan := by
  cases x <;> rfl

theorem fadd_nan_right (fmt : float_format) (x : fval) : fadd fmt x fval.nan = fval.nan := by
  cases x <;> rfl

theorem iou_f32_range {aux : Type} (a b : detect_region_t aux) :
    calc_intersection_over_union_f32 a b = fval.nan ∨
      ∃ r : ℚ, calc_intersection_over_union_f32 a b = fval.fin r ∧ 0 ≤ r ∧ r ≤ 1 := by
  by_cases hg : (fle (normalized_area_f32 a) (fval.fin 0) ||
      fle (normalized_area_f32 b) (fval.fin 0)) = true
  · right
    exact ⟨0, by simp only [calc_iou_f32_unfold, if_pos hg], le_refl 0, zero_le_one⟩
  · have hiou : calc_intersection_over_union_f32 a b =
        fdiv binary32 (intersect_area_f32 a b)
          (fsub binary32 (fadd binary32 (normalized_area_f32 a) (normalized_area_f32 b))
            (intersect_area_f32 a b)) := by
      simp only [calc_iou_f32_unfold, if_neg hg]
    rw [Bool.or_eq_true, not_or] at hg
    obtain ⟨hg0, hg1⟩ := hg
    rcases area_f32_cases a with ha | ha | ⟨v0, ha, hv0⟩ <;>
      rcases area_f32_cases b with hb | hb | ⟨v1, hb, hv1⟩
    · left
      rw [hiou, ha, fadd_nan_left, fsub_nan_left, fdiv_nan_right]
    · left
      rw [hiou, ha, fadd_nan_left, fsub_nan_left, fdiv_nan_right]
    · left
      rw [hiou, ha, fadd_nan_left, fsub_nan_left, fdiv_nan_right]
    · left
      rw [hiou, hb, fadd_nan_right, fsub_nan_left, fdiv_nan_right]
    · rw [hiou, ha, hb]
      rcases intersect_f32_cases a b with hi | hi | ⟨i, hi, _⟩
      · left
        rw [hi]
        rfl
      · left
        rw [hi]
        rfl
      · right
        rw [hi]
        exact ⟨0, rfl, le_refl 0, zero_le_one⟩
    · obtain ⟨i, hi, _⟩ := intersect_f32_le_area_left b a v1 hb
      rw [intersect_area_f32_comm b a] at hi
      right
      rw [hiou, ha, hb, hi]
      exact ⟨0, rfl, le_refl 0, zero_le_one⟩
    · left
      rw [hiou, hb, fadd_nan_right, fsub_nan_left, fdiv_nan_right]
    · obtain ⟨i, hi, _⟩ := intersect_f32_le_area_left a b v0 ha
      right
      rw [hiou, ha, hb, hi]
      exact ⟨0, rfl, le_refl 0, zero_le_one⟩
    · have h0 : 0 < v0 := by
        rw [ha] at hg0
        simpa [fle] using hg0
      have h1 : 0 < v1 := by
        rw [hb] at hg1
        simpa [fle] using hg1
      obtain ⟨i, _, _, _, _, hcase⟩ := iou_f32_finite_areas a b v0 v1 ha hb h0 h1
      right
      rcases hcase with ⟨_, hr⟩ | ⟨d, r, _, _, _, hr, hr0, hr1⟩
      · exact ⟨0, hr, le_refl 0, zero_le_one⟩
      · exact ⟨r, hr, hr0, hr1⟩

theorem ignore_candidate_f32_eq_true_iff {aux : Type} (c : detect_region_t aux) (t : ℚ)
    (acc : List (detect_region_t aux)) :
    ignore_candidate_f32 c acc t = true ↔
      ∃ r ∈ acc, fge (calc_intersection_over_union_f32 c r) (fval.fin t) = true := by
  rw [← Bool.not_eq_false, ignore_candidate_f32_eq_false_iff]
  push_neg
  simp only [ne_eq, Bool.not_eq_false]

theorem nms_loop_f32_length_le {aux : Type} (cap : Nat) (t : ℚ)
    (cs : List (detect_region_t aux)) :
    ∀ acc : List (detect_region_t aux), acc.length < cap →
      (nms_loop_f32 cap t cs acc).length ≤ cap := by
  induction cs with
  | nil => intro acc h; simpa [nms_loop_f32] using h.le
  | cons c rest ih =>
      intro acc h
      by_cases hig : ignore_candidate_f32 c acc t = true
      · simpa only [nms_loop_f32, if_pos hig] using ih acc h
      · by_cases hfull : (acc ++ [c]).length ≥ cap
        · simp only [nms_loop_f32, if_neg hig, if_pos hfull]
          simpa using h
        · simp only [nms_loop_f32, if_neg hig, if_neg hfull]
          exact ih _ (not_le.mp hfull)

theorem iou_f32_fin_of_fin_areas {aux : Type} (a b : detect_region_t aux) (v0 v1 : ℚ)
    (ha : normalized_area_f32 a = fval.fin v0) (hb : normalized_area_f32 b = fval.fin v1) :
    ∃ r : ℚ, calc_intersection_over_union_f32 a b = fval.fin r ∧ 0 ≤ r ∧ r ≤ 1 := by
  by_cases hpos : 0 < v0 ∧ 0 < v1
  · obtain ⟨i, _, _, _, _, hcase⟩ := iou_f32_finite_areas a b v0 v1 ha hb hpos.1 hpos.2
    rcases hcase with ⟨_, hr⟩ | ⟨d, r, _, _, _, hr, hr0, hr1⟩
    · exact ⟨0, hr, le_refl 0, zero_le_one⟩
    · exact ⟨r, hr, hr0, hr1⟩
  · have hg : (fle (normalized_area_f32 a) (fval.fin 0) ||
        fle (normalized_area_f32 b) (fval.fin 0)) = true := by
      rw [ha, hb, Bool.or_eq_true]
      simp only [fle, decide_eq_true_eq]
      by_contra hcon
      push_neg at hcon
      exact hpos hcon
    exact ⟨0, by simp only [calc_iou_f32_unfold, if_pos hg], le_refl 0,
      zero_le_one⟩

theorem iou_f32_of_area_zero {aux : Type} (r s : detect_region_t aux)
    (hzero : normalized_area_f32 r = fval.fin 0) :
    calc_intersection_over_union_f32 r s = fval.fin 0 ∧
      calc_intersection_over_union_f32 s r = fval.fin 0 := by
  have hle : fle (normalized_area_f32 r) (fval.fin 0) = true := by
    rw [hzero]
    simp [fle]
  constructor
  · simp only [calc_iou_f32_unfold, hle, Bool.true_or, if_true]
  · simp only [calc_iou_f32_unfold, hle, Bool.or_true, if_true]

theorem fsub_fin (fmt : float_format) (a b : ℚ) :
    fsub fmt (fval.fin a) (fval.fin b) = fround fmt (a - b) := by
  simp only [fsub, fneg, fadd, sub_eq_add_neg]

theorem area_f32_of_exact_zero {aux : Type} (r : detect_region_t aux)
    (hzero : normalized_area r = 0) (hnum : normalized_area_f32 r ≠ fval.nan) :
    normalized_area_f32 r = fval.fin 0 := by
  unfold normalized_area at hzero
  unfold normalized_area_f32 at hnum ⊢
  rcases extent_f32_cases _ _ (min_max_le r.topleft.y r.btmright.y) with hy | ⟨h, hy, hh, hhv⟩ <;>
    rcases extent_f32_cases _ _ (min_max_le r.topleft.x r.btmright.x) with hx | ⟨w, hx, hw, hwv⟩
  · exfalso
    rcases mul_eq_zero.mp hzero with h0 | h0
    · rw [fsub_fin, h0, fround_zero] at hy
      exact absurd hy (by simp)
    · rw [fsub_fin, h0, fround_zero] at hx
      exact absurd hx (by simp)
  · exfalso
    rcases mul_eq_zero.mp hzero with h0 | h0
    · rw [fsub_fin, h0, fround_zero] at hy
      exact absurd hy (by simp)
    · rw [h0, round_fin_zero] at hwv
      rw [hy, hx, hwv] at hnum
      simp [fmul] at hnum
  · exfalso
    rcases mul_eq_zero.mp hzero with h0 | h0
    · rw [h0, round_fin_zero] at hhv
      rw [hy, hx, hhv] at hnum
      simp [fmul] at hnum
    · rw [fsub_fin, h0, fround_zero] at hx
      exact absurd hx (by simp)
  · rw [hy, hx]
    simp only [fmul]
    rcases mul_eq_zero.mp hzero with h0 | h0
    · rw [h0, round_fin_zero] at hhv
      rw [hhv, zero_mul, fround_zero]
    · rw [h0, round_fin_zero] at hwv
      rw [hwv, mul_zero, fround_zero]

/-! ## Lemmas on `CalculateScale` in machine arithmetic -/

theorem is_float_of_fround (fmt : float_format) (hp : 1 ≤ fmt.prec) (x : ℚ)
    (h : fround fmt x = fval.fin x) :
    is_float fmt x ∧ |x| < (2 : ℚ) ^ (fmt.emax + 1) :=
  ⟨(fround_fin_is_float fmt hp x x h).1, (fround_fin_is_float fmt hp x x h).2.1⟩

theorem pow_128_lt_pow_1024 : (2 : ℚ) ^ (binary32.emax + 1) < (2 : ℚ) ^ (binary64.emax + 1) := by
  show (2 : ℚ) ^ (128 : Int) < (2 : ℚ) ^ (1024 : Int)
  exact zpow_lt_zpow_right₀ (by norm_num) (by norm_num)

theorem is_float64_of_is_float32 (x : ℚ) (h : is_float binary32 x) : is_float binary64 x := by
  obtain ⟨m, e, hm, he, hx⟩ := h
  refine ⟨m, e, lt_trans hm (by decide), le_trans (by decide) he, hx⟩

theorem fround64_of_fround32 (x : ℚ) (h : fround binary32 x = fval.fin x) :
    fround binary64 x = fval.fin x := by
  obtain ⟨hfl, hb⟩ := is_float_of_fround binary32 binary32_prec_pos x h
  exact fround_exact binary64 x (is_float64_of_is_float32 x hfl) (lt_trans hb pow_128_lt_pow_1024)

theorem fround32_int (n : Int) (hn : |n| ≤ 2 ^ 24) : fround binary32 (n : ℚ) = fval.fin n := by
  apply fround_exact binary32 _ (is_float32_int n hn)
  have h1 : |(n : ℚ)| ≤ 2 ^ 24 := by exact_mod_cast hn
  have h2 : ((2 : ℚ) ^ 24) < (2 : ℚ) ^ (binary32.emax + 1) := by
    show ((2 : ℚ) ^ 24) < (2 : ℚ) ^ (128 : Int)
    norm_num
  exact lt_of_le_of_lt h1 h2

theorem fround64_mul_int (d : ℚ) (k : Int) (hd : fround binary32 d = fval.fin d)
    (hk : |k| ≤ 2 ^ 24) : fround binary64 (d * (k : ℚ)) = fval.fin (d * (k : ℚ)) := by
  obtain ⟨⟨m, e, hm, he, hx⟩, hb⟩ := is_float_of_fround binary32 binary32_prec_pos d hd
  apply fround_exact
  · refine ⟨m * k, e, ?_, le_trans (by decide) he, by rw [hx]; push_cast; ring⟩
    rw [abs_mul]
    have hm' : |m| < 2 ^ 24 := hm
    have h0 : (0 : Int) ≤ |k| := abs_nonneg k
    have h1 : |m| * |k| ≤ 2 ^ 24 * 2 ^ 24 :=
      mul_le_mul hm'.le hk h0 (by norm_num)
    have h2 : ((2 : Int) ^ 24 * 2 ^ 24) < 2 ^ binary64.prec := by decide
    exact lt_of_le_of_lt h1 h2
  · rw [abs_mul]
    have hk' : |(k : ℚ)| ≤ 2 ^ 24 := by exact_mod_cast hk
    have h1 : |d| * |(k : ℚ)| ≤ (2 : ℚ) ^ (binary32.emax + 1) * 2 ^ 24 :=
      mul_le_mul hb.le hk' (abs_nonneg _) (zpow_pos (by norm_num) _).le
    have h2 : (2 : ℚ) ^ (binary32.emax + 1) * 2 ^ 24 < (2 : ℚ) ^ (binary64.emax + 1) := by
      show (2 : ℚ) ^ (128 : Int) * 2 ^ 24 < (2 : ℚ) ^ (1024 : Int)
      have h3 : (2 : ℚ) ^ (128 : Int) * 2 ^ 24 = (2 : ℚ) ^ (152 : Int) := by norm_num
      rw [h3]
      exact zpow_lt_zpow_right₀ (by norm_num) (by norm_num)
    exact lt_of_le_of_lt h1 h2

theorem CalculateScale_f32_denominator (num_strides : Int) (h2 : 2 ≤ num_strides)
    (hn : num_strides ≤ 2 ^ 24) :
    fsub binary32 (int_to_float num_strides) (fval.fin 1) =
      fval.fin (((num_strides - 1 : Int) : ℚ)) := by
  have h1 : |num_strides| ≤ 2 ^ 24 := by rw [abs_of_nonneg (by omega)]; exact hn
  have h3 : |num_strides - 1| ≤ 2 ^ 24 := by rw [abs_of_nonneg (by omega)]; omega
  rw [int_to_float, fround32_int num_strides h1, fsub_fin]
  have := fround32_int (num_strides - 1) h3
  push_cast at this ⊢
  exact this

theorem CalculateScale_f32_exact (min_scale max_scale : ℚ) (stride_index num_strides : Int)
    (h2 : 2 ≤ num_strides) (hn : num_strides ≤ 2 ^ 24)
    (hi0 : 0 ≤ stride_index) (hi1 : stride_index ≤ num_strides - 1)
    (hdiff : fround binary32 (max_scale - min_scale) = fval.fin (max_scale - min_scale))
    (hquot : fround binary64
        ((max_scale - min_scale) * (stride_index : ℚ) / ((num_strides - 1 : Int) : ℚ)) =
      fval.fin ((max_scale - min_scale) * (stride_index : ℚ) / ((num_strides - 1 : Int) : ℚ)))
    (hsum : fround binary32
        (min_scale +
          (max_scale - min_scale) * (stride_index : ℚ) / ((num_strides - 1 : Int) : ℚ)) =
      fval.fin (min_scale +
          (max_scale - min_scale) * (stride_index : ℚ) / ((num_strides - 1 : Int) : ℚ))) :
    CalculateScale_f32 min_scale max_scale stride_index num_strides =
      fval.fin (min_scale +
        (max_scale - min_scale) * (stride_index : ℚ) / ((num_strides - 1 : Int) : ℚ)) := by
  have hne : num_strides ≠ 1 := by omega
  have hden0 : (((num_strides - 1 : Int) : ℚ)) ≠ 0 := by
    have : (num_strides - 1 : Int) ≠ 0 := by omega
    exact_mod_cast this
  have hi : |stride_index| ≤ 2 ^ 24 := by rw [abs_of_nonneg hi0]; omega
  have hone : fround binary64 ((max_scale - min_scale) * 1) =
      fval.fin (max_scale - min_scale) := by
    rw [mul_one]
    exact fround64_of_fround32 _ hdiff
  have hidx : int_to_double stride_index = fval.fin (stride_index : ℚ) := by
    have := fround64_of_fround32 _ (fround32_int stride_index hi)
    exact this
  rw [CalculateScale_f32, if_neg hne, fsub_fin, hdiff, CalculateScale_f32_denominator _ h2 hn,
    hidx]
  simp only [fmul, hone, fround64_mul_int _ stride_index hdiff hi, fdiv, if_neg hden0, hquot,
    fadd, fround64_of_fround32 _ hsum, double_to_float, hsum]

/-! ## Theorems on `non_max_suppression` -/

/-- C3: the result is ordered by descending score: a region at an earlier position has
a score at least that of a region at a later position. -/
theorem nms_result_sorted_by_score {aux : Type} (MAX_POSE_NUM : Nat)
    (region_list : List (detect_region_t aux)) (iou_thresh : ℚ) (i j : Nat)
    (hij : i < j)
    (hj : j < (non_max_suppression MAX_POSE_NUM region_list [] iou_thresh).region_nms_list.length) :
    ((non_max_suppression MAX_POSE_NUM region_list [] iou_thresh).region_nms_list[i]).score ≥
      ((non_max_suppression MAX_POSE_NUM region_list [] iou_thresh).region_nms_list[j]).score := by
  obtain ⟨s, hs, he⟩ := nms_loop_eq_append MAX_POSE_NUM iou_thresh (list_sort region_list) []
  have hp : ((non_max_suppression MAX_POSE_NUM region_list [] iou_thresh).region_nms_list).Pairwise
      (fun a b => a.score ≥ b.score) := by
    show (nms_loop MAX_POSE_NUM iou_thresh (list_sort region_list) []).Pairwise _
    rw [he, List.nil_append]
    exact (list_sort_pairwise region_list).sublist hs
  rw [List.pairwise_iff_getElem] at hp
  exact hp i j (by omega) hj hij

/-- Witness of C3: the two sample squares handed over in ascending score order. -/
theorem nms_result_sorted_by_score_witness :
    ((non_max_suppression 2 [sample_region_b, sample_region_a] []
        (3 / 10)).region_nms_list.get ⟨0, by decide!⟩).score ≥
      ((non_max_suppression 2 [sample_region_b, sample_region_a] []
        (3 / 10)).region_nms_list.get ⟨1, by decide!⟩).score :=
  nms_result_sorted_by_score 2 [sample_region_b, sample_region_a] (3 / 10) 0 1
    (by decide) (by decide!)

/-- C4: regions pass through unmodified.  The candidate list is left sorted, a
permutation of the input; the accepted list is a sub-sequence of it; so every
accepted region is one of the input candidates, field by field, and occurs in the
result at most as often as in the input. -/
theorem nms_result_sublist_of_sorted {aux : Type} [DecidableEq aux] (MAX_POSE_NUM : Nat)
    (region_list : List (detect_region_t aux)) (iou_thresh : ℚ) :
    (non_max_suppression MAX_POSE_NUM region_list [] iou_thresh).region_list
        = list_sort region_list ∧
      (list_sort region_list).Perm region_list ∧
      ((non_max_suppression MAX_POSE_NUM region_list [] iou_thresh).region_nms_list).Sublist
        (list_sort region_list) ∧
      (∀ r ∈ (non_max_suppression MAX_POSE_NUM region_list [] iou_thresh).region_nms_list,
        r ∈ region_list) ∧
      ∀ r : detect_region_t aux,
        ((non_max_suppression MAX_POSE_NUM region_list [] iou_thresh).region_nms_list).count r
          ≤ region_list.count r := by
  obtain ⟨s, hs, he⟩ := nms_loop_eq_append MAX_POSE_NUM iou_thresh (list_sort region_list) []
  have hperm : (list_sort region_list).Perm region_list := List.mergeSort_perm _ _
  have hsub : ((non_max_suppression MAX_POSE_NUM region_list [] iou_thresh).region_nms_list).Sublist
      (list_sort region_list) := by
    show (nms_loop MAX_POSE_NUM iou_thresh (list_sort region_list) []).Sublist _
    rw [he, List.nil_append]
    exact hs
  refine ⟨rfl, hperm, hsub, ?_, ?_⟩
  · intro r hr
    exact hperm.subset (hsub.subset hr)
  · intro r
    exact (hsub.count_le r).trans (hperm.count_eq r).le

/-! ## Theorems on `GenerateAnchors` -/

/-- C5: the ordering of the anchors.  Where the grid of every merged layer is defined,
`GenerateAnchors` returns 0 and appends, in stride-sequence order, one block per
merged layer (maximal run of consecutive equal strides, listed by `spec_layer_starts`).
In the block of a layer with grid `grid_h` by `grid_w` and `A` accumulated pairs
the block has `grid_h * grid_w * A` anchors, and for `y < grid_h`, `x < grid_w`,
`a < A` the anchor at offset `(y * grid_w + x) * A + a` has
`x_center = (x + anchor_offset_x) / grid_w`, `y_center = (y + anchor_offset_y) / grid_h`,
and size (1, 1) if `fixed_anchor_size`, otherwise width `scale * sqrt ratio` and
height `scale / sqrt ratio` of the `a`-th accumulated (aspect ratio, scale) pair. -/
theorem GenerateAnchors_ordering (sqrt : ℚ → ℚ) (options : SsdAnchorsCalculatorOptions)
    (anchors : List Anchor)
    (hgrid : ∀ s ∈ spec_layer_starts options.strides, (feature_map_size options s).isSome = true) :
    GenerateAnchors sqrt anchors options =
        some (0, anchors ++ (spec_layer_starts options.strides).flatMap (spec_layer_block sqrt options)) ∧
      ∀ s ∈ spec_layer_starts options.strides, ∀ grid_h grid_w : Int,
        feature_map_size options s = some (grid_h, grid_w) →
        (spec_layer_block sqrt options s).length =
            grid_h.toNat * grid_w.toNat * (spec_layer_aspect_ratios sqrt options s).length ∧
          ∀ y x a : Nat, (y : Int) < grid_h → (x : Int) < grid_w →
            a < (spec_layer_aspect_ratios sqrt options s).length →
            (spec_layer_block sqrt options s)[(y * grid_w.toNat + x) *
                (spec_layer_aspect_ratios sqrt options s).length + a]? =
              some
                { x_center := ((x : ℚ) + options.anchor_offset_x) / (grid_w : ℚ)
                  y_center := ((y : ℚ) + options.anchor_offset_y) / (grid_h : ℚ)
                  w := if options.fixed_anchor_size = true then 1
                    else (spec_layer_scales sqrt options s).getD a 0 *
                      sqrt ((spec_layer_aspect_ratios sqrt options s).getD a 0)
                  h := if options.fixed_anchor_size = true then 1
                    else (spec_layer_scales sqrt options s).getD a 0 /
                      sqrt ((spec_layer_aspect_ratios sqrt options s).getD a 0) } := by
  refine ⟨GenerateAnchors_eq sqrt options anchors hgrid, ?_⟩
  intro s _ grid_h grid_w hg
  obtain ⟨hhl, hhg⟩ := anchor_heights_spec sqrt (spec_layer_aspect_ratios sqrt options s)
    (spec_layer_scales sqrt options s)
  obtain ⟨_, hwg⟩ := anchor_widths_spec sqrt (spec_layer_aspect_ratios sqrt options s)
    (spec_layer_scales sqrt options s)
  obtain ⟨hl, hget⟩ := emit_anchors_spec options grid_h grid_w
    (anchor_heights sqrt (spec_layer_aspect_ratios sqrt options s) (spec_layer_scales sqrt options s))
    (anchor_widths sqrt (spec_layer_aspect_ratios sqrt options s) (spec_layer_scales sqrt options s))
  rw [hhl] at hl hget
  simp only [spec_layer_block, hg]
  refine ⟨hl, ?_⟩
  intro y x a hy hx ha
  rw [hget y x a (by omega) (by omega) ha, hhg a ha, hwg a ha]

/-- Witness of C5: the sample configuration without explicit arrays. -/
theorem GenerateAnchors_ordering_witness :
    GenerateAnchors id [] sample_options =
      some (0, [] ++ (spec_layer_starts sample_options.strides).flatMap
        (spec_layer_block id sample_options)) :=
  (GenerateAnchors_ordering id sample_options [] (by decide!)).1

/-- C7 (as stated, refuted): with strides 8, 8, 16 the merged layer at position 1
begins at stride position 2, and the code reads the arrays at 2: its grid is
`feature_map_height[2]` by `feature_map_width[2]`, that is 1 x 1, not the 3 x 3 of
position 1; nine anchors are pushed in all, eight for the first layer and one for
the second. -/
theorem feature_map_arrays_read_at_layer_id :
    (spec_layer_starts sample_options_explicit.strides)[1]? = some 2 ∧
      feature_map_size sample_options_explicit 2 = some (1, 1) ∧
      ¬ (feature_map_size sample_options_explicit 2 =
        some (sample_options_explicit.feature_map_height.getD 1 0,
          sample_options_explicit.feature_map_width.getD 1 0)) ∧
      (GenerateAnchors id [] sample_options_explicit).map (fun r => r.2.length) = some 9 := by
  refine ⟨by decide, by decide, by decide, ?_⟩
  rw [GenerateAnchors_eq id sample_options_explicit [] (by decide)]
  decide!

/-- C7 (amended): with explicit arrays, the arrays are read at the stride position at
which the merged layer begins (`layer_id`), which is not its rank among the merged
layers: where the arrays have an entry at every such position, `GenerateAnchors`
returns 0 and emits the merged layer that begins at stride position `s` on a grid
of `feature_map_height[s]` rows by `feature_map_width[s]` columns. -/
theorem GenerateAnchors_explicit_grid (sqrt : ℚ → ℚ) (options : SsdAnchorsCalculatorOptions)
    (anchors : List Anchor) (hne : options.feature_map_height ≠ [])
    (hlen : ∀ s ∈ spec_layer_starts options.strides,
      s < options.feature_map_height.length ∧ s < options.feature_map_width.length) :
    (∀ s ∈ spec_layer_starts options.strides, feature_map_size options s =
        some (options.feature_map_height.getD s 0, options.feature_map_width.getD s 0)) ∧
      GenerateAnchors sqrt anchors options =
        some (0, anchors ++ (spec_layer_starts options.strides).flatMap fun s =>
          emit_anchors options (options.feature_map_height.getD s 0)
            (options.feature_map_width.getD s 0)
            (anchor_heights sqrt (spec_layer_aspect_ratios sqrt options s)
              (spec_layer_scales sqrt options s))
            (anchor_widths sqrt (spec_layer_aspect_ratios sqrt options s)
              (spec_layer_scales sqrt options s))) := by
  have hsize : ∀ s ∈ spec_layer_starts options.strides, feature_map_size options s =
      some (options.feature_map_height.getD s 0, options.feature_map_width.getD s 0) :=
    fun s hs => feature_map_size_of_arrays options s hne (hlen s hs).1 (hlen s hs).2
  refine ⟨hsize, ?_⟩
  rw [GenerateAnchors_eq sqrt options anchors (fun s hs => by rw [hsize s hs]; rfl)]
  congr 3
  apply List.flatMap_congr
  intro s hs
  simp only [spec_layer_block, hsize s hs]

/-- Witness of C7 (amended): the sample configuration with explicit arrays. -/
theorem GenerateAnchors_explicit_grid_witness :
    feature_map_size sample_options_explicit 2 =
      some (sample_options_explicit.feature_map_height.getD 2 0,
        sample_options_explicit.feature_map_width.getD 2 0) :=
  (GenerateAnchors_explicit_grid id sample_options_explicit [] (by decide)
    (by decide)).1 2 (by decide)

/-! ## Theorems on `calc_intersection_over_union` -/

/-- C8: the overlap measure is symmetric in its two regions, whatever the order of
their corners and whether or not they are degenerate. -/
theorem calc_intersection_over_union_symm {aux : Type} (a b : detect_region_t aux) :
    calc_intersection_over_union a b = calc_intersection_over_union b a :=
  iou_comm a b

/-! ## The reduced first layer -/

/-- C11 (as stated, refuted): with strides 8, 8, 16 the first merged layer has two
sub-layers; with `reduce_boxes_in_lowest_layer` set the first contributes the 3
fixed pairs and the second the configured ratio and the interpolated one, so the
layer has 5 anchor types and its 2 x 2 grid receives 20 anchors, not 12. -/
theorem first_layer_has_five_anchor_types :
    (merge_loop id sample_options_reduced 0 0 [] []).2.1.length = 5 ∧
      ¬ ((merge_loop id sample_options_reduced 0 0 [] []).2.1.length = 3) ∧
      (layer_pass id sample_options_reduced 0).map (fun p => p.2.length) = some 20 := by
  have hg : feature_map_size sample_options_reduced 0 = some (2, 2) := by decide!
  rw [layer_pass_eq id sample_options_reduced 0 2 2 hg, merge_loop_from_start]
  decide!

/-- C11 (amended): with `reduce_boxes_in_lowest_layer` set and a non-empty stride
sequence, the first sub-layer (stride position 0) contributes exactly the 3 fixed
pairs, whatever the configured aspect ratios and interpolated ratio are.  The
first merged layer merges the `n` leading equal strides and has
`3 + (n - 1) * (number of configured ratios + 1 if the interpolated ratio is positive)`
anchor types; it has exactly 3, and 3 anchors per grid cell, when the second stride
is absent or differs from the first. -/
theorem first_layer_anchor_types (sqrt : ℚ → ℚ) (options : SsdAnchorsCalculatorOptions)
    (hred : options.reduce_boxes_in_lowest_layer = true) (hne : options.strides ≠ []) :
    sub_layer_pairs sqrt options 0 =
        ([1, 2, 1 / 2],
          [1 / 10,
            CalculateScale options.min_scale options.max_scale 0 options.strides.length,
            CalculateScale options.min_scale options.max_scale 0 options.strides.length]) ∧
      (merge_loop sqrt options 0 0 [] []).1 = spec_layer_end options.strides 0 ∧
      (merge_loop sqrt options 0 0 [] []).2.1.length =
        3 + (spec_layer_end options.strides 0 - 1) *
          (options.aspect_ratios.length +
            if options.interpolated_scale_aspect_ratio > 0 then 1 else 0) ∧
      (options.strides[1]? ≠ options.strides[0]? →
        (merge_loop sqrt options 0 0 [] []).2.1.length = 3 ∧
          ∀ grid_h grid_w : Int, feature_map_size options 0 = some (grid_h, grid_w) →
            (layer_pass sqrt options 0).map (fun p => p.2.length) =
              some (grid_h.toNat * grid_w.toNat * 3)) := by
  have hlen : 0 < options.strides.length := List.length_pos.mpr hne
  have htypes := first_layer_types_length sqrt options hred hlen
  refine ⟨?_, ?_, ?_, ?_⟩
  · simp [sub_layer_pairs, hred]
  · rw [merge_loop_from_start]
  · rw [merge_loop_from_start]
    exact htypes
  · intro hdiff
    have hone := first_run_single options.strides hlen hdiff
    have h3 : (spec_layer_aspect_ratios sqrt options 0).length = 3 := by
      rw [htypes, hone]
      simp
    refine ⟨by rw [merge_loop_from_start]; exact h3, ?_⟩
    intro grid_h grid_w hg
    rw [layer_pass_eq sqrt options 0 grid_h grid_w hg]
    have hblock := (emit_anchors_spec options grid_h grid_w
      (anchor_heights sqrt (spec_layer_aspect_ratios sqrt options 0)
        (spec_layer_scales sqrt options 0))
      (anchor_widths sqrt (spec_layer_aspect_ratios sqrt options 0)
        (spec_layer_scales sqrt options 0))).1
    rw [(anchor_heights_spec sqrt _ _).1, h3] at hblock
    simp only [Option.map_some', spec_layer_block, hg, hblock]

/-- Witness of C11 (amended): strides 8, 16, 16 with two configured ratios. -/
theorem first_layer_anchor_types_witness :
    (merge_loop id sample_options_reduced_single 0 0 [] []).2.1.length = 3 :=
  ((first_layer_anchor_types id sample_options_reduced_single rfl (by decide)).2.2.2
    (by decide)).1

/-! ## Further theorems on `non_max_suppression` -/

/-- C12 (as stated, refuted): three pairwise disjoint squares and cap 2.  With the
threshold 0 the overlap 0 already reaches the threshold, so only the first square
is accepted, not two; and with cap 0 (threshold 0.3) one square is accepted, not
none. -/
theorem nms_disjoint_does_not_fill_cap :
    [sample_region_a, sample_region_c, sample_region_d].Pairwise
        (fun a b => intersect_area a b = 0) ∧
      (non_max_suppression 2 [sample_region_a, sample_region_c, sample_region_d] []
        0).region_nms_list = [sample_region_a] ∧
      (non_max_suppression 0 [sample_region_a, sample_region_c, sample_region_d] []
        (3 / 10)).region_nms_list = [sample_region_a] := by
  decide!

/-- C12 (amended): for a threshold above 0 and a cap `MAX_POSE_NUM ≥ 1`, a list of more
than `MAX_POSE_NUM` candidates with pairwise zero intersection yields exactly
`MAX_POSE_NUM` regions, the first `MAX_POSE_NUM` of the candidates sorted by
descending score; every returned score is at least every score left out. -/
theorem nms_disjoint_fills_cap {aux : Type} (MAX_POSE_NUM : Nat)
    (region_list : List (detect_region_t aux)) (iou_thresh : ℚ)
    (hcap : 1 ≤ MAX_POSE_NUM) (hthresh : 0 < iou_thresh)
    (hmany : MAX_POSE_NUM < region_list.length)
    (hdisj : region_list.Pairwise (fun a b => intersect_area a b = 0)) :
    (non_max_suppression MAX_POSE_NUM region_list [] iou_thresh).region_nms_list =
        (list_sort region_list).take MAX_POSE_NUM ∧
      (non_max_suppression MAX_POSE_NUM region_list [] iou_thresh).region_nms_list.length =
        MAX_POSE_NUM ∧
      ((non_max_suppression MAX_POSE_NUM region_list [] iou_thresh).region_nms_list ++
        (list_sort region_list).drop MAX_POSE_NUM).Perm region_list ∧
      ∀ r ∈ (non_max_suppression MAX_POSE_NUM region_list [] iou_thresh).region_nms_list,
        ∀ q ∈ (list_sort region_list).drop MAX_POSE_NUM, r.score ≥ q.score := by
  have hperm : (list_sort region_list).Perm region_list := List.mergeSort_perm _ _
  have hsym : ∀ {x y : detect_region_t aux},
      (calc_intersection_over_union x y = 0 ∧ calc_intersection_over_union y x = 0) →
      (calc_intersection_over_union y x = 0 ∧ calc_intersection_over_union x y = 0) :=
    fun h => ⟨h.2, h.1⟩
  have hpw0 : (list_sort region_list).Pairwise
      (fun a b => calc_intersection_over_union a b = 0 ∧
        calc_intersection_over_union b a = 0) :=
    (List.Perm.pairwise_iff hsym hperm.symm).mp
      (hdisj.imp (fun h => calc_iou_of_intersect_zero _ _ h))
  have hpw : (list_sort region_list).Pairwise
      (fun a b => calc_intersection_over_union b a < iou_thresh) :=
    hpw0.imp (fun h => by rw [h.2]; exact hthresh)
  have hres : (non_max_suppression MAX_POSE_NUM region_list [] iou_thresh).region_nms_list =
      (list_sort region_list).take MAX_POSE_NUM := by
    show nms_loop MAX_POSE_NUM iou_thresh (list_sort region_list) [] = _
    rw [nms_loop_disjoint MAX_POSE_NUM iou_thresh (list_sort region_list) []
      (fun _ _ r hr => absurd hr (List.not_mem_nil r)) hpw hcap]
    simp
  have hlen : (list_sort region_list).length = region_list.length := hperm.length_eq
  refine ⟨hres, ?_, ?_, ?_⟩
  · rw [hres, List.length_take, hlen]
    omega
  · rw [hres, List.take_append_drop]
    exact hperm
  · intro r hr q hq
    rw [hres] at hr
    have hsorted := list_sort_pairwise region_list
    rw [← List.take_append_drop MAX_POSE_NUM (list_sort region_list),
      List.pairwise_append] at hsorted
    exact hsorted.2.2 r hr q hq

/-- Witness of C12 (amended): the three disjoint squares, cap 2, threshold 0.3. -/
theorem nms_disjoint_fills_cap_witness :
    (non_max_suppression 2 [sample_region_a, sample_region_c, sample_region_d] []
      (3 / 10)).region_nms_list.length = 2 :=
  (nms_disjoint_fills_cap 2 [sample_region_a, sample_region_c, sample_region_d] (3 / 10)
    (by decide) (by decide!) (by decide) (by decide!)).2.1

/-- C14 (as stated, refuted): two disjoint squares, cap 2, threshold 0: the overlap 0
reaches the threshold and the second square is discarded. -/
theorem nms_disjoint_pair_not_kept :
    intersect_area sample_region_a sample_region_c = 0 ∧
      (non_max_suppression 2 [sample_region_a, sample_region_c] [] 0).region_nms_list =
        [sample_region_a] := by
  decide!

/-- C14 (amended): for a threshold above 0 and a cap `MAX_POSE_NUM ≥ 2`, two candidates
with zero intersection are both returned, whatever their scores, in sorted order. -/
theorem nms_disjoint_pair_kept {aux : Type} (MAX_POSE_NUM : Nat)
    (r1 r2 : detect_region_t aux) (iou_thresh : ℚ)
    (hcap : 2 ≤ MAX_POSE_NUM) (hthresh : 0 < iou_thresh)
    (hdisj : intersect_area r1 r2 = 0) :
    (non_max_suppression MAX_POSE_NUM [r1, r2] [] iou_thresh).region_nms_list =
        list_sort [r1, r2] ∧
      ((non_max_suppression MAX_POSE_NUM [r1, r2] [] iou_thresh).region_nms_list).Perm
        [r1, r2] := by
  have hperm : (list_sort [r1, r2]).Perm [r1, r2] := List.mergeSort_perm _ _
  obtain ⟨h12, h21⟩ := calc_iou_of_intersect_zero r1 r2 hdisj
  have hres : (non_max_suppression MAX_POSE_NUM [r1, r2] [] iou_thresh).region_nms_list =
      list_sort [r1, r2] := by
    show nms_loop MAX_POSE_NUM iou_thresh (list_sort [r1, r2]) [] = _
    rw [nms_loop_disjoint MAX_POSE_NUM iou_thresh (list_sort [r1, r2]) []
      (fun _ _ r hr => absurd hr (List.not_mem_nil r)) ?_
      (by simp only [List.length_nil]; omega)]
    · rw [List.nil_append, List.length_nil, Nat.sub_zero,
        List.take_of_length_le (by rw [hperm.length_eq]; exact hcap)]
    · rw [list_sort_pair]
      split_ifs
      · simp [h12, hthresh]
      · simp [h21, hthresh]
  exact ⟨hres, hres ▸ hperm⟩

/-- Witness of C14 (amended): two disjoint sample squares at threshold 0.3. -/
theorem nms_disjoint_pair_kept_witness :
    ((non_max_suppression 2 [sample_region_c, sample_region_a] []
      (3 / 10)).region_nms_list).Perm [sample_region_c, sample_region_a] :=
  (nms_disjoint_pair_kept 2 sample_region_c sample_region_a (3 / 10)
    (by decide) (by decide!) (by decide!)).2

/-- C18: `GenerateAnchors` is total on well-formed configurations.  From every
`layer_id` inside the stride sequence the merge loop stops at a position `last`
with `layer_id < last`, not past the end, every stride from `layer_id` up to
`last` equal to the one at `layer_id`, and the stride at `last`, if any, different:
it consumes the maximal run of consecutive equal strides and nothing beyond.  For
positive strides, and explicit arrays that are absent or have an entry at every
position read, the call returns 0 and reads nothing out of range. -/
theorem GenerateAnchors_total (sqrt : ℚ → ℚ) (options : SsdAnchorsCalculatorOptions)
    (anchors : List Anchor)
    (hpos : ∀ v ∈ options.strides, 0 < v)
    (harr : options.feature_map_height = [] ∨
      ∀ s ∈ spec_layer_starts options.strides,
        s < options.feature_map_height.length ∧ s < options.feature_map_width.length) :
    (∀ layer_id : Nat, layer_id < options.strides.length →
        layer_id < (merge_loop sqrt options layer_id layer_id [] []).1 ∧
        (merge_loop sqrt options layer_id layer_id [] []).1 ≤ options.strides.length ∧
        (∀ i : Nat, layer_id ≤ i → i < (merge_loop sqrt options layer_id layer_id [] []).1 →
          options.strides.getD i 0 = options.strides.getD layer_id 0) ∧
        ((merge_loop sqrt options layer_id layer_id [] []).1 < options.strides.length →
          options.strides.getD (merge_loop sqrt options layer_id layer_id [] []).1 0 ≠
            options.strides.getD layer_id 0)) ∧
      ∃ pushed : List Anchor, GenerateAnchors sqrt anchors options = some (0, anchors ++ pushed) := by
  constructor
  · intro layer_id hlt
    rw [merge_loop_from_start]
    exact spec_layer_end_spec options.strides layer_id hlt
  · have hgrid : ∀ s ∈ spec_layer_starts options.strides,
        (feature_map_size options s).isSome = true := by
      intro s hs
      have hlt := mem_spec_layer_starts _ s hs
      by_cases hnil : options.feature_map_height = []
      · have hstride : 0 < options.strides.getD s 0 := by
          rw [List.getD_eq_getElem _ 0 hlt]
          exact hpos _ (List.getElem_mem hlt)
        rw [feature_map_size_of_no_arrays options s (ne_of_gt hstride) hnil]
        rfl
      · rcases harr with h | h
        · exact absurd h hnil
        · rw [feature_map_size_of_arrays options s hnil (h s hs).1 (h s hs).2]
          rfl
    exact ⟨_, GenerateAnchors_eq sqrt options anchors hgrid⟩

/-- Witness of C18: the sample configuration without explicit arrays. -/
theorem GenerateAnchors_total_witness :
    ∃ pushed : List Anchor, GenerateAnchors id [] sample_options = some (0, [] ++ pushed) :=
  (GenerateAnchors_total id sample_options [] (by decide) (Or.inl rfl)).2

/-! ## The cap and the best candidate -/

/-- C20: the best candidate survives.  For a non-empty candidate list, every threshold
and every cap, the result is non-empty and its first region is a candidate whose
score is the maximum over all candidates. -/
theorem nms_best_candidate_survives {aux : Type} (MAX_POSE_NUM : Nat)
    (region_list : List (detect_region_t aux)) (iou_thresh : ℚ)
    (hne : region_list ≠ []) :
    ∃ (best : detect_region_t aux) (others : List (detect_region_t aux)),
      (non_max_suppression MAX_POSE_NUM region_list [] iou_thresh).region_nms_list =
          best :: others ∧
        best ∈ region_list ∧ ∀ c ∈ region_list, best.score ≥ c.score := by
  have hperm : (list_sort region_list).Perm region_list := List.mergeSort_perm _ _
  have hsorted := list_sort_pairwise region_list
  cases hsort : list_sort region_list with
  | nil =>
      rw [hsort] at hperm
      exact absurd (List.Perm.nil_eq hperm).symm hne
  | cons best tail =>
      rw [hsort] at hperm hsorted
      obtain ⟨others, ho⟩ := nms_loop_head MAX_POSE_NUM iou_thresh best tail
      refine ⟨best, others, ?_, hperm.subset (List.mem_cons_self _ _), ?_⟩
      · show nms_loop MAX_POSE_NUM iou_thresh (list_sort region_list) [] = _
        rw [hsort, ho]
      · intro c hc
        rcases List.mem_cons.mp (hperm.symm.subset hc) with h | h
        · rw [h]
        · exact (List.pairwise_cons.mp hsorted).1 c h

/-- Witness of C20: the two sample squares handed over in ascending score order. -/
theorem nms_best_candidate_survives_witness :
    ∃ (best : detect_region_t Unit) (others : List (detect_region_t Unit)),
      (non_max_suppression 2 [sample_region_b, sample_region_a] []
          (3 / 10)).region_nms_list = best :: others ∧
        best ∈ [sample_region_b, sample_region_a] ∧
        ∀ c ∈ [sample_region_b, sample_region_a], best.score ≥ c.score :=
  nms_best_candidate_survives 2 [sample_region_b, sample_region_a] (3 / 10) (by decide)

/-! ## Theorems on `non_max_suppression` in machine arithmetic -/

/-- C1: `MAX_POSE_NUM` is a positive compile-time constant.  For every candidate list
and every threshold, a call that starts from an empty accepted list leaves at most
`MAX_POSE_NUM` accepted regions, in exact arithmetic and in `float` arithmetic
alike: the bound comes from the test after `push_back` and does not depend on the
value of the overlap measure. -/
theorem nms_length_le_cap {aux : Type} (MAX_POSE_NUM : Nat) (hcap : 1 ≤ MAX_POSE_NUM)
    (region_list : List (detect_region_t aux)) (iou_thresh : ℚ) :
    (non_max_suppression MAX_POSE_NUM region_list [] iou_thresh).region_nms_list.length
        ≤ MAX_POSE_NUM ∧
      (non_max_suppression_f32 MAX_POSE_NUM region_list [] iou_thresh).region_nms_list.length
        ≤ MAX_POSE_NUM :=
  ⟨nms_loop_length_le MAX_POSE_NUM iou_thresh (list_sort region_list) [] hcap,
    nms_loop_f32_length_le MAX_POSE_NUM iou_thresh (list_sort region_list) [] hcap⟩

/-- Witness of C1: cap 1 and two overlapping sample squares. -/
theorem nms_length_le_cap_witness :
    1 ≤ 1 ∧
      (non_max_suppression 1 [sample_box_high, sample_box_shifted] []
        (1 / 4)).region_nms_list.length ≤ 1 ∧
      (non_max_suppression_f32 1 [sample_box_high, sample_box_shifted] []
        (1 / 4)).region_nms_list.length ≤ 1 :=
  ⟨Nat.le_refl 1, nms_length_le_cap 1 (Nat.le_refl 1) _ _⟩

/-- C2 (as stated, refuted): two squares of side 2^70 on the same box.  Each area
overflows to infinity, the overlap measure is infinity divided by a NaN, hence NaN;
the test `iou >= iou_thresh` is false, both regions are accepted at threshold 0.5,
and their overlap measure is not strictly below the threshold. -/
theorem nms_f32_nan_pair_kept :
    normalized_area_f32 sample_region_huge = fval.pinf ∧
      calc_intersection_over_union_f32 sample_region_huge_low sample_region_huge = fval.nan ∧
      (non_max_suppression_f32 2 [sample_region_huge, sample_region_huge_low] []
        (1 / 2)).region_nms_list = [sample_region_huge, sample_region_huge_low] ∧
      flt (calc_intersection_over_union_f32 sample_region_huge sample_region_huge_low)
        (fval.fin (1 / 2)) = false := by
  decide!

/-- C2 (amended): whatever the candidates, the threshold and the cap, for two accepted
regions at distinct positions of the result the comparison `iou >= iou_thresh` is
false: their overlap measure is either NaN or a number strictly below
`iou_thresh`; it is a number strictly below `iou_thresh` whenever the `float` areas of
the two regions are finite. -/
theorem nms_f32_result_pairwise_not_ge {aux : Type} (MAX_POSE_NUM : Nat)
    (region_list : List (detect_region_t aux)) (iou_thresh : ℚ) (i j : Nat)
    (hi : i <
      (non_max_suppression_f32 MAX_POSE_NUM region_list [] iou_thresh).region_nms_list.length)
    (hj : j <
      (non_max_suppression_f32 MAX_POSE_NUM region_list [] iou_thresh).region_nms_list.length)
    (hij : i ≠ j) :
    fge (calc_intersection_over_union_f32
        ((non_max_suppression_f32 MAX_POSE_NUM region_list [] iou_thresh).region_nms_list[i])
        ((non_max_suppression_f32 MAX_POSE_NUM region_list [] iou_thresh).region_nms_list[j]))
      (fval.fin iou_thresh) = false ∧
    (calc_intersection_over_union_f32
        ((non_max_suppression_f32 MAX_POSE_NUM region_list [] iou_thresh).region_nms_list[i])
        ((non_max_suppression_f32 MAX_POSE_NUM region_list [] iou_thresh).region_nms_list[j])
        = fval.nan ∨
      ∃ q : ℚ, calc_intersection_over_union_f32
        ((non_max_suppression_f32 MAX_POSE_NUM region_list [] iou_thresh).region_nms_list[i])
        ((non_max_suppression_f32 MAX_POSE_NUM region_list [] iou_thresh).region_nms_list[j])
        = fval.fin q ∧ q < iou_thresh) ∧
    (∀ v0 v1 : ℚ,
      normalized_area_f32
        ((non_max_suppression_f32 MAX_POSE_NUM region_list [] iou_thresh).region_nms_list[i])
        = fval.fin v0 →
      normalized_area_f32
        ((non_max_suppression_f32 MAX_POSE_NUM region_list [] iou_thresh).region_nms_list[j])
        = fval.fin v1 →
      ∃ q : ℚ, calc_intersection_over_union_f32
        ((non_max_suppression_f32 MAX_POSE_NUM region_list [] iou_thresh).region_nms_list[i])
        ((non_max_suppression_f32 MAX_POSE_NUM region_list [] iou_thresh).region_nms_list[j])
        = fval.fin q ∧ q < iou_thresh) := by
  have hp := nms_loop_f32_pairwise MAX_POSE_NUM iou_thresh (list_sort region_list) []
    List.Pairwise.nil
  rw [List.pairwise_iff_getElem] at hp
  have hge : fge (calc_intersection_over_union_f32
        ((non_max_suppression_f32 MAX_POSE_NUM region_list [] iou_thresh).region_nms_list[i])
        ((non_max_suppression_f32 MAX_POSE_NUM region_list [] iou_thresh).region_nms_list[j]))
      (fval.fin iou_thresh) = false := by
    rcases Nat.lt_or_gt_of_ne hij with hlt | hgt
    · rw [iou_f32_comm]
      exact hp i j hi hj hlt
    · exact hp j i hj hi hgt
  have hlt : ∀ q : ℚ, calc_intersection_over_union_f32
        ((non_max_suppression_f32 MAX_POSE_NUM region_list [] iou_thresh).region_nms_list[i])
        ((non_max_suppression_f32 MAX_POSE_NUM region_list [] iou_thresh).region_nms_list[j])
        = fval.fin q → q < iou_thresh := by
    intro q hq
    rw [hq] at hge
    simpa [fge, fle] using hge
  refine ⟨hge, ?_, ?_⟩
  · rcases iou_f32_range
        ((non_max_suppression_f32 MAX_POSE_NUM region_list [] iou_thresh).region_nms_list[i])
        ((non_max_suppression_f32 MAX_POSE_NUM region_list [] iou_thresh).region_nms_list[j])
      with hnan | ⟨q, hq, _, _⟩
    · exact Or.inl hnan
    · exact Or.inr ⟨q, hq, hlt q hq⟩
  · intro v0 v1 h0 h1
    obtain ⟨q, hq, _, _⟩ := iou_f32_fin_of_fin_areas _ _ v0 v1 h0 h1
    exact ⟨q, hq, hlt q hq⟩

/-- Witness of C2 (amended): at threshold 0.25 both sample squares are accepted, and
the comparison of their overlap measure with the threshold is false. -/
theorem nms_f32_result_pairwise_not_ge_witness :
    fge (calc_intersection_over_union_f32
        ((non_max_suppression_f32 2 [sample_box_high, sample_box_shifted] []
          (1 / 4)).region_nms_list.get ⟨0, by decide!⟩)
        ((non_max_suppression_f32 2 [sample_box_high, sample_box_shifted] []
          (1 / 4)).region_nms_list.get ⟨1, by decide!⟩))
      (fval.fin (1 / 4)) = false :=
  (nms_f32_result_pairwise_not_ge 2 [sample_box_high, sample_box_shifted] (1 / 4) 0 1
    (by decide!) (by decide!) (by decide)).1

/-- C13 (as stated, refuted): two regions on the same box with different scores are
both kept when the box is a segment (area 0, overlap measure 0), when the threshold
is above 1, when the box has side 2^70 (the areas overflow, the overlap measure is
NaN) and when it has side 2^-80 (the areas underflow to 0, the overlap measure is 0). -/
theorem nms_f32_same_box_both_kept :
    (non_max_suppression_f32 2 [sample_segment_high, sample_segment_low] []
        (1 / 4)).region_nms_list = [sample_segment_high, sample_segment_low] ∧
      (non_max_suppression_f32 2 [sample_box_high, sample_box_low] [] 2).region_nms_list =
        [sample_box_high, sample_box_low] ∧
      (non_max_suppression_f32 2 [sample_region_huge, sample_region_huge_low] []
        (1 / 2)).region_nms_list = [sample_region_huge, sample_region_huge_low] ∧
      (non_max_suppression_f32 2 [sample_region_tiny, sample_region_tiny_low] []
        (1 / 2)).region_nms_list = [sample_region_tiny, sample_region_tiny_low] := by
  decide!

/-- C13 (amended): two candidates whose normalised boxes are identical, whose `float`
area is a positive number below 2^127 (it neither overflows, nor underflows to zero,
nor overflows when doubled), and whose scores differ, yield exactly one region, the
higher-scoring one, whenever the threshold is at most 1 (in either input order, for
every cap). -/
theorem nms_f32_same_box_keeps_higher {aux : Type} (MAX_POSE_NUM : Nat)
    (high low : detect_region_t aux) (iou_thresh : ℚ) (area : ℚ)
    (hxmin : min high.topleft.x high.btmright.x = min low.topleft.x low.btmright.x)
    (hymin : min high.topleft.y high.btmright.y = min low.topleft.y low.btmright.y)
    (hxmax : max high.topleft.x high.btmright.x = max low.topleft.x low.btmright.x)
    (hymax : max high.topleft.y high.btmright.y = max low.topleft.y low.btmright.y)
    (harea : normalized_area_f32 high = fval.fin area) (hpos : 0 < area)
    (hbound : area < (2 : ℚ) ^ (127 : Int)) (hthresh : iou_thresh ≤ 1)
    (hscore : high.score > low.score) :
    (non_max_suppression_f32 MAX_POSE_NUM [high, low] [] iou_thresh).region_nms_list = [high] ∧
      (non_max_suppression_f32 MAX_POSE_NUM [low, high] [] iou_thresh).region_nms_list =
        [high] := by
  have hdouble : 2 * area < (2 : ℚ) ^ (128 : Int) := by
    have h : (2 : ℚ) ^ (128 : Int) = 2 * (2 : ℚ) ^ (127 : Int) := by norm_num
    rw [h]
    linarith
  have hiou := (iou_f32_same_box high low area hxmin hymin hxmax hymax harea hpos hdouble).2
  have hc1 : compare high low = true := by simp [compare, hscore]
  have hc2 : ¬ compare low high = true := by simp [compare, le_of_lt hscore]
  have hs1 : list_sort [high, low] = [high, low] := by rw [list_sort_pair, if_neg hc2]
  have hs2 : list_sort [low, high] = [high, low] := by rw [list_sort_pair, if_pos hc1]
  have hig0 : ¬ ignore_candidate_f32 high [] iou_thresh = true := by
    simp [ignore_candidate_f32, ignore_scan_f32]
  have hig1 : ignore_candidate_f32 low [high] iou_thresh = true := by
    rw [ignore_candidate_f32_eq_true_iff]
    refine ⟨high, List.mem_singleton.mpr rfl, ?_⟩
    rw [hiou]
    simpa [fge, fle] using hthresh
  have hloop : nms_loop_f32 MAX_POSE_NUM iou_thresh [high, low] [] = [high] := by
    by_cases hfull : [high].length ≥ MAX_POSE_NUM
    · simp only [nms_loop_f32, if_neg hig0, List.nil_append, if_pos hfull]
    · simp only [nms_loop_f32, if_neg hig0, List.nil_append, if_neg hfull, if_pos hig1]
  exact ⟨by show nms_loop_f32 _ _ (list_sort _) [] = _; rw [hs1, hloop],
    by show nms_loop_f32 _ _ (list_sort _) [] = _; rw [hs2, hloop]⟩

/-- Witness of C13 (amended): the sample square of `float` area 100 with scores 0.75
and 0.5, threshold 0.25. -/
theorem nms_f32_same_box_keeps_higher_witness :
    (non_max_suppression_f32 2 [sample_box_high, sample_box_low] []
        (1 / 4)).region_nms_list = [sample_box_high] ∧
      (non_max_suppression_f32 2 [sample_box_low, sample_box_high] []
        (1 / 4)).region_nms_list = [sample_box_high] :=
  nms_f32_same_box_keeps_higher 2 sample_box_high sample_box_low (1 / 4) 100
    (by decide!) (by decide!) (by decide!) (by decide!) (by decide!) (by decide!)
    (by norm_num) (by decide!) (by decide!)

/-! ## Theorems on `calc_intersection_over_union` in machine arithmetic -/

/-- C9 (as stated, refuted): the segment from (0, -2^127) to (0, 2^127) has the exact
area 0, but its height overflows to infinity and its `float` area is infinity times
zero, a NaN; the test `area0 <= 0` is false and the overlap measure with the sample
square is NaN in either order, not 0. -/
theorem iou_f32_nan_at_zero_area :
    normalized_area sample_region_tall_flat = 0 ∧
      normalized_area_f32 sample_region_tall_flat = fval.nan ∧
      calc_intersection_over_union_f32 sample_region_tall_flat sample_box_high = fval.nan ∧
      calc_intersection_over_union_f32 sample_box_high sample_region_tall_flat = fval.nan ∧
      calc_intersection_over_union_f32 sample_region_tall_flat sample_region_tall_flat =
        fval.nan := by
  decide!

/-- C9 (amended): for a region `r` whose `float` area is zero, in particular for a
region whose exact area is zero and whose `float` area is not a NaN (neither extent
overflows), and for every region `s`, the overlap measure of `r` and `s` is 0 in
either order, also for `s = r`. -/
theorem iou_f32_zero_area {aux : Type} (r s : detect_region_t aux)
    (hzero : normalized_area_f32 r = fval.fin 0 ∨
      (normalized_area r = 0 ∧ normalized_area_f32 r ≠ fval.nan)) :
    normalized_area_f32 r = fval.fin 0 ∧
      calc_intersection_over_union_f32 r s = fval.fin 0 ∧
      calc_intersection_over_union_f32 s r = fval.fin 0 ∧
      calc_intersection_over_union_f32 r r = fval.fin 0 := by
  have h0 : normalized_area_f32 r = fval.fin 0 := by
    rcases hzero with h | ⟨h1, h2⟩
    · exact h
    · exact area_f32_of_exact_zero r h1 h2
  exact ⟨h0, (iou_f32_of_area_zero r s h0).1, (iou_f32_of_area_zero r s h0).2,
    (iou_f32_of_area_zero r r h0).1⟩

/-- Witness of C9 (amended): the sample segment, of exact area 0, against the sample
square. -/
theorem iou_f32_zero_area_witness :
    (normalized_area sample_segment_high = 0 ∧
        normalized_area_f32 sample_segment_high ≠ fval.nan) ∧
      calc_intersection_over_union_f32 sample_segment_high sample_box_high = fval.fin 0 ∧
      calc_intersection_over_union_f32 sample_box_high sample_segment_high = fval.fin 0 ∧
      calc_intersection_over_union_f32 sample_segment_high sample_segment_high = fval.fin 0 :=
  ⟨by decide!,
    (iou_f32_zero_area sample_segment_high sample_box_high (Or.inr (by decide!))).2⟩

/-- C17 (as stated, refuted): for two squares of side 2^70 on the same box both areas
and the intersection area overflow to infinity, the denominator is infinity minus
infinity, and the returned value is NaN, which is not in [0,1]. -/
theorem iou_f32_not_in_unit_interval :
    intersect_area_f32 sample_region_huge sample_region_huge_low = fval.pinf ∧
      fsub binary32
        (fadd binary32 (normalized_area_f32 sample_region_huge)
          (normalized_area_f32 sample_region_huge_low))
        (intersect_area_f32 sample_region_huge sample_region_huge_low) = fval.nan ∧
      calc_intersection_over_union_f32 sample_region_huge sample_region_huge_low = fval.nan ∧
      ¬ ∃ r : ℚ, calc_intersection_over_union_f32 sample_region_huge sample_region_huge_low =
        fval.fin r ∧ 0 ≤ r ∧ r ≤ 1 := by
  have h : calc_intersection_over_union_f32 sample_region_huge sample_region_huge_low =
      fval.nan := by decide!
  refine ⟨by decide!, by decide!, h, ?_⟩
  rintro ⟨r, hr, _⟩
  rw [h] at hr
  exact absurd hr (by simp)

/-- C17 (amended): for every pair of regions (corners in any order) the returned value
is either NaN or a number in [0,1]; it is a number in [0,1] whenever both `float`
areas are finite.  In the non-degenerate branch with finite areas the intersection
area is a number, at least 0 and at most each region's area, and the denominator
`area0 + area1 - intersect_area` is either infinity (the sum overflowed) or a
positive number at least the intersection area. -/
theorem iou_f32_unit_interval {aux : Type} (region0 region1 : detect_region_t aux) :
    (calc_intersection_over_union_f32 region0 region1 = fval.nan ∨
      ∃ r : ℚ, calc_intersection_over_union_f32 region0 region1 = fval.fin r ∧
        0 ≤ r ∧ r ≤ 1) ∧
    (∀ area0 area1 : ℚ, normalized_area_f32 region0 = fval.fin area0 →
      normalized_area_f32 region1 = fval.fin area1 →
      ∃ r : ℚ, calc_intersection_over_union_f32 region0 region1 = fval.fin r ∧
        0 ≤ r ∧ r ≤ 1) ∧
    (∀ area0 area1 : ℚ, normalized_area_f32 region0 = fval.fin area0 →
      normalized_area_f32 region1 = fval.fin area1 → 0 < area0 → 0 < area1 →
      ∃ i : ℚ, intersect_area_f32 region0 region1 = fval.fin i ∧
        0 ≤ i ∧ i ≤ area0 ∧ i ≤ area1 ∧
        (fsub binary32 (fadd binary32 (fval.fin area0) (fval.fin area1)) (fval.fin i) =
            fval.pinf ∨
          ∃ d : ℚ,
            fsub binary32 (fadd binary32 (fval.fin area0) (fval.fin area1)) (fval.fin i) =
              fval.fin d ∧ 0 < d ∧ i ≤ d)) := by
  refine ⟨iou_f32_range region0 region1, iou_f32_fin_of_fin_areas region0 region1, ?_⟩
  intro area0 area1 h0 h1 hp0 hp1
  obtain ⟨i, hi, hi0, hi1, hi2, hcase⟩ :=
    iou_f32_finite_areas region0 region1 area0 area1 h0 h1 hp0 hp1
  refine ⟨i, hi, hi0, hi1, hi2, ?_⟩
  rcases hcase with ⟨hinf, _⟩ | ⟨d, r, hd, hd0, hdi, _⟩
  · exact Or.inl hinf
  · exact Or.inr ⟨d, hd, hd0, hdi⟩

/-- Witness of C17 (amended): the two overlapping sample squares have `float` areas 100
and their overlap measure is a number in [0,1]. -/
theorem iou_f32_unit_interval_witness :
    ∃ r : ℚ, calc_intersection_over_union_f32 sample_box_high sample_box_shifted =
      fval.fin r ∧ 0 ≤ r ∧ r ≤ 1 :=
  (iou_f32_unit_interval sample_box_high sample_box_shifted).2.1 100 100
    (by decide!) (by decide!)

/-! ## Theorems on `CalculateScale` in machine arithmetic -/

/-- C10 (as stated, refuted): with the `float` values of 0.01 and 0.05 and two strides,
the value at the last index is 13421772 / 2^28 (0.049999997), one unit in the last
place below `max_scale`, because the `float` difference `max_scale - min_scale` is
rounded.  With one stride, scales 1 and 1 + 2^-23 give 1, not their mean: the sum
is rounded.  With scales -2^127 and 2^127 the difference overflows and the value
at index 0 is infinity times zero, a NaN. -/
theorem CalculateScale_f32_misses_boundary :
    round_fin binary32 (1 / 100) = 10737418 / 2 ^ 30 ∧
      round_fin binary32 (1 / 20) = 13421773 / 2 ^ 28 ∧
      CalculateScale_f32 (10737418 / 2 ^ 30) (13421773 / 2 ^ 28) 1 2 =
        fval.fin (13421772 / 2 ^ 28) ∧
      CalculateScale_f32 (10737418 / 2 ^ 30) (13421773 / 2 ^ 28) (2 - 1) 2 ≠
        fval.fin (13421773 / 2 ^ 28) ∧
      CalculateScale_f32 1 (1 + 1 / 2 ^ 23) 0 1 = fval.fin 1 ∧
      CalculateScale_f32 1 (1 + 1 / 2 ^ 23) 0 1 ≠ fval.fin ((1 + (1 + 1 / 2 ^ 23)) / 2) ∧
      CalculateScale_f32 (-(2 ^ 127)) (2 ^ 127) 0 2 = fval.nan := by
  decide!

/-- C10 (amended): in `float` arithmetic the boundary values are met when the
intermediate results are representable.  With one stride the result is
`(min_scale + max_scale) / 2` when the sum and its half are finite `float` values.
With `2 ≤ num_strides ≤ 2^24`: at index 0 the result is `min_scale` when the `float`
difference `max_scale - min_scale` does not overflow; at index `num_strides - 1` it
is `max_scale` when the difference is a finite `float` value; at an index `i` in
between it is the linear interpolation
`min_scale + (max_scale - min_scale) * i / (num_strides - 1)` when the difference
is a finite `float` value, the quotient a finite `double` value and the sum a finite
`float` value. -/
theorem CalculateScale_f32_boundary (min_scale max_scale : ℚ) (stride_index num_strides : Int)
    (hmin : fround binary32 min_scale = fval.fin min_scale)
    (hmax : fround binary32 max_scale = fval.fin max_scale)
    (h2 : 2 ≤ num_strides) (hn : num_strides ≤ 2 ^ 24) :
    (fround binary32 (min_scale + max_scale) = fval.fin (min_scale + max_scale) →
      fround binary32 ((min_scale + max_scale) / 2) = fval.fin ((min_scale + max_scale) / 2) →
      CalculateScale_f32 min_scale max_scale stride_index 1 =
        fval.fin ((min_scale + max_scale) / 2)) ∧
    ((∃ d : ℚ, fsub binary32 (fval.fin max_scale) (fval.fin min_scale) = fval.fin d) →
      CalculateScale_f32 min_scale max_scale 0 num_strides = fval.fin min_scale) ∧
    (fround binary32 (max_scale - min_scale) = fval.fin (max_scale - min_scale) →
      CalculateScale_f32 min_scale max_scale (num_strides - 1) num_strides =
        fval.fin max_scale) ∧
    (0 ≤ stride_index → stride_index ≤ num_strides - 1 →
      fround binary32 (max_scale - min_scale) = fval.fin (max_scale - min_scale) →
      fround binary64
          ((max_scale - min_scale) * (stride_index : ℚ) / ((num_strides - 1 : Int) : ℚ)) =
        fval.fin
          ((max_scale - min_scale) * (stride_index : ℚ) / ((num_strides - 1 : Int) : ℚ)) →
      fround binary32
          (min_scale +
            (max_scale - min_scale) * (stride_index : ℚ) / ((num_strides - 1 : Int) : ℚ)) =
        fval.fin
          (min_scale +
            (max_scale - min_scale) * (stride_index : ℚ) / ((num_strides - 1 : Int) : ℚ)) →
      CalculateScale_f32 min_scale max_scale stride_index num_strides =
        fval.fin
          (min_scale +
            (max_scale - min_scale) * (stride_index : ℚ) /
              ((num_strides - 1 : Int) : ℚ))) := by
  have hne : num_strides ≠ 1 := by omega
  have hden0 : (((num_strides - 1 : Int) : ℚ)) ≠ 0 := by
    have : (num_strides - 1 : Int) ≠ 0 := by omega
    exact_mod_cast this
  refine ⟨?_, ?_, ?_, ?_⟩
  · intro hsum hhalf
    have hmul : (min_scale + max_scale) * (1 / 2) = (min_scale + max_scale) / 2 := by ring
    simp only [CalculateScale_f32, if_true, fadd, hsum, fmul, hmul, hhalf]
  · rintro ⟨d, hd⟩
    rw [fsub_fin] at hd
    obtain ⟨hfl, hb, _⟩ := fround_fin_is_float binary32 binary32_prec_pos _ d hd
    have hd32 : fround binary32 d = fval.fin d := fround_exact binary32 d hfl hb
    have hz : fround binary64 0 = fval.fin 0 := fround_zero binary64
    have hidx : int_to_double 0 = fval.fin 0 := by
      rw [int_to_double, Int.cast_zero, hz]
    rw [CalculateScale_f32, if_neg hne, fsub_fin, hd, CalculateScale_f32_denominator _ h2 hn,
      hidx]
    simp only [fmul, mul_one, fround64_of_fround32 d hd32, mul_zero, hz, fdiv, if_neg hden0,
      zero_div, fadd, add_zero, fround64_of_fround32 _ hmin, double_to_float, hmin]
  · intro hdiff
    have hq : (max_scale - min_scale) * ((num_strides - 1 : Int) : ℚ) /
        ((num_strides - 1 : Int) : ℚ) = max_scale - min_scale := by
      rw [mul_div_assoc, div_self hden0, mul_one]
    have hs : min_scale + (max_scale - min_scale) * ((num_strides - 1 : Int) : ℚ) /
        ((num_strides - 1 : Int) : ℚ) = max_scale := by
      rw [hq]
      ring
    have := CalculateScale_f32_exact min_scale max_scale (num_strides - 1) num_strides h2 hn
      (by omega) (le_refl _) hdiff (by rw [hq]; exact fround64_of_fround32 _ hdiff)
      (by rw [hs]; exact hmax)
    rw [this, hs]
  · intro hi0 hi1 hdiff hquot hsum
    exact CalculateScale_f32_exact min_scale max_scale stride_index num_strides h2 hn hi0 hi1
      hdiff hquot hsum

/-- Witness of C10 (amended): scales 0.25 to 0.75 over five strides; the value at the
last index is 0.75. -/
theorem CalculateScale_f32_boundary_witness :
    CalculateScale_f32 (1 / 4) (3 / 4) (5 - 1) 5 = fval.fin (3 / 4) :=
  (CalculateScale_f32_boundary (1 / 4) (3 / 4) 2 5 (by decide!) (by decide!) (by decide)
    (by decide)).2.2.1 (by decide!)

/-! ## Theorems on the anchor count -/

/-- C6 (as stated, refuted): with input size 16777217 and stride 16777216 the code
converts the size to `float`, which rounds it to 16777216, so the grid is 1 x 1 and
one anchor is pushed, while `ceil (input_size / stride)` is 2 and the claimed count
is 4.  With the negative input size -8 and stride 8 the grid is -1 x -1 and no
anchor is pushed, while the claimed product is 1. -/
theorem GenerateAnchors_count_differs :
    feature_map_size sample_options_large 0 = some (1, 1) ∧
      (GenerateAnchors id [] sample_options_large).map (fun r => r.2.length) = some 1 ∧
      ((spec_layer_starts sample_options_large.strides).map fun s =>
        Int.ceil ((sample_options_large.input_size_height : ℚ) /
            ((sample_options_large.strides.getD s 0 : Int) : ℚ)) *
          Int.ceil ((sample_options_large.input_size_width : ℚ) /
            ((sample_options_large.strides.getD s 0 : Int) : ℚ)) *
          ((spec_layer_aspect_ratios id sample_options_large s).length : Int)).sum = 4 ∧
      feature_map_size sample_options_negative 0 = some (-1, -1) ∧
      (GenerateAnchors id [] sample_options_negative).map (fun r => r.2.length) = some 0 ∧
      ((spec_layer_starts sample_options_negative.strides).map fun s =>
        Int.ceil ((sample_options_negative.input_size_height : ℚ) /
            ((sample_options_negative.strides.getD s 0 : Int) : ℚ)) *
          Int.ceil ((sample_options_negative.input_size_width : ℚ) /
            ((sample_options_negative.strides.getD s 0 : Int) : ℚ)) *
          ((spec_layer_aspect_ratios id sample_options_negative s).length : Int)).sum = 1 := by
  have hl : feature_map_size sample_options_large 0 = some (1, 1) := by decide!
  have hn : feature_map_size sample_options_negative 0 = some (-1, -1) := by decide!
  refine ⟨hl, ?_, by decide!, hn, ?_, by decide!⟩
  · rw [GenerateAnchors_eq id sample_options_large [] (by decide!)]
    decide!
  · rw [GenerateAnchors_eq id sample_options_negative [] (by decide!)]
    decide!

/-- C6 (amended): for positive strides, and explicit arrays either absent or with an
entry for every stride, `GenerateAnchors` returns 0 and appends as many anchors as
the sum over the merged layers of `grid_h * grid_w * num_anchor_types_for_layer`,
a negative grid size counting as 0.  The number of anchor types of a layer is the
number of pairs accumulated over its sub-layers.  Without explicit arrays the grid
is the ceiling of the `float` quotient of the `float` values of the input size and
the stride; for input sizes from 0 to 2^24 - 1 and strides below 2^31 this is
`ceil (input_size / stride)`, and the count is the sum of the plain products. -/
theorem GenerateAnchors_count_float_grid (sqrt : ℚ → ℚ)
    (options : SsdAnchorsCalculatorOptions) (anchors : List Anchor)
    (hpos : ∀ v ∈ options.strides, 0 < v)
    (harr : options.feature_map_height = [] ∨
      (options.strides.length ≤ options.feature_map_height.length ∧
        options.strides.length ≤ options.feature_map_width.length)) :
    ∃ pushed : List Anchor,
      GenerateAnchors sqrt anchors options = some (0, anchors ++ pushed) ∧
      pushed.length = ((spec_layer_starts options.strides).map fun s =>
        ((feature_map_size options s).getD (0, 0)).1.toNat *
          ((feature_map_size options s).getD (0, 0)).2.toNat *
          (spec_layer_aspect_ratios sqrt options s).length).sum ∧
      (∀ s, (spec_layer_aspect_ratios sqrt options s).length =
        ((List.range' s (spec_layer_end options.strides s - s)).map fun i =>
          if i = 0 ∧ options.reduce_boxes_in_lowest_layer = true then 3
          else options.aspect_ratios.length +
            if options.interpolated_scale_aspect_ratio > 0 then 1 else 0).sum) ∧
      (options.feature_map_height = [] →
        (∀ s ∈ spec_layer_starts options.strides, feature_map_size options s =
          some (ceil_float_quotient options.input_size_height (options.strides.getD s 0),
            ceil_float_quotient options.input_size_width (options.strides.getD s 0))) ∧
        (0 ≤ options.input_size_height → options.input_size_height < 2 ^ 24 →
          0 ≤ options.input_size_width → options.input_size_width < 2 ^ 24 →
          (∀ v ∈ options.strides, v < 2 ^ 31) →
          (∀ s ∈ spec_layer_starts options.strides, feature_map_size options s =
            some (Int.ceil ((options.input_size_height : ℚ) /
                ((options.strides.getD s 0 : Int) : ℚ)),
              Int.ceil ((options.input_size_width : ℚ) /
                ((options.strides.getD s 0 : Int) : ℚ)))) ∧
          ((pushed.length : Nat) : Int) = ((spec_layer_starts options.strides).map fun s =>
            Int.ceil ((options.input_size_height : ℚ) / ((options.strides.getD s 0 : Int) : ℚ)) *
              Int.ceil ((options.input_size_width : ℚ) / ((options.strides.getD s 0 : Int) : ℚ)) *
              ((spec_layer_aspect_ratios sqrt options s).length : Int)).sum)) := by
  have hmem : ∀ s ∈ spec_layer_starts options.strides,
      options.strides.getD s 0 ∈ options.strides := by
    intro s hs
    have hlt := mem_spec_layer_starts _ s hs
    rw [List.getD_eq_getElem _ 0 hlt]
    exact List.getElem_mem hlt
  have hstride : ∀ s ∈ spec_layer_starts options.strides, 0 < options.strides.getD s 0 :=
    fun s hs => hpos _ (hmem s hs)
  have hnoarr : options.feature_map_height = [] →
      ∀ s ∈ spec_layer_starts options.strides, feature_map_size options s =
        some (ceil_float_quotient options.input_size_height (options.strides.getD s 0),
          ceil_float_quotient options.input_size_width (options.strides.getD s 0)) :=
    fun hnil s hs => feature_map_size_of_no_arrays options s (ne_of_gt (hstride s hs)) hnil
  have hgrid : ∀ s ∈ spec_layer_starts options.strides,
      (feature_map_size options s).isSome = true := by
    intro s hs
    have hlt := mem_spec_layer_starts _ s hs
    by_cases hnil : options.feature_map_height = []
    · rw [hnoarr hnil s hs]
      rfl
    · rcases harr with h | ⟨hh, hw⟩
      · exact absurd h hnil
      · rw [feature_map_size_of_arrays options s hnil (by omega) (by omega)]
        rfl
  have hlen : ((spec_layer_starts options.strides).flatMap (spec_layer_block sqrt options)).length =
      ((spec_layer_starts options.strides).map fun s =>
        ((feature_map_size options s).getD (0, 0)).1.toNat *
          ((feature_map_size options s).getD (0, 0)).2.toNat *
          (spec_layer_aspect_ratios sqrt options s).length).sum := by
    rw [List.length_flatMap]
    congr 1
    apply List.map_congr_left
    intro s hs
    obtain ⟨⟨gh, gw⟩, hg⟩ := Option.isSome_iff_exists.mp (hgrid s hs)
    have hblock := (emit_anchors_spec options gh gw
      (anchor_heights sqrt (spec_layer_aspect_ratios sqrt options s) (spec_layer_scales sqrt options s))
      (anchor_widths sqrt (spec_layer_aspect_ratios sqrt options s) (spec_layer_scales sqrt options s))).1
    rw [(anchor_heights_spec sqrt _ _).1] at hblock
    simp only [Function.comp, spec_layer_block, hg, Option.getD_some, hblock]
  refine ⟨(spec_layer_starts options.strides).flatMap (spec_layer_block sqrt options),
    GenerateAnchors_eq sqrt options anchors hgrid, hlen, ?_, ?_⟩
  · intro s
    rw [(layer_pairs_length sqrt options s).2]
    congr 1
    apply List.map_congr_left
    intro i _
    exact (sub_layer_pairs_length sqrt options i).2
  · intro hnil
    refine ⟨hnoarr hnil, ?_⟩
    intro hH hH24 hW hW24 hs31
    have hexact : ∀ s ∈ spec_layer_starts options.strides, feature_map_size options s =
        some (Int.ceil ((options.input_size_height : ℚ) /
            ((options.strides.getD s 0 : Int) : ℚ)),
          Int.ceil ((options.input_size_width : ℚ) /
            ((options.strides.getD s 0 : Int) : ℚ))) := by
      intro s hs
      rw [hnoarr hnil s hs,
        ceil_float_quotient_eq _ _ hH hH24 (hstride s hs) (hs31 _ (hmem s hs)),
        ceil_float_quotient_eq _ _ hW hW24 (hstride s hs) (hs31 _ (hmem s hs))]
    refine ⟨hexact, ?_⟩
    rw [hlen]
    apply cast_sum_map_eq
    intro s hs
    have hs0 : (0 : ℚ) < ((options.strides.getD s 0 : Int) : ℚ) := by
      exact_mod_cast hstride s hs
    have hHq : (0 : ℚ) ≤ (options.input_size_height : ℚ) := by exact_mod_cast hH
    have hWq : (0 : ℚ) ≤ (options.input_size_width : ℚ) := by exact_mod_cast hW
    rw [hexact s hs]
    simp only [Option.getD_some, Nat.cast_mul]
    rw [Int.toNat_of_nonneg (Int.ceil_nonneg (div_nonneg hHq hs0.le)),
      Int.toNat_of_nonneg (Int.ceil_nonneg (div_nonneg hWq hs0.le))]

/-- Witness of C6 (amended): the sample configuration without explicit arrays, on a
16 x 16 input. -/
theorem GenerateAnchors_count_float_grid_witness :
    ∃ pushed : List Anchor,
      GenerateAnchors id [] sample_options = some (0, [] ++ pushed) ∧
      ((pushed.length : Nat) : Int) = ((spec_layer_starts sample_options.strides).map fun s =>
        Int.ceil ((sample_options.input_size_height : ℚ) /
            ((sample_options.strides.getD s 0 : Int) : ℚ)) *
          Int.ceil ((sample_options.input_size_width : ℚ) /
            ((sample_options.strides.getD s 0 : Int) : ℚ)) *
          ((spec_layer_aspect_ratios id sample_options s).length : Int)).sum := by
  obtain ⟨pushed, h1, _, _, h4⟩ := GenerateAnchors_count_float_grid id sample_options []
    (by decide) (Or.inl rfl)
  exact ⟨pushed, h1, ((h4 rfl).2 (by decide) (by decide) (by decide) (by decide)
    (by decide)).2⟩

end GlueMediapipe
